import Mathlib

/-!
# Distributed Dijkstra by token passing (`dijkstra.go`)

Every graph node is a process that knows only its own outgoing edges.  One
token, carrying the cost table and the visited set, travels from process to
process; the process holding it relaxes its own edges and picks the next
holder.

The embedding follows `dijkstra.go`:

* Go's `map[string]int` and `map[string]bool` are association lists with
  pairwise distinct keys (`KeysNodup`); `m[k]` is `costGet`/`visGet` (zero value
  for an absent key), `_, found := m[k]` is `mapGet?`, `m[k] = v` is `mapSet`.
* `for k, v := range m` visits the entries of `m` in an order Go leaves
  unspecified: the loop is a fold over `it m`, where `it` is any function
  returning a permutation of its argument (`IterOK`).
* Go's `int` is taken at its 64-bit width: `+` is `addInt`, addition followed
  by two's-complement wrap-around (`wrapInt`).
* The values a process takes out of `chEdges`, `chVis`, `chCost` are the
  arguments of `ProcessThisNode`; the values it puts back, and the destination
  of the frame it sends, are the fields of its `Outcome`.
* The channels themselves are one-slot buffers (`Chan`), the package-level
  variables of a process are a `NodeState`, and `NodeState.SendCreateEdge`,
  `NodeState.HandleProcessThisNode`, `NodeState.ProcessThisNode`,
  `NodeState.StartDijkstra` are the Go functions on them; `send` is its boolean
  result `net`, and `json.Marshal`, `json.Unmarshal`, `strconv.Atoi` are the
  fields of a `Codec`.
* A map that travels through a channel may be Go's nil map, which
  `json.Unmarshal` leaves for the payload `null`: a slot holds `some m` or
  `none`.  Reading a nil map gives the zero value, assigning to an entry of it
  panics.  The maps of a run are never nil: `StartDijkstra` makes them, and
  every step hands on the maps it worked on.
-/

namespace Dijkstra

/-! ## Data model -/

/-- Go `type Edge struct { remote string; cost int }`. -/
structure Edge where
  remote : String
  cost : Int
deriving DecidableEq, Repr

/-- Go `map[string]int`: best cost to each node from the source. -/
abbrev CostMap := List (String × Int)

/-- Go `map[string]bool`: visited nodes so far. -/
abbrev VisMap := List (String × Bool)

/-- The keys of a map, in representation order. -/
def keys {β : Type} (m : List (String × β)) : List String := m.map Prod.fst

/-- Representation invariant of a Go map: no key occurs twice. -/
def KeysNodup {β : Type} (m : List (String × β)) : Prop := (keys m).Nodup

instance instDecidableKeysNodup {β : Type} (m : List (String × β)) : Decidable (KeysNodup m) :=
  inferInstanceAs (Decidable (keys m).Nodup)

/-- Go `v, found := m[k]`. -/
def mapGet? {β : Type} : List (String × β) → String → Option β
  | [], _ => none
  | (k', v) :: t, k => if k' = k then some v else mapGet? t k

/-- Go `m[k] = v`: overwrite the entry of `k`, or add one. -/
def mapSet {β : Type} : List (String × β) → String → β → List (String × β)
  | [], k, v => [(k, v)]
  | (k', v') :: t, k, v => if k' = k then (k, v) :: t else (k', v') :: mapSet t k v

/-- Go `vis[k]`: `false` for an absent key. -/
def visGet (vis : VisMap) (k : String) : Bool := (mapGet? vis k).getD false

/-- Go `costs[k]`: `0` for an absent key. -/
def costGet (costs : CostMap) (k : String) : Int := (mapGet? costs k).getD 0

/-- Two's-complement wrap-around of a 64-bit signed integer. -/
def wrapInt (x : Int) : Int :=
  (x + 9223372036854775808) % 18446744073709551616 - 9223372036854775808

/-- Go `a + b` on `int`. -/
def addInt (a b : Int) : Int := wrapInt (a + b)

/-- The constant `100000000` of `ProcessThisNode` ("10^8, treating this as infinity"). -/
def infinity : Int := 100000000

/-- The cost table and the visited set, as they travel together. -/
structure Tables where
  vis : VisMap
  costs : CostMap
deriving DecidableEq, Repr

/-! ## `ProcessThisNode` -/

/-- One iteration of `for _, edge := range edges` (lines 111-127). -/
def relaxEdge (myCost : Int) (t : Tables) (e : Edge) : Tables :=
  let newDist := addInt myCost e.cost
  let t1 : Tables :=
    if (mapGet? t.vis e.remote).isSome then t
    else ⟨mapSet t.vis e.remote false, mapSet t.costs e.remote newDist⟩
  if visGet t1.vis e.remote then t1
  else if newDist < costGet t1.costs e.remote then
    ⟨t1.vis, mapSet t1.costs e.remote newDist⟩
  else t1

/-- The relaxation loop on the tables it finds at loop entry, `myCost` being the
value read by `myCost := costs[host]` (lines 111-127). -/
def relaxLoop (myCost : Int) (edges : List Edge) (t : Tables) : Tables :=
  edges.foldl (relaxEdge myCost) t

/-- Lines 108-127: mark the host visited, read its cost, relax its edges. -/
def relax (host : String) (edges : List Edge) (t : Tables) : Tables :=
  relaxLoop (costGet t.costs host) edges ⟨mapSet t.vis host true, t.costs⟩

/-- One iteration of `for remote, cost := range costs` (lines 133-138), on the
pair `(bestNode, bestCost)`. -/
def chooseStep (vis : VisMap) (best : String × Int) (kv : String × Int) : String × Int :=
  if !visGet vis kv.1 && decide (kv.2 < best.2) then kv else best

/-- Lines 131-138: the selection loop over the entries `ord` of `costs`, in the
order the `range` clause delivers them. -/
def chooseNext (vis : VisMap) (ord : List (String × Int)) : String × Int :=
  ord.foldl (chooseStep vis) ("", infinity)

/-- What `ProcessThisNode` leaves behind: the tables it puts back into `chVis`
and `chCost`, and, when a frame is sent, its destination and the hop order
it carries. -/
structure Outcome where
  vis : VisMap
  costs : CostMap
  next : Option (String × Int)
deriving DecidableEq, Repr

/-- Go `ProcessThisNode(order)` on the values taken from the channels; `it` is the
order in which `range costs` delivers the entries. -/
def ProcessThisNode (it : CostMap → CostMap) (host : String) (edges : List Edge)
    (vis : VisMap) (costs : CostMap) (order : Int) : Outcome :=
  let t := relax host edges ⟨vis, costs⟩
  let best := chooseNext t.vis (it t.costs)
  if best.1 ≠ "" then ⟨t.vis, t.costs, some (best.1, addInt order 1)⟩
  else ⟨t.vis, t.costs, none⟩

/-- Go `StartDijkstra()`: `visited = {}`, `costs = {host: 0}`, `ProcessThisNode(1)`. -/
def StartDijkstra (it : CostMap → CostMap) (host : String) (edges : List Edge) : Outcome :=
  ProcessThisNode it host edges [] [(host, 0)] 1

/-! ## The run -/

/-- The distributed graph: each process with the edge list it owns. -/
abbrev Graph := List (String × List Edge)

/-- The edge list held by process `h` (empty when `h` registered none). -/
def edgesOf (G : Graph) (h : String) : List Edge := (mapGet? G h).getD []

/-- A token arriving at `host`: the tables it carries and its hop order. -/
structure Config where
  host : String
  vis : VisMap
  costs : CostMap
  order : Int
deriving DecidableEq, Repr

/-- The state `StartDijkstra` sets up on the source before `ProcessThisNode(1)`. -/
def startConfig (s : String) : Config := ⟨s, [], [(s, 0)], 1⟩

/-- The process holding the token runs `ProcessThisNode` on its own edge list. -/
def step (G : Graph) (it : CostMap → CostMap) (c : Config) : Outcome :=
  ProcessThisNode it c.host (edgesOf G c.host) c.vis c.costs c.order

/-- The token a forwarding outcome delivers to the chosen process. -/
def nextConfig (o : Outcome) : Option Config :=
  match o.next with
  | none => none
  | some (n, ord) => some ⟨n, o.vis, o.costs, ord⟩

/-- The hops of a run from configuration `c`, each with the outcome of its
`ProcessThisNode`; hop number `k` iterates `costs` in the order `iter k`. -/
def trace (G : Graph) (iter : Nat → CostMap → CostMap) : Nat → Nat → Config →
    List (Config × Outcome)
  | 0, _, _ => []
  | fuel + 1, k, c =>
    (c, step G (iter k) c) ::
      match nextConfig (step G (iter k) c) with
      | none => []
      | some c' => trace G iter fuel (k + 1) c'

/-- The outcome at the process that finds no next node, if the run gets there
within `fuel` hops. -/
def runResult (G : Graph) (iter : Nat → CostMap → CostMap) : Nat → Nat → Config →
    Option Outcome
  | 0, _, _ => none
  | fuel + 1, k, c =>
    match nextConfig (step G (iter k) c) with
    | none => some (step G (iter k) c)
    | some c' => runResult G iter fuel (k + 1) c'

/-- A whole run: `StartDijkstra` on the source `s`, then the token's hops. -/
def runTrace (G : Graph) (iter : Nat → CostMap → CostMap) (fuel : Nat) (s : String) :
    List (Config × Outcome) :=
  trace G iter fuel 0 (startConfig s)

/-- The final outcome of a whole run from source `s`. -/
def runFinal (G : Graph) (iter : Nat → CostMap → CostMap) (fuel : Nat) (s : String) :
    Option Outcome :=
  runResult G iter fuel 0 (startConfig s)

/-- Every `range` loop visits each entry exactly once, in some order. -/
def IterOK (iter : Nat → CostMap → CostMap) : Prop := ∀ k m, (iter k m).Perm m

/-- The iteration order that follows the representation. -/
def iterId : Nat → CostMap → CostMap := fun _ m => m

/-! ## Graph-level notions -/

/-- All edge costs are non-negative. -/
def NonNeg (G : Graph) : Prop := ∀ p ∈ G, ∀ e ∈ p.2, 0 ≤ e.cost

instance instDecidableNonNeg (G : Graph) : Decidable (NonNeg G) :=
  inferInstanceAs (Decidable (∀ p ∈ G, ∀ e ∈ p.2, 0 ≤ e.cost))

/-- A walk `Walk G s v w` follows edges of `G` from `s` to `v`, with total cost `w`. -/
inductive Walk (G : Graph) (s : String) : String → Int → Prop
  | nil : Walk G s s 0
  | cons {u : String} {w : Int} (e : Edge) :
      Walk G s u w → e ∈ edgesOf G u → Walk G s e.remote (w + e.cost)

/-- Node `v` is reachable from `s`. -/
def Reachable (G : Graph) (s v : String) : Prop := ∃ w, Walk G s v w

/-- The value `d` is the true shortest-path distance from `s` to `v`. -/
def IsDist (G : Graph) (s v : String) (d : Int) : Prop :=
  Walk G s v d ∧ ∀ w, Walk G s v w → d ≤ w

/-! ## Scenarios of the specification -/

/-- Scenario A: `A→B (5)`, `A→C (2)`, `C→B (1)`. -/
def scenarioA : Graph :=
  [("A", [⟨"B", 5⟩, ⟨"C", 2⟩]), ("C", [⟨"B", 1⟩])]

/-- Scenario B: scenario A plus a node `D` with an edge of its own. -/
def scenarioB : Graph :=
  [("A", [⟨"B", 5⟩, ⟨"C", 2⟩]), ("C", [⟨"B", 1⟩]), ("D", [⟨"A", 1⟩])]

/-! ## Closed form of the relaxation loop -/

/-- The costs the relaxation loop offers to remote `r`: one per edge `(r, c)` of
the edge list, in registration order. -/
def offers (myCost : Int) (edges : List Edge) (r : String) : List Int :=
  (edges.filter (fun e => e.remote = r)).map (fun e => addInt myCost e.cost)

/-- The values the specification takes the minimum of: the previous cost of `r`
when `r` is already discovered (has a `visited` entry), and the offers. -/
def candidates (myCost : Int) (edges : List Edge) (t : Tables) (r : String) : List Int :=
  (match mapGet? t.vis r with
    | some _ => [costGet t.costs r]
    | none => []) ++ offers myCost edges r

/-- The value `v` is the minimum of the list `l`. -/
def IsMinOf (v : Int) (l : List Int) : Prop := v ∈ l ∧ ∀ c ∈ l, v ≤ c

/-- All keys of the tables of a configuration, and its host, are reachable. -/
def KeysReachable (G : Graph) (s : String) (c : Config) : Prop :=
  Reachable G s c.host ∧ (∀ n b, mapGet? c.vis n = some b → Reachable G s n) ∧
    ∀ n v, mapGet? c.costs n = some v → Reachable G s n

/-- The largest edge cost that cannot wrap around when added to the cost of a node
being processed, which is below `infinity`: `2^63 - 10^8`. -/
def maxEdgeCost : Int := 9223372036754775808

/-- No edge cost exceeds `maxEdgeCost`. -/
def CostsFit (G : Graph) : Prop := ∀ p ∈ G, ∀ e ∈ p.2, e.cost ≤ maxEdgeCost

instance instDecidableCostsFit (G : Graph) : Decidable (CostsFit G) :=
  inferInstanceAs (Decidable (∀ p ∈ G, ∀ e ∈ p.2, e.cost ≤ maxEdgeCost))

/-- Every node reachable from `s` has a walk of cost below `infinity`. -/
def DistancesBelowInfinity (G : Graph) (s : String) : Prop :=
  ∀ v, Reachable G s v → ∃ w, Walk G s v w ∧ w < infinity

/-- The least value of a Go `int`. -/
def minInt : Int := -9223372036854775808

/-- The part of Dijkstra's invariant that survives wrap-around, on the tables a
`ProcessThisNode` step leaves: finalized costs are lower bounds of all walk
costs, and every edge out of a finalized node has been relaxed. -/
structure TokenInv (G : Graph) (s : String) (vis : VisMap) (costs : CostMap) : Prop where
  nodup : KeysNodup costs
  sync : ∀ n b, mapGet? vis n = some b → ∃ v, mapGet? costs n = some v
  syncRev : ∀ n v, mapGet? costs n = some v → ∃ b, mapGet? vis n = some b
  source : mapGet? vis s = some true
  range : ∀ n v, mapGet? costs n = some v → minInt ≤ v
  lower : ∀ n v, mapGet? vis n = some true → mapGet? costs n = some v →
    ∀ w, Walk G s n w → v ≤ w
  relaxed : ∀ u cu, mapGet? vis u = some true → mapGet? costs u = some cu →
    ∀ e ∈ edgesOf G u, mapGet? vis e.remote = some true ∨
      ∃ c, mapGet? costs e.remote = some c ∧ c ≤ addInt cu e.cost

/-- The same invariant on a token arriving at its next host. -/
structure ArriveInv (G : Graph) (s : String) (c : Config) : Prop where
  nodup : KeysNodup c.costs
  sync : ∀ n b, mapGet? c.vis n = some b → ∃ v, mapGet? c.costs n = some v
  syncRev : ∀ n v, mapGet? c.costs n = some v → n = c.host ∨ ∃ b, mapGet? c.vis n = some b
  hostCost : ∃ ch, mapGet? c.costs c.host = some ch ∧ ∀ w, Walk G s c.host w → ch ≤ w
  hostUnvisited : mapGet? c.vis c.host ≠ some true
  source : c.host = s ∨ mapGet? c.vis s = some true
  range : ∀ n v, mapGet? c.costs n = some v → minInt ≤ v
  lower : ∀ n v, mapGet? c.vis n = some true → mapGet? c.costs n = some v →
    ∀ w, Walk G s n w → v ≤ w
  relaxed : ∀ u cu, mapGet? c.vis u = some true → mapGet? c.costs u = some cu →
    ∀ e ∈ edgesOf G u, mapGet? c.vis e.remote = some true ∨
      ∃ v, mapGet? c.costs e.remote = some v ∧ v ≤ addInt cu e.cost

/-- Exactness of an arriving token, which needs sums that do not wrap: every
cost entry is the cost of a walk, and the host and the finalized nodes cost
less than `infinity`. -/
structure ArriveExact (G : Graph) (s : String) (c : Config) : Prop where
  walk : ∀ n v, mapGet? c.costs n = some v → Walk G s n v
  below : ∀ n v, mapGet? c.vis n = some true ∨ n = c.host → mapGet? c.costs n = some v →
    v < infinity

/-- The remotes of all registered edges. -/
def remotes : Graph → List String
  | [] => []
  | p :: G => p.2.map Edge.remote ++ remotes G

/-- The source and every node some edge leads to. -/
def nodeIds (G : Graph) (s : String) : List String := s :: remotes G

/-- The number of distinct node ids among `nodeIds`. -/
def nodeCount (G : Graph) (s : String) : Nat := (nodeIds G s).dedup.length

/-- A graph with an edge as expensive as the constant `infinity`: `A→B (10^8)`,
`B→C (1)`. -/
def sentinelGraph : Graph :=
  [("A", [⟨"B", 100000000⟩]), ("B", [⟨"C", 1⟩])]

/-- A graph with an edge of the largest `int` cost: `A→C (1)`, `A→B (2)`,
`C→B (2^63 - 1)`. -/
def overflowGraph : Graph :=
  [("A", [⟨"C", 1⟩, ⟨"B", 2⟩]), ("C", [⟨"B", 9223372036854775807⟩])]

/-! ## Frames, channels and the node process -/

/-- Go `const CmdCreateEdge`. -/
def CmdCreateEdge : String := "CreateEdge"

/-- Go `const CmdProcessNode`. -/
def CmdProcessNode : String := "ProcessNode"

/-- Go `type Frame struct { Cmd, Sender string; Data []string }`. -/
structure Frame where
  Cmd : String
  Sender : String
  Data : List String
deriving DecidableEq, Repr

/-- Go `strconv.Itoa`: the decimal representation of an `int`. -/
def Itoa (n : Int) : String := toString n

/-- The library functions the node calls on the token's payload:
`json.Marshal` and `json.Unmarshal` on the two map types, and `strconv.Atoi`
(whose error result the code discards).  `unmarshalCosts d` and
`unmarshalVis d` are the value of the map variable after
`json.Unmarshal([]byte(d), &m)`: `none` is the nil map, which `json.Unmarshal`
leaves for the payload `null`. -/
structure Codec where
  marshalCosts : CostMap → String
  marshalVis : VisMap → String
  unmarshalCosts : String → Option CostMap
  unmarshalVis : String → Option VisMap
  atoi : String → Int

/-- A codec for the concrete instances: it writes a map as its entries
`key=value;`, reads the payload `null` as the nil map and every other payload
as the empty map, and reads every order as 0. -/
def sampleCodec : Codec where
  marshalCosts := fun m => String.join (m.map fun p => p.1 ++ "=" ++ Itoa p.2 ++ ";")
  marshalVis := fun m => String.join (m.map fun p => p.1 ++ "=" ++ toString p.2 ++ ";")
  unmarshalCosts := fun d => if d = "null" then none else some []
  unmarshalVis := fun d => if d = "null" then none else some []
  atoi := fun _ => 0

/-- A channel made by `make(chan T, 1)`: its one slot is empty or holds a value. -/
abbrev Chan (α : Type) := Option α

/-- Go `ch <- v`: fills the empty slot; on an occupied slot the send does not
return (`none`). -/
def chanSend {α : Type} (ch : Chan α) (v : α) : Option (Chan α) :=
  match ch with
  | none => some (some v)
  | some _ => none

/-- Go `v := <-ch`: empties the occupied slot; on an empty slot the receive does
not return (`none`). -/
def chanRecv {α : Type} (ch : Chan α) : Option (α × Chan α) :=
  match ch with
  | some v => some (v, none)
  | none => none

/-- The package-level variables of one process: `host`, `chEdges`, `chCost`,
`chVis`.  A map held in a slot is `some m`, or `none` for the nil map. -/
structure NodeState where
  host : String
  chEdges : Chan (List Edge)
  chCost : Chan (Option CostMap)
  chVis : Chan (Option VisMap)
deriving DecidableEq, Repr

/-- The channels as `main` sets them up: `chEdges <- []Edge{}`, the other two
empty. -/
def initNode (host : String) : NodeState := ⟨host, some [], none, none⟩

/-- How a call ends when no other call of the process is in progress: it
returns, or it waits on a channel operation (which no later call can release:
the only receives from `chCost` and `chVis` are in `ProcessThisNode`, reached
only after a send on each of them), or it panics, on an index out of range or
on an assignment to an entry of a nil map, which ends the program. -/
inductive Exec (α : Type) where
  | done (a : α)
  | blocked
  | panicked
deriving DecidableEq, Repr

/-- What a returning call leaves: the variables of the process and the calls of
`send` it made, each with its destination, in order. -/
structure Effect where
  node : NodeState
  sends : List (String × Frame)
deriving DecidableEq, Repr

/-- Go `SendCreateEdge(edge)`; `net remote frame` is the result of
`send(remote, frame, nil)`, true when the connection was established. -/
def NodeState.SendCreateEdge (st : NodeState) (net : String → Frame → Bool) (edge : Edge) :
    Exec Effect :=
  let msg : Frame := ⟨CmdCreateEdge, st.host, [Itoa edge.cost]⟩
  if net edge.remote msg then
    match chanRecv st.chEdges with
    | none => Exec.blocked
    | some (edges, chE) =>
      match chanSend chE (edges ++ [edge]) with
      | none => Exec.blocked
      | some chE' => Exec.done ⟨⟨st.host, chE', st.chCost, st.chVis⟩, [(edge.remote, msg)]⟩
  else Exec.done ⟨st, [(edge.remote, msg)]⟩

/-- One iteration of `for _, edge := range edges` (lines 111-127) when `costs` is
the nil map: `costs[edge.remote]` reads 0, and the assignment
`costs[edge.remote] = newDist`, at line 117 or at line 125, panics (`none`). -/
def relaxEdgeNil (myCost : Int) (vis : VisMap) (e : Edge) : Option VisMap :=
  let newDist := addInt myCost e.cost
  if (mapGet? vis e.remote).isSome then
    if visGet vis e.remote then some vis
    else if newDist < 0 then none
    else some vis
  else none

/-- The relaxation loop when `costs` is the nil map: `none` when it panics. -/
def relaxLoopNil (myCost : Int) : List Edge → VisMap → Option VisMap
  | [], vis => some vis
  | e :: es, vis =>
    match relaxEdgeNil myCost vis e with
    | none => none
    | some vis' => relaxLoopNil myCost es vis'

/-- Go `ProcessThisNode(order)` on the channels of the process: the three
receives, the work of `Dijkstra.ProcessThisNode`, the call of `send` (whose
result `net bestNode msg` is discarded), the three sends.  On a nil visited
map `vis[host] = true` (line 108) panics; on a nil cost map `costs[host]` reads
0, the relaxation loop is `relaxLoopNil`, and `range costs` finds no entry, so
no node is chosen. -/
def NodeState.ProcessThisNode (st : NodeState) (cd : Codec) (it : CostMap → CostMap)
    (net : String → Frame → Bool) (order : Int) : Exec Effect :=
  match chanRecv st.chEdges with
  | none => Exec.blocked
  | some (edges, chE) =>
    match chanRecv st.chVis with
    | none => Exec.blocked
    | some (visMap, chV) =>
      match chanRecv st.chCost with
      | none => Exec.blocked
      | some (costMap, chC) =>
        match visMap with
        | none => Exec.panicked
        | some vis =>
          match costMap with
          | none =>
            match relaxLoopNil 0 edges (mapSet vis st.host true) with
            | none => Exec.panicked
            | some vis' =>
              match chanSend chE edges with
              | none => Exec.blocked
              | some chE' =>
                match chanSend chC (none : Option CostMap) with
                | none => Exec.blocked
                | some chC' =>
                  match chanSend chV (some vis') with
                  | none => Exec.blocked
                  | some chV' => Exec.done ⟨⟨st.host, chE', chC', chV'⟩, []⟩
          | some costs =>
            let o := Dijkstra.ProcessThisNode it st.host edges vis costs order
            let sends : List (String × Frame) :=
              match o.next with
              | some (bestNode, ord) =>
                let msg : Frame := ⟨CmdProcessNode, st.host,
                  [cd.marshalCosts o.costs, cd.marshalVis o.vis, "", Itoa ord]⟩
                let _delivered := net bestNode msg
                [(bestNode, msg)]
              | none => []
            match chanSend chE edges with
            | none => Exec.blocked
            | some chE' =>
              match chanSend chC (some o.costs) with
              | none => Exec.blocked
              | some chC' =>
                match chanSend chV (some o.vis) with
                | none => Exec.blocked
                | some chV' => Exec.done ⟨⟨st.host, chE', chC', chV'⟩, sends⟩

/-- Go `HandleProcessThisNode(frame)`: reads `Data[0]`, `Data[1]`, `Data[3]`
(an index out of range panics), sends the decoded maps, nil or not, into
`chCost` and `chVis`, calls `ProcessThisNode`. -/
def NodeState.HandleProcessThisNode (st : NodeState) (cd : Codec) (it : CostMap → CostMap)
    (net : String → Frame → Bool) (frame : Frame) : Exec Effect :=
  match frame.Data with
  | costData :: visData :: _ :: orderData :: _ =>
    match chanSend st.chCost (cd.unmarshalCosts costData) with
    | none => Exec.blocked
    | some chC =>
      match chanSend st.chVis (cd.unmarshalVis visData) with
      | none => Exec.blocked
      | some chV =>
        NodeState.ProcessThisNode ⟨st.host, st.chEdges, chC, chV⟩ cd it net (cd.atoi orderData)
  | _ => Exec.panicked

/-- Go `StartDijkstra()` on the channels of the process. -/
def NodeState.StartDijkstra (st : NodeState) (cd : Codec) (it : CostMap → CostMap)
    (net : String → Frame → Bool) : Exec Effect :=
  match chanSend st.chVis (some []) with
  | none => Exec.blocked
  | some chV =>
    match chanSend st.chCost (some [(st.host, 0)]) with
    | none => Exec.blocked
    | some chC => NodeState.ProcessThisNode ⟨st.host, st.chEdges, chC, chV⟩ cd it net 1

/-- A network on which every connection is established. -/
def netUp : String → Frame → Bool := fun _ _ => true

/-- A network on which no connection is established. -/
def netDown : String → Frame → Bool := fun _ _ => false

/-! ## Termination measure -/

/-- The number of nodes with `visited = true`. -/
def visitedCount (vis : VisMap) : Nat := (vis.filter (fun p => p.2)).length

/-- The distinct node ids appearing in the graph: the source, the processes
holding an edge list, and the remotes of the edges. -/
def graphIds (G : Graph) (s : String) : List String := (s :: (keys G ++ remotes G)).dedup

/-- What holds of every token of a run on its arrival: all keys are reachable,
no key occurs twice, and the host is not visited yet. -/
def RunInv (G : Graph) (s : String) (c : Config) : Prop :=
  KeysReachable G s c ∧ KeysNodup c.vis ∧ KeysNodup c.costs ∧
    mapGet? c.vis c.host ≠ some true

/-- The iteration "process the current node, forward to the chosen node": hop
number `a.1` processes the token `a.2` and forwards the token `b.2`. -/
def Hop (G : Graph) (iter : Nat → CostMap → CostMap) (s : String) (b a : Nat × Config) : Prop :=
  RunInv G s a.2 ∧ b.1 = a.1 + 1 ∧ nextConfig (step G (iter a.1) a.2) = some b.2

/-- The number of node ids not yet visited: the measure that decreases along `Hop`. -/
def hopsLeft (G : Graph) (s : String) (a : Nat × Config) : Nat :=
  nodeCount G s - visitedCount a.2.vis

/-! ## Greedy order -/

/-- The host of an arriving token costs no more than any unvisited entry. -/
def HostLeast (c : Config) : Prop :=
  ∀ y cy, mapGet? c.costs y = some cy → visGet c.vis y = false →
    costGet c.costs c.host ≤ cy

/-- The cost of the node a hop processes, at the moment it is processed. -/
def hopCost (p : Config × Outcome) : Int := costGet p.1.costs p.1.host

/-! ## Tie-break independence -/

/-- Every cost entry other than the source's is an offer made by a finalized
node along one of its edges. -/
def OriginInv (G : Graph) (s : String) (vis : VisMap) (costs : CostMap) : Prop :=
  ∀ n v, mapGet? costs n = some v → n = s ∨
    ∃ u cu e, mapGet? vis u = some true ∧ mapGet? costs u = some cu ∧
      e ∈ edgesOf G u ∧ e.remote = n ∧ v = addInt cu e.cost

/-- What holds of the tables of the terminating node when no sum wraps and the
empty id is no key. -/
structure Settled (G : Graph) (s : String) (o : Outcome) : Prop where
  inv : TokenInv G s o.vis o.costs
  walk : ∀ n v, mapGet? o.costs n = some v → Walk G s n v
  below : ∀ n v, mapGet? o.vis n = some true → mapGet? o.costs n = some v → v < infinity
  origin : OriginInv G s o.vis o.costs
  allGe : ∀ k c, mapGet? o.costs k = some c → visGet o.vis k = false → infinity ≤ c

/-- The iteration order opposite to the representation. -/
def iterRev : Nat → CostMap → CostMap := fun _ m => m.reverse

/-- A graph with a tie: `A→B (1)`, `A→C (1)`, `B→D (1)`, `C→D (1)`. -/
def diamondGraph : Graph :=
  [("A", [⟨"B", 1⟩, ⟨"C", 1⟩]), ("B", [⟨"D", 1⟩]), ("C", [⟨"D", 1⟩])]

/-- A graph with a tie and an edge of the largest `int` cost: `A→B (1)`,
`A→C (1)`, `B→C (2^63 - 1)`. -/
def tieOverflowGraph : Graph :=
  [("A", [⟨"B", 1⟩, ⟨"C", 1⟩]), ("B", [⟨"C", 9223372036854775807⟩])]

/-! ## Maps -/

theorem mapGet?_mapSet {β : Type} (m : List (String × β)) (k : String) (v : β) (n : String) :
    mapGet? (mapSet m k v) n = if n = k then some v else mapGet? m n := by
  induction m with
  | nil =>
    by_cases h : n = k
    · simp [mapSet, mapGet?, h]
    · have h' : ¬ k = n := fun e => h e.symm
      simp [mapSet, mapGet?, h, h']
  | cons p t ih =>
    obtain ⟨k', v'⟩ := p
    by_cases hk : k' = k
    · by_cases h : n = k
      · simp [mapSet, mapGet?, hk, h]
      · have h' : ¬ k = n := fun e => h e.symm
        simp [mapSet, mapGet?, hk, h, h']
    · by_cases h : n = k
      · have h' : ¬ k' = n := fun e => hk (e.trans h)
        rw [if_pos h] at ih
        rw [if_pos h]
        simp only [mapSet, hk, if_false, mapGet?, h']
        exact ih
      · rw [if_neg h] at ih
        rw [if_neg h]
        simp only [mapSet, hk, if_false, mapGet?, ih]

theorem mapGet?_mapSet_same {β : Type} (m : List (String × β)) (k : String) (v : β) :
    mapGet? (mapSet m k v) k = some v := by
  simp [mapGet?_mapSet]

theorem mapGet?_mapSet_ne {β : Type} (m : List (String × β)) (k : String) (v : β)
    {n : String} (h : n ≠ k) : mapGet? (mapSet m k v) n = mapGet? m n := by
  simp [mapGet?_mapSet, h]

theorem mem_keys_iff {β : Type} (m : List (String × β)) (k : String) :
    k ∈ keys m ↔ ∃ v, mapGet? m k = some v := by
  induction m with
  | nil => simp [keys, mapGet?]
  | cons p t ih =>
    obtain ⟨k', v'⟩ := p
    by_cases hk : k' = k
    · simp [keys, mapGet?, hk]
    · have hk' : ¬ k = k' := fun e => hk e.symm
      have ih' : k ∈ List.map Prod.fst t ↔ ∃ v, mapGet? t k = some v := ih
      simp only [keys, List.map_cons, List.mem_cons, hk', false_or, mapGet?, hk, if_false, ih']

theorem mem_of_mapGet? {β : Type} {m : List (String × β)} {k : String} {v : β}
    (h : mapGet? m k = some v) : (k, v) ∈ m := by
  induction m with
  | nil => simp [mapGet?] at h
  | cons p t ih =>
    obtain ⟨k', v'⟩ := p
    by_cases hk : k' = k
    · simp only [mapGet?, hk, if_true, Option.some.injEq] at h
      simp [hk, h]
    · simp only [mapGet?, hk, if_false] at h
      exact List.mem_cons_of_mem _ (ih h)

theorem mapGet?_of_mem {β : Type} {m : List (String × β)} (hm : KeysNodup m) {k : String}
    {v : β} (h : (k, v) ∈ m) : mapGet? m k = some v := by
  induction m with
  | nil => simp at h
  | cons p t ih =>
    obtain ⟨k', v'⟩ := p
    have hnd : k' ∉ keys t ∧ KeysNodup t := by
      simpa [KeysNodup, keys] using hm
    rcases List.mem_cons.mp h with heq | hmem
    · have h1 : k = k' := congrArg Prod.fst heq
      have h2 : v = v' := congrArg Prod.snd heq
      simp [mapGet?, h1, h2]
    · have hne : ¬ k' = k := by
        intro e
        apply hnd.1
        rw [e]
        exact List.mem_map_of_mem Prod.fst hmem
      simp only [mapGet?, hne, if_false]
      exact ih hnd.2 hmem

theorem keys_mapSet {β : Type} (m : List (String × β)) (k : String) (v : β) :
    keys (mapSet m k v) = if k ∈ keys m then keys m else keys m ++ [k] := by
  induction m with
  | nil => simp [keys, mapSet]
  | cons p t ih =>
    obtain ⟨k', v'⟩ := p
    by_cases hk : k' = k
    · simp [keys, mapSet, hk]
    · have hk' : ¬ k = k' := fun e => hk e.symm
      have ih' : List.map Prod.fst (mapSet t k v) =
          if k ∈ List.map Prod.fst t then List.map Prod.fst t else List.map Prod.fst t ++ [k] := ih
      simp only [keys, mapSet, hk, if_false, List.map_cons, ih', List.mem_cons, hk', false_or]
      split <;> simp

theorem KeysNodup.mapSet {β : Type} {m : List (String × β)} (hm : KeysNodup m) (k : String)
    (v : β) : KeysNodup (mapSet m k v) := by
  unfold KeysNodup at *
  rw [keys_mapSet]
  split
  · exact hm
  · rename_i h
    exact List.Nodup.append hm (List.nodup_singleton k) (by simpa using h)

/-! ## One relaxation step -/

theorem relaxEdge_vis (m : Int) (t : Tables) (e : Edge) (n : String) :
    mapGet? (relaxEdge m t e).vis n =
      if n = e.remote ∧ mapGet? t.vis n = none then some false else mapGet? t.vis n := by
  unfold relaxEdge
  cases hv : mapGet? t.vis e.remote with
  | none =>
    by_cases hn : n = e.remote
    · simp [hv, hn, visGet, costGet, mapGet?_mapSet]
    · simp [hv, hn, visGet, costGet, mapGet?_mapSet]
  | some b =>
    have hn : ¬ (n = e.remote ∧ mapGet? t.vis n = none) := by
      rintro ⟨h1, h2⟩
      rw [h1, hv] at h2
      exact Option.noConfusion h2
    rw [if_neg hn]
    cases b
    · simp only [hv, visGet, Option.isSome_some, if_true, Option.getD_some]
      simp only [Bool.false_eq_true, if_false]
      split_ifs <;> rfl
    · simp [hv, visGet]

theorem relaxEdge_costs (m : Int) (t : Tables) (e : Edge) (n : String) :
    mapGet? (relaxEdge m t e).costs n =
      if n = e.remote then
        match mapGet? t.vis n with
        | none => some (addInt m e.cost)
        | some true => mapGet? t.costs n
        | some false =>
          if addInt m e.cost < costGet t.costs n then some (addInt m e.cost)
          else mapGet? t.costs n
      else mapGet? t.costs n := by
  unfold relaxEdge
  by_cases hn : n = e.remote
  · rw [if_pos hn, hn]
    cases hv : mapGet? t.vis e.remote with
    | none => simp [visGet, costGet, mapGet?_mapSet]
    | some b =>
      cases b
      · simp only [visGet, hv, Option.isSome_some, if_true, Option.getD_some]
        simp only [Bool.false_eq_true, if_false]
        split_ifs <;> simp [mapGet?_mapSet]
      · simp [visGet, hv]
  · rw [if_neg hn]
    cases hv : mapGet? t.vis e.remote with
    | none => simp [hn, visGet, costGet, mapGet?_mapSet]
    | some b =>
      cases b
      · simp only [visGet, hv, Option.isSome_some, if_true, Option.getD_some]
        simp only [Bool.false_eq_true, if_false]
        split_ifs <;> simp [mapGet?_mapSet, hn]
      · simp [visGet, hv]

theorem relaxEdge_vis_of_some {m : Int} {t : Tables} {e : Edge} {n : String} {b : Bool}
    (h : mapGet? t.vis n = some b) : mapGet? (relaxEdge m t e).vis n = some b := by
  rw [relaxEdge_vis, if_neg, h]
  rintro ⟨_, h2⟩
  rw [h] at h2
  exact Option.noConfusion h2

theorem relaxEdge_vis_cases {m : Int} {t : Tables} {e : Edge} {n : String} {b : Bool}
    (h : mapGet? (relaxEdge m t e).vis n = some b) :
    mapGet? t.vis n = some b ∨ (mapGet? t.vis n = none ∧ b = false ∧ e.remote = n) := by
  rw [relaxEdge_vis] at h
  split_ifs at h with hc
  · right
    exact ⟨hc.2, (Option.some.inj h).symm, hc.1.symm⟩
  · exact Or.inl h

theorem relaxEdge_vis_remote (m : Int) (t : Tables) (e : Edge) :
    ∃ b, mapGet? (relaxEdge m t e).vis e.remote = some b := by
  rw [relaxEdge_vis]
  cases hv : mapGet? t.vis e.remote with
  | none => exact ⟨false, by simp⟩
  | some b => exact ⟨b, by simp⟩

theorem relaxEdge_costs_ne {m : Int} {t : Tables} {e : Edge} {n : String}
    (h : e.remote ≠ n) : mapGet? (relaxEdge m t e).costs n = mapGet? t.costs n := by
  rw [relaxEdge_costs, if_neg (fun hn => h hn.symm)]

theorem relaxEdge_costs_new {m : Int} {t : Tables} {e : Edge}
    (h : mapGet? t.vis e.remote = none) :
    mapGet? (relaxEdge m t e).costs e.remote = some (addInt m e.cost) := by
  rw [relaxEdge_costs, if_pos rfl, h]

theorem relaxEdge_costs_visited {m : Int} {t : Tables} {e : Edge}
    (h : mapGet? t.vis e.remote = some true) :
    mapGet? (relaxEdge m t e).costs e.remote = mapGet? t.costs e.remote := by
  rw [relaxEdge_costs, if_pos rfl, h]

theorem relaxEdge_costs_lt {m : Int} {t : Tables} {e : Edge}
    (h : mapGet? t.vis e.remote = some false) (hlt : addInt m e.cost < costGet t.costs e.remote) :
    mapGet? (relaxEdge m t e).costs e.remote = some (addInt m e.cost) := by
  rw [relaxEdge_costs, if_pos rfl, h]
  exact if_pos hlt

theorem relaxEdge_costs_ge {m : Int} {t : Tables} {e : Edge}
    (h : mapGet? t.vis e.remote = some false)
    (hge : ¬ addInt m e.cost < costGet t.costs e.remote) :
    mapGet? (relaxEdge m t e).costs e.remote = mapGet? t.costs e.remote := by
  rw [relaxEdge_costs, if_pos rfl, h]
  exact if_neg hge

theorem relaxEdge_costs_of_visited {m : Int} {t : Tables} {e : Edge} {n : String}
    (h : mapGet? t.vis n = some true) :
    mapGet? (relaxEdge m t e).costs n = mapGet? t.costs n := by
  by_cases hn : e.remote = n
  · subst hn
    exact relaxEdge_costs_visited h
  · exact relaxEdge_costs_ne hn

theorem relaxEdge_vis_ne {m : Int} {t : Tables} {e : Edge} {n : String}
    (h : e.remote ≠ n) : mapGet? (relaxEdge m t e).vis n = mapGet? t.vis n := by
  rw [relaxEdge_vis, if_neg (fun hn => h hn.1.symm)]

/-- An existing entry of a discovered node is kept or lowered by one edge. -/
theorem relaxEdge_costs_le {m : Int} {t : Tables} {e : Edge} {n : String} {b : Bool} {v : Int}
    (hb : mapGet? t.vis n = some b) (hv : mapGet? t.costs n = some v) :
    ∃ v', mapGet? (relaxEdge m t e).costs n = some v' ∧ v' ≤ v := by
  by_cases hn : e.remote = n
  · subst hn
    cases b
    · by_cases hlt : addInt m e.cost < costGet t.costs e.remote
      · refine ⟨_, relaxEdge_costs_lt hb hlt, ?_⟩
        simp only [costGet, hv, Option.getD_some] at hlt
        exact le_of_lt hlt
      · exact ⟨v, (relaxEdge_costs_ge hb hlt).trans hv, le_refl v⟩
    · exact ⟨v, (relaxEdge_costs_visited hb).trans hv, le_refl v⟩
  · exact ⟨v, (relaxEdge_costs_ne hn).trans hv, le_refl v⟩

/-- Where a cost entry present after one edge comes from. -/
theorem relaxEdge_costs_cases {m : Int} {t : Tables} {e : Edge} {n : String} {c : Int}
    (h : mapGet? (relaxEdge m t e).costs n = some c) :
    mapGet? t.costs n = some c ∨
      (e.remote = n ∧ c = addInt m e.cost ∧ mapGet? t.vis n ≠ some true) := by
  by_cases hn : e.remote = n
  · subst hn
    cases hv : mapGet? t.vis e.remote with
    | none =>
      rw [relaxEdge_costs_new hv] at h
      exact Or.inr ⟨rfl, (Option.some.inj h).symm, by simp⟩
    | some b =>
      cases b
      · by_cases hlt : addInt m e.cost < costGet t.costs e.remote
        · rw [relaxEdge_costs_lt hv hlt] at h
          exact Or.inr ⟨rfl, (Option.some.inj h).symm, by simp⟩
        · rw [relaxEdge_costs_ge hv hlt] at h
          exact Or.inl h
      · rw [relaxEdge_costs_visited hv] at h
        exact Or.inl h
  · rw [relaxEdge_costs_ne hn] at h
    exact Or.inl h

/-- After one edge its remote is finalized, or has an entry no larger than the
candidate, provided discovered nodes have cost entries. -/
theorem relaxEdge_relaxed {m : Int} {t : Tables} {e : Edge}
    (hsync : ∀ b, mapGet? t.vis e.remote = some b → ∃ v, mapGet? t.costs e.remote = some v) :
    mapGet? (relaxEdge m t e).vis e.remote = some true ∨
      ∃ c, mapGet? (relaxEdge m t e).costs e.remote = some c ∧ c ≤ addInt m e.cost := by
  cases hv : mapGet? t.vis e.remote with
  | none => exact Or.inr ⟨_, relaxEdge_costs_new hv, le_refl _⟩
  | some b =>
    cases b
    · right
      obtain ⟨v, hc⟩ := hsync false hv
      by_cases hlt : addInt m e.cost < costGet t.costs e.remote
      · exact ⟨_, relaxEdge_costs_lt hv hlt, le_refl _⟩
      · refine ⟨v, (relaxEdge_costs_ge hv hlt).trans hc, ?_⟩
        simp only [costGet, hc, Option.getD_some] at hlt
        exact not_lt.mp hlt
    · exact Or.inl (relaxEdge_vis_of_some hv)

theorem relaxEdge_keysNodup {m : Int} {t : Tables} {e : Edge}
    (h : KeysNodup t.vis ∧ KeysNodup t.costs) :
    KeysNodup (relaxEdge m t e).vis ∧ KeysNodup (relaxEdge m t e).costs := by
  unfold relaxEdge
  simp only
  split_ifs <;> first
    | exact h
    | exact ⟨h.1, h.2.mapSet _ _⟩
    | exact ⟨h.1.mapSet _ _, h.2.mapSet _ _⟩
    | exact ⟨h.1.mapSet _ _, (h.2.mapSet _ _).mapSet _ _⟩

/-! ## The relaxation loop -/

theorem relaxLoop_cons (m : Int) (e : Edge) (es : List Edge) (t : Tables) :
    relaxLoop m (e :: es) t = relaxLoop m es (relaxEdge m t e) := rfl

theorem relaxLoop_vis_of_some {m : Int} {l : List Edge} {t : Tables} {n : String}
    {b : Bool} (h : mapGet? t.vis n = some b) :
    mapGet? (relaxLoop m l t).vis n = some b := by
  induction l generalizing t with
  | nil => exact h
  | cons e es ih => exact ih (relaxEdge_vis_of_some h)

theorem relaxLoop_vis_cases {m : Int} {l : List Edge} {t : Tables} {n : String}
    {b : Bool} (h : mapGet? (relaxLoop m l t).vis n = some b) :
    mapGet? t.vis n = some b ∨
      (mapGet? t.vis n = none ∧ b = false ∧ ∃ e ∈ l, e.remote = n) := by
  induction l generalizing t with
  | nil => exact Or.inl h
  | cons e es ih =>
    rcases ih h with h1 | ⟨h1, h2, e', he', h3⟩
    · rcases relaxEdge_vis_cases h1 with h4 | ⟨h4, h5, h6⟩
      · exact Or.inl h4
      · exact Or.inr ⟨h4, h5, e, List.mem_cons_self _ _, h6⟩
    · right
      refine ⟨?_, h2, e', List.mem_cons_of_mem _ he', h3⟩
      cases hv : mapGet? t.vis n with
      | none => rfl
      | some b' =>
        rw [relaxEdge_vis_of_some hv] at h1
        exact Option.noConfusion h1

theorem relaxLoop_costs_of_visited {m : Int} {l : List Edge} {t : Tables} {n : String}
    (h : mapGet? t.vis n = some true) :
    mapGet? (relaxLoop m l t).costs n = mapGet? t.costs n := by
  induction l generalizing t with
  | nil => rfl
  | cons e es ih =>
    rw [relaxLoop_cons, ih (relaxEdge_vis_of_some h), relaxEdge_costs_of_visited h]

theorem relaxLoop_frame {m : Int} {l : List Edge} {t : Tables} {n : String}
    (h : ∀ e ∈ l, e.remote ≠ n) :
    mapGet? (relaxLoop m l t).vis n = mapGet? t.vis n ∧
      mapGet? (relaxLoop m l t).costs n = mapGet? t.costs n := by
  induction l generalizing t with
  | nil => exact ⟨rfl, rfl⟩
  | cons e es ih =>
    have h1 := ih (t := relaxEdge m t e) (fun e' he' => h e' (List.mem_cons_of_mem _ he'))
    have h2 : e.remote ≠ n := h e (List.mem_cons_self _ _)
    rw [relaxLoop_cons, h1.1, h1.2, relaxEdge_vis_ne h2, relaxEdge_costs_ne h2]
    exact ⟨rfl, rfl⟩

theorem relaxLoop_costs_le {m : Int} {l : List Edge} {t : Tables} {n : String} {b : Bool}
    {v : Int} (hb : mapGet? t.vis n = some b) (hv : mapGet? t.costs n = some v) :
    ∃ v', mapGet? (relaxLoop m l t).costs n = some v' ∧ v' ≤ v := by
  induction l generalizing t v with
  | nil => exact ⟨v, hv, le_refl v⟩
  | cons e es ih =>
    obtain ⟨v1, h1, hle1⟩ := relaxEdge_costs_le (m := m) (e := e) hb hv
    obtain ⟨v2, h2, hle2⟩ := ih (relaxEdge_vis_of_some hb) h1
    exact ⟨v2, h2, le_trans hle2 hle1⟩

theorem relaxLoop_costs_cases {m : Int} {l : List Edge} {t : Tables} {n : String} {c : Int}
    (h : mapGet? (relaxLoop m l t).costs n = some c) :
    mapGet? t.costs n = some c ∨
      (∃ e ∈ l, e.remote = n ∧ c = addInt m e.cost) ∧ mapGet? t.vis n ≠ some true := by
  induction l generalizing t with
  | nil => exact Or.inl h
  | cons e es ih =>
    have hvis : mapGet? (relaxEdge m t e).vis n ≠ some true → mapGet? t.vis n ≠ some true :=
      fun h1 h2 => h1 (relaxEdge_vis_of_some h2)
    rcases ih h with h1 | ⟨⟨e', he', h2, h3⟩, h4⟩
    · rcases relaxEdge_costs_cases h1 with h5 | ⟨h5, h6, h7⟩
      · exact Or.inl h5
      · exact Or.inr ⟨⟨e, List.mem_cons_self _ _, h5, h6⟩, h7⟩
    · exact Or.inr ⟨⟨e', List.mem_cons_of_mem _ he', h2, h3⟩, hvis h4⟩

theorem relaxLoop_keysNodup {m : Int} {l : List Edge} {t : Tables}
    (h : KeysNodup t.vis ∧ KeysNodup t.costs) :
    KeysNodup (relaxLoop m l t).vis ∧ KeysNodup (relaxLoop m l t).costs := by
  induction l generalizing t with
  | nil => exact h
  | cons e es ih => exact ih (relaxEdge_keysNodup h)

/-- Discovered nodes keep having a cost entry. -/
theorem relaxLoop_sync {m : Int} {l : List Edge} {t : Tables}
    (h : ∀ n b, mapGet? t.vis n = some b → ∃ v, mapGet? t.costs n = some v) :
    ∀ n b, mapGet? (relaxLoop m l t).vis n = some b →
      ∃ v, mapGet? (relaxLoop m l t).costs n = some v := by
  induction l generalizing t with
  | nil => exact h
  | cons e es ih =>
    apply ih
    intro n b hb
    rcases relaxEdge_vis_cases hb with h1 | ⟨h1, _, h3⟩
    · obtain ⟨v, hv⟩ := h n b h1
      obtain ⟨v', hv', _⟩ := relaxEdge_costs_le (m := m) (e := e) h1 hv
      exact ⟨v', hv'⟩
    · subst h3
      exact ⟨_, relaxEdge_costs_new h1⟩

/-- Every cost entry belongs to a discovered node, and stays so. -/
theorem relaxLoop_vis_remote (m : Int) (l : List Edge) (t : Tables) :
    ∀ e ∈ l, ∃ b, mapGet? (relaxLoop m l t).vis e.remote = some b := by
  induction l generalizing t with
  | nil => intro e he; simp at he
  | cons e' es ih =>
    intro e he
    rcases List.mem_cons.mp he with heq | hmem
    · subst heq
      obtain ⟨b, hb⟩ := relaxEdge_vis_remote m t e
      exact ⟨b, relaxLoop_vis_of_some (l := es) hb⟩
    · exact ih (relaxEdge m t e') e hmem

theorem relaxLoop_sync_rev {m : Int} {l : List Edge} {t : Tables}
    (h : ∀ n v, mapGet? t.costs n = some v → ∃ b, mapGet? t.vis n = some b) :
    ∀ n v, mapGet? (relaxLoop m l t).costs n = some v →
      ∃ b, mapGet? (relaxLoop m l t).vis n = some b := by
  intro n v hv
  rcases relaxLoop_costs_cases hv with h1 | ⟨⟨e, he, h2, _⟩, _⟩
  · obtain ⟨b, hb⟩ := h n v h1
    exact ⟨b, relaxLoop_vis_of_some hb⟩
  · rw [← h2]
    exact relaxLoop_vis_remote m l t e he

/-- After the loop every edge has been relaxed. -/
theorem relaxLoop_relaxed {m : Int} {l : List Edge} {t : Tables}
    (h : ∀ n b, mapGet? t.vis n = some b → ∃ v, mapGet? t.costs n = some v) :
    ∀ e ∈ l, mapGet? (relaxLoop m l t).vis e.remote = some true ∨
      ∃ c, mapGet? (relaxLoop m l t).costs e.remote = some c ∧ c ≤ addInt m e.cost := by
  induction l generalizing t with
  | nil => intro e he; simp at he
  | cons e' es ih =>
    have hsync' : ∀ n b, mapGet? (relaxEdge m t e').vis n = some b →
        ∃ v, mapGet? (relaxEdge m t e').costs n = some v :=
      relaxLoop_sync (l := [e']) h
    intro e he
    rcases List.mem_cons.mp he with heq | hmem
    · subst heq
      rcases relaxEdge_relaxed (m := m) (e := e) (fun b hb => h _ b hb) with h1 | ⟨c, h1, h2⟩
      · exact Or.inl (relaxLoop_vis_of_some (l := es) h1)
      · obtain ⟨b, hb⟩ := relaxEdge_vis_remote m t e
        obtain ⟨c', h3, h4⟩ := relaxLoop_costs_le (m := m) (l := es) hb h1
        exact Or.inr ⟨c', h3, le_trans h4 h2⟩
    · exact ih hsync' e hmem

theorem foldl_min_isMinOf (a : Int) (l : List Int) : IsMinOf (l.foldl min a) (a :: l) := by
  induction l generalizing a with
  | nil => exact ⟨List.mem_cons_self _ _, by simp⟩
  | cons b l ih =>
    obtain ⟨h1, h2⟩ := ih (min a b)
    refine ⟨?_, ?_⟩
    · rcases List.mem_cons.mp h1 with h | h
      · rw [List.foldl_cons, h]
        rcases min_choice a b with h' | h'
        · rw [h']; exact List.mem_cons_self _ _
        · rw [h']; exact List.mem_cons_of_mem _ (List.mem_cons_self _ _)
      · exact List.mem_cons_of_mem _ (List.mem_cons_of_mem _ h)
    · intro c hc
      have hm := h2 (min a b) (List.mem_cons_self _ _)
      rcases List.mem_cons.mp hc with h | h
      · rw [h]; exact le_trans hm (min_le_left a b)
      · rcases List.mem_cons.mp h with h | h
        · rw [h]; exact le_trans hm (min_le_right a b)
        · exact h2 c (List.mem_cons_of_mem _ h)

theorem offers_cons_eq (m : Int) (e : Edge) (es : List Edge) :
    offers m (e :: es) e.remote = addInt m e.cost :: offers m es e.remote := by
  simp [offers]

theorem offers_cons_ne (m : Int) {e : Edge} (es : List Edge) {r : String} (h : e.remote ≠ r) :
    offers m (e :: es) r = offers m es r := by
  simp [offers, h]

theorem offers_eq_nil_iff (m : Int) (l : List Edge) (r : String) :
    offers m l r = [] ↔ ∀ e ∈ l, e.remote ≠ r := by
  simp [offers, List.filter_eq_nil_iff]

/-- A discovered, unfinalized remote ends with the minimum of its previous cost
and the offers. -/
theorem relaxLoop_discovered (m : Int) (l : List Edge) (t : Tables) (r : String)
    (h : mapGet? t.vis r = some false) :
    mapGet? (relaxLoop m l t).vis r = some false ∧
      costGet (relaxLoop m l t).costs r = (offers m l r).foldl min (costGet t.costs r) ∧
      ((∃ v, mapGet? t.costs r = some v) → ∃ v, mapGet? (relaxLoop m l t).costs r = some v) := by
  induction l generalizing t with
  | nil => exact ⟨h, rfl, id⟩
  | cons e es ih =>
    have hv : mapGet? (relaxEdge m t e).vis r = some false := relaxEdge_vis_of_some h
    obtain ⟨h1, h2, h3⟩ := ih (relaxEdge m t e) hv
    rw [relaxLoop_cons]
    refine ⟨h1, ?_, ?_⟩
    · rw [h2]
      by_cases hr : e.remote = r
      · subst hr
        rw [offers_cons_eq, List.foldl_cons]
        congr 1
        by_cases hlt : addInt m e.cost < costGet t.costs e.remote
        · rw [min_eq_right (le_of_lt hlt)]
          simp [costGet, relaxEdge_costs_lt h hlt]
        · rw [min_eq_left (not_lt.mp hlt)]
          simp [costGet, relaxEdge_costs_ge h hlt]
      · rw [offers_cons_ne m es hr]
        simp [costGet, relaxEdge_costs_ne hr]
    · rintro ⟨v, hv'⟩
      obtain ⟨v', hv'', _⟩ := relaxEdge_costs_le (m := m) (e := e) h hv'
      exact h3 ⟨v', hv''⟩

/-- An undiscovered remote ends untouched when no edge leads to it, and else
with the minimum of the offers. -/
theorem relaxLoop_undiscovered (m : Int) (l : List Edge) (t : Tables) (r : String)
    (h : mapGet? t.vis r = none) :
    match offers m l r with
    | [] => mapGet? (relaxLoop m l t).vis r = none ∧
        mapGet? (relaxLoop m l t).costs r = mapGet? t.costs r
    | c :: cs => mapGet? (relaxLoop m l t).vis r = some false ∧
        mapGet? (relaxLoop m l t).costs r = some (cs.foldl min c) := by
  induction l generalizing t with
  | nil => exact ⟨h, rfl⟩
  | cons e es ih =>
    by_cases hr : e.remote = r
    · subst hr
      rw [offers_cons_eq]
      have hv : mapGet? (relaxEdge m t e).vis e.remote = some false := by
        rw [relaxEdge_vis, if_pos ⟨rfl, h⟩]
      have hc : mapGet? (relaxEdge m t e).costs e.remote = some (addInt m e.cost) :=
        relaxEdge_costs_new h
      obtain ⟨h1, h2, h3⟩ := relaxLoop_discovered m es (relaxEdge m t e) e.remote hv
      obtain ⟨v, hv'⟩ := h3 ⟨_, hc⟩
      refine ⟨h1, ?_⟩
      rw [relaxLoop_cons, hv']
      simp only [costGet, hv', hc, Option.getD_some] at h2
      rw [h2]
    · rw [offers_cons_ne m es hr]
      have hv : mapGet? (relaxEdge m t e).vis r = none := by
        rw [relaxEdge_vis_ne hr, h]
      have h1 := ih (relaxEdge m t e) hv
      rw [relaxLoop_cons]
      cases ho : offers m es r with
      | nil =>
        rw [ho] at h1
        exact ⟨h1.1, h1.2.trans (relaxEdge_costs_ne hr)⟩
      | cons c cs =>
        rw [ho] at h1
        exact h1

/-! ## The selection loop -/

theorem chooseStep_eq (vis : VisMap) (best kv : String × Int) :
    chooseStep vis best kv = if visGet vis kv.1 = false ∧ kv.2 < best.2 then kv else best := by
  unfold chooseStep
  by_cases h1 : visGet vis kv.1 = false <;> by_cases h2 : kv.2 < best.2 <;> simp [h1, h2]

/-- What the selection loop returns when started from the pair `acc`. -/
theorem chooseFold_spec (vis : VisMap) (ord : List (String × Int)) (acc : String × Int) :
    (ord.foldl (chooseStep vis) acc).2 ≤ acc.2 ∧
      (ord.foldl (chooseStep vis) acc = acc ∨
        (ord.foldl (chooseStep vis) acc ∈ ord ∧
          visGet vis (ord.foldl (chooseStep vis) acc).1 = false ∧
          (ord.foldl (chooseStep vis) acc).2 < acc.2)) ∧
      ∀ kv ∈ ord, visGet vis kv.1 = false → (ord.foldl (chooseStep vis) acc).2 ≤ kv.2 := by
  induction ord generalizing acc with
  | nil => exact ⟨le_refl _, Or.inl rfl, by simp⟩
  | cons kv rest ih =>
    obtain ⟨h1, h2, h3⟩ := ih (chooseStep vis acc kv)
    rw [List.foldl_cons]
    have hstep : (chooseStep vis acc kv).2 ≤ acc.2 ∧
        (visGet vis kv.1 = false → (chooseStep vis acc kv).2 ≤ kv.2) ∧
        (chooseStep vis acc kv = acc ∨
          (chooseStep vis acc kv = kv ∧ visGet vis kv.1 = false ∧ kv.2 < acc.2)) := by
      rw [chooseStep_eq]
      split_ifs with hc
      · exact ⟨le_of_lt hc.2, fun _ => le_refl _, Or.inr ⟨rfl, hc.1, hc.2⟩⟩
      · refine ⟨le_refl _, fun hv => ?_, Or.inl rfl⟩
        exact not_lt.mp (fun hlt => hc ⟨hv, hlt⟩)
    obtain ⟨s1, s2, s3⟩ := hstep
    refine ⟨le_trans h1 s1, ?_, ?_⟩
    · rcases h2 with h2 | ⟨h2, h4, h5⟩
      · rcases s3 with s3 | ⟨s3, s4, s5⟩
        · exact Or.inl (h2.trans s3)
        · right
          rw [h2, s3]
          exact ⟨List.mem_cons_self _ _, s4, s5⟩
      · exact Or.inr ⟨List.mem_cons_of_mem _ h2, h4, lt_of_lt_of_le h5 s1⟩
    · intro kv' hkv' hv
      rcases List.mem_cons.mp hkv' with heq | hmem
      · rw [heq]
        exact le_trans h1 (s2 (heq ▸ hv))
      · exact h3 kv' hmem hv

/-- The selection loop either keeps `("", infinity)`, every unvisited entry then
costing at least `infinity`, or returns an unvisited entry of least cost, below
`infinity`. -/
theorem chooseNext_spec (vis : VisMap) (ord : List (String × Int)) :
    (chooseNext vis ord = ("", infinity) ∨
      (chooseNext vis ord ∈ ord ∧ visGet vis (chooseNext vis ord).1 = false ∧
        (chooseNext vis ord).2 < infinity)) ∧
      ∀ kv ∈ ord, visGet vis kv.1 = false → (chooseNext vis ord).2 ≤ kv.2 := by
  obtain ⟨_, h2, h3⟩ := chooseFold_spec vis ord ("", infinity)
  exact ⟨h2, h3⟩

/-! ## `ProcessThisNode` as a whole -/

theorem ProcessThisNode_vis (it : CostMap → CostMap) (host : String) (edges : List Edge)
    (vis : VisMap) (costs : CostMap) (order : Int) :
    (ProcessThisNode it host edges vis costs order).vis = (relax host edges ⟨vis, costs⟩).vis := by
  unfold ProcessThisNode
  simp only
  split_ifs <;> rfl

theorem ProcessThisNode_costs (it : CostMap → CostMap) (host : String) (edges : List Edge)
    (vis : VisMap) (costs : CostMap) (order : Int) :
    (ProcessThisNode it host edges vis costs order).costs =
      (relax host edges ⟨vis, costs⟩).costs := by
  unfold ProcessThisNode
  simp only
  split_ifs <;> rfl

theorem ProcessThisNode_next (it : CostMap → CostMap) (host : String) (edges : List Edge)
    (vis : VisMap) (costs : CostMap) (order : Int) :
    (ProcessThisNode it host edges vis costs order).next =
      if (chooseNext (relax host edges ⟨vis, costs⟩).vis
          (it (relax host edges ⟨vis, costs⟩).costs)).1 ≠ "" then
        some ((chooseNext (relax host edges ⟨vis, costs⟩).vis
          (it (relax host edges ⟨vis, costs⟩).costs)).1, addInt order 1)
      else none := by
  unfold ProcessThisNode
  simp only
  split_ifs <;> rfl

theorem relax_vis_host (host : String) (edges : List Edge) (t : Tables) :
    mapGet? (relax host edges t).vis host = some true :=
  relaxLoop_vis_of_some (mapGet?_mapSet_same _ _ _)

theorem relax_vis_of_some (host : String) (edges : List Edge) (t : Tables) {n : String}
    (h : mapGet? t.vis n = some true) : mapGet? (relax host edges t).vis n = some true := by
  apply relaxLoop_vis_of_some
  rw [mapGet?_mapSet]
  split_ifs
  · rfl
  · exact h

theorem relax_costs_of_visited (host : String) (edges : List Edge) (t : Tables) {n : String}
    (h : mapGet? t.vis n = some true ∨ n = host) :
    mapGet? (relax host edges t).costs n = mapGet? t.costs n := by
  unfold relax
  rw [relaxLoop_costs_of_visited]
  rw [mapGet?_mapSet]
  split_ifs with hn
  · rfl
  · rcases h with h | h
    · exact h
    · exact absurd h hn

/-- The node a forwarding `ProcessThisNode` picks. -/
theorem ProcessThisNode_chosen {it : CostMap → CostMap} {host : String} {edges : List Edge}
    {vis : VisMap} {costs : CostMap} {order : Int} {n : String} {ord : Int}
    (h : (ProcessThisNode it host edges vis costs order).next = some (n, ord)) :
    n ≠ "" ∧ ord = addInt order 1 ∧
      n = (chooseNext (relax host edges ⟨vis, costs⟩).vis
        (it (relax host edges ⟨vis, costs⟩).costs)).1 := by
  rw [ProcessThisNode_next] at h
  split_ifs at h with hc
  have h1 := Option.some.inj h
  have h2 : (chooseNext (relax host edges ⟨vis, costs⟩).vis
      (it (relax host edges ⟨vis, costs⟩).costs)).1 = n := congrArg Prod.fst h1
  have h3 : addInt order 1 = ord := congrArg Prod.snd h1
  exact ⟨h2 ▸ hc, h3.symm, h2.symm⟩

/-- The picked node is not visited, whatever the iteration order. -/
theorem ProcessThisNode_chosen_unvisited {it : CostMap → CostMap} {host : String}
    {edges : List Edge} {vis : VisMap} {costs : CostMap} {order : Int} {n : String} {ord : Int}
    (h : (ProcessThisNode it host edges vis costs order).next = some (n, ord)) :
    visGet (ProcessThisNode it host edges vis costs order).vis n = false ∧
      (n, (chooseNext (relax host edges ⟨vis, costs⟩).vis
        (it (relax host edges ⟨vis, costs⟩).costs)).2) ∈ it (relax host edges ⟨vis, costs⟩).costs ∧
      (chooseNext (relax host edges ⟨vis, costs⟩).vis
        (it (relax host edges ⟨vis, costs⟩).costs)).2 < infinity := by
  obtain ⟨h1, _, h3⟩ := ProcessThisNode_chosen h
  rw [ProcessThisNode_vis]
  rcases (chooseNext_spec (relax host edges ⟨vis, costs⟩).vis
      (it (relax host edges ⟨vis, costs⟩).costs)).1 with h4 | ⟨h4, h5, h6⟩
  · rw [h4] at h3
    exact absurd h3 h1
  · rw [h3]
    exact ⟨h5, h4, h6⟩

theorem relaxEdge_costs_keysNodup {m : Int} {t : Tables} {e : Edge} (h : KeysNodup t.costs) :
    KeysNodup (relaxEdge m t e).costs := by
  unfold relaxEdge
  simp only
  split_ifs <;> first
    | exact h
    | exact h.mapSet _ _
    | exact (h.mapSet _ _).mapSet _ _

theorem relaxLoop_costs_keysNodup {m : Int} {l : List Edge} {t : Tables}
    (h : KeysNodup t.costs) : KeysNodup (relaxLoop m l t).costs := by
  induction l generalizing t with
  | nil => exact h
  | cons e es ih => exact ih (relaxEdge_costs_keysNodup h)

theorem relax_costs_keysNodup (host : String) (edges : List Edge) {t : Tables}
    (h : KeysNodup t.costs) : KeysNodup (relax host edges t).costs :=
  relaxLoop_costs_keysNodup h

/-- The picked node is an unvisited entry of least cost, below `infinity`. -/
theorem ProcessThisNode_chosen_min {it : CostMap → CostMap} {host : String}
    {edges : List Edge} {vis : VisMap} {costs : CostMap} {order : Int} {n : String} {ord : Int}
    (hperm : (it (relax host edges ⟨vis, costs⟩).costs).Perm (relax host edges ⟨vis, costs⟩).costs)
    (hnd : KeysNodup costs)
    (h : (ProcessThisNode it host edges vis costs order).next = some (n, ord)) :
    ∃ c, mapGet? (ProcessThisNode it host edges vis costs order).costs n = some c ∧
      c < infinity ∧
      visGet (ProcessThisNode it host edges vis costs order).vis n = false ∧
      n ≠ host ∧ n ≠ "" ∧
      ∀ k c', mapGet? (ProcessThisNode it host edges vis costs order).costs k = some c' →
        visGet (ProcessThisNode it host edges vis costs order).vis k = false → c ≤ c' := by
  obtain ⟨h1, h2, h3⟩ := ProcessThisNode_chosen_unvisited h
  obtain ⟨h4, _, _⟩ := ProcessThisNode_chosen h
  have hnd' : KeysNodup (relax host edges ⟨vis, costs⟩).costs := relax_costs_keysNodup host edges hnd
  rw [ProcessThisNode_vis] at h1 ⊢
  rw [ProcessThisNode_costs]
  refine ⟨_, mapGet?_of_mem hnd' (hperm.mem_iff.mp h2), h3, h1, ?_, h4, ?_⟩
  · intro hn
    rw [hn, visGet, relax_vis_host] at h1
    exact Bool.noConfusion h1
  · intro k c' hk hv
    exact (chooseNext_spec _ _).2 (k, c') (hperm.mem_iff.mpr (mem_of_mapGet? hk)) hv

/-- When no node is picked, the empty id is a cost key, or every unvisited entry
costs at least `infinity`. -/
theorem ProcessThisNode_none {it : CostMap → CostMap} {host : String}
    {edges : List Edge} {vis : VisMap} {costs : CostMap} {order : Int}
    (hperm : (it (relax host edges ⟨vis, costs⟩).costs).Perm (relax host edges ⟨vis, costs⟩).costs)
    (h : (ProcessThisNode it host edges vis costs order).next = none) :
    (∃ c, mapGet? (ProcessThisNode it host edges vis costs order).costs "" = some c) ∨
      ∀ k c', mapGet? (ProcessThisNode it host edges vis costs order).costs k = some c' →
        visGet (ProcessThisNode it host edges vis costs order).vis k = false → infinity ≤ c' := by
  rw [ProcessThisNode_next] at h
  split_ifs at h with hc
  have hc' : (chooseNext (relax host edges ⟨vis, costs⟩).vis
      (it (relax host edges ⟨vis, costs⟩).costs)).1 = "" := not_not.mp hc
  rw [ProcessThisNode_vis, ProcessThisNode_costs]
  obtain ⟨h1, h2⟩ := chooseNext_spec (relax host edges ⟨vis, costs⟩).vis
      (it (relax host edges ⟨vis, costs⟩).costs)
  rcases h1 with h1 | ⟨h1, _, _⟩
  · right
    intro k c' hk hv
    have := h2 (k, c') (hperm.mem_iff.mpr (mem_of_mapGet? hk)) hv
    rw [h1] at this
    exact this
  · left
    have hmem := List.mem_map_of_mem Prod.fst (hperm.mem_iff.mp h1)
    rw [hc'] at hmem
    exact (mem_keys_iff _ _).mp hmem

/-- C4: whenever `ProcessThisNode` chooses a next node, whatever order the `range`
loop visits the cost map in, the chosen node is a key of `costs` whose visited
value is not true, it is not the processing node, and its cost is at most the
cost of every key of `costs` whose visited value is not true. -/
theorem C4_chosen_is_least_unvisited (it : CostMap → CostMap) (host : String)
    (edges : List Edge) (vis : VisMap) (costs : CostMap) (order : Int) (n : String) (ord : Int)
    (hperm : ∀ m, (it m).Perm m) (hnd : KeysNodup costs)
    (h : (ProcessThisNode it host edges vis costs order).next = some (n, ord)) :
    ∃ c, mapGet? (ProcessThisNode it host edges vis costs order).costs n = some c ∧
      visGet (ProcessThisNode it host edges vis costs order).vis n = false ∧
      n ≠ host ∧
      ∀ k c', mapGet? (ProcessThisNode it host edges vis costs order).costs k = some c' →
        visGet (ProcessThisNode it host edges vis costs order).vis k = false → c ≤ c' := by
  obtain ⟨c, h1, _, h3, h4, _, h6⟩ := ProcessThisNode_chosen_min (hperm _) hnd h
  exact ⟨c, h1, h3, h4, h6⟩

/-- The witness of C4: Scenario A, first hop, picks `C` of cost 2. -/
theorem C4_chosen_is_least_unvisited_witness :
    ∃ c, mapGet? (ProcessThisNode id "A" [⟨"B", 5⟩, ⟨"C", 2⟩] [] [("A", 0)] 1).costs "C" = some c ∧
      visGet (ProcessThisNode id "A" [⟨"B", 5⟩, ⟨"C", 2⟩] [] [("A", 0)] 1).vis "C" = false ∧
      "C" ≠ "A" ∧
      ∀ k c', mapGet? (ProcessThisNode id "A" [⟨"B", 5⟩, ⟨"C", 2⟩] [] [("A", 0)] 1).costs k
          = some c' →
        visGet (ProcessThisNode id "A" [⟨"B", 5⟩, ⟨"C", 2⟩] [] [("A", 0)] 1).vis k = false →
        c ≤ c' :=
  C4_chosen_is_least_unvisited id "A" [⟨"B", 5⟩, ⟨"C", 2⟩] [] [("A", 0)] 1 "C" 2
    (fun _ => List.Perm.refl _) (by decide) (by decide)

/-! ## Machine addition -/

theorem addInt_eq {a b : Int} (h1 : -9223372036854775808 ≤ a + b)
    (h2 : a + b < 9223372036854775808) : addInt a b = a + b := by
  unfold addInt wrapInt
  omega

/-- With parallel edges of cost 10 and 4 to an undiscovered remote, the loop
leaves the offer of the cheaper edge, in either registration order. -/
theorem relaxLoop_parallel (myCost : Int) (t : Tables) (b : String)
    (hb : mapGet? t.vis b = none) (hlo : -9223372036854775808 ≤ myCost + 4)
    (hhi : myCost + 10 < 9223372036854775808) :
    mapGet? (relaxLoop myCost [⟨b, 10⟩, ⟨b, 4⟩] t).costs b = some (myCost + 4) ∧
      mapGet? (relaxLoop myCost [⟨b, 4⟩, ⟨b, 10⟩] t).costs b = some (myCost + 4) := by
  have h4 : addInt myCost 4 = myCost + 4 := addInt_eq hlo (by omega)
  have h10 : addInt myCost 10 = myCost + 10 := addInt_eq (by omega) hhi
  have e1 := relaxLoop_undiscovered myCost [⟨b, 10⟩, ⟨b, 4⟩] t b hb
  have e2 := relaxLoop_undiscovered myCost [⟨b, 4⟩, ⟨b, 10⟩] t b hb
  simp only [offers, List.filter_cons, decide_True, if_true, List.filter_nil, List.map_cons,
    List.map_nil, List.foldl_cons, List.foldl_nil, h4, h10] at e1 e2
  refine ⟨?_, ?_⟩
  · rw [e1.2]
    congr 1
    omega
  · rw [e2.2]
    congr 1
    omega

/-- C5: closed form of the relaxation loop, on the tables it finds at loop entry
and with `myCost` the value read from `costs[self]`; sums are Go `int` sums.
For a remote `r` with at least one edge `(r, c)` in the list and not visited,
afterwards `vis[r] = false` and `costs[r]` is the minimum of its previous cost
(when `r` was discovered, i.e. had a visited entry) and of `myCost + c` over the
edges `(r, c)`; this value is a stored entry as soon as `r` was undiscovered or
had a cost entry.  The entries of every other node are unchanged.  With
parallel edges of cost 10 and 4 to an undiscovered `b` the result is
`myCost + 4` in both registration orders. -/
theorem C5_relaxLoop_closed_form (myCost : Int) (edges : List Edge) (t : Tables) (r : String) :
    (((∃ e ∈ edges, e.remote = r) ∧ mapGet? t.vis r ≠ some true) →
        mapGet? (relaxLoop myCost edges t).vis r = some false ∧
        IsMinOf (costGet (relaxLoop myCost edges t).costs r) (candidates myCost edges t r) ∧
        ((mapGet? t.vis r = none ∨ ∃ v, mapGet? t.costs r = some v) →
          mapGet? (relaxLoop myCost edges t).costs r =
            some (costGet (relaxLoop myCost edges t).costs r))) ∧
      (¬ ((∃ e ∈ edges, e.remote = r) ∧ mapGet? t.vis r ≠ some true) →
        mapGet? (relaxLoop myCost edges t).vis r = mapGet? t.vis r ∧
        mapGet? (relaxLoop myCost edges t).costs r = mapGet? t.costs r) ∧
      (mapGet? t.vis r = none → -9223372036854775808 ≤ myCost + 4 →
        myCost + 10 < 9223372036854775808 →
        mapGet? (relaxLoop myCost [⟨r, 10⟩, ⟨r, 4⟩] t).costs r = some (myCost + 4) ∧
        mapGet? (relaxLoop myCost [⟨r, 4⟩, ⟨r, 10⟩] t).costs r = some (myCost + 4)) := by
  refine ⟨?_, ?_, relaxLoop_parallel myCost t r⟩
  · rintro ⟨⟨e, he, her⟩, hnv⟩
    have hne : offers myCost edges r ≠ [] := by
      intro h0
      exact (offers_eq_nil_iff myCost edges r).mp h0 e he her
    cases hv : mapGet? t.vis r with
    | none =>
      have h1 := relaxLoop_undiscovered myCost edges t r hv
      cases ho : offers myCost edges r with
      | nil => exact absurd ho hne
      | cons c cs =>
        rw [ho] at h1
        have hg : costGet (relaxLoop myCost edges t).costs r = cs.foldl min c := by
          simp [costGet, h1.2]
        refine ⟨h1.1, ?_, fun _ => ?_⟩
        · rw [hg]
          simp only [candidates, hv, ho, List.nil_append]
          exact foldl_min_isMinOf c cs
        · rw [hg]
          exact h1.2
    | some b =>
      cases b
      · obtain ⟨h1, h2, h3⟩ := relaxLoop_discovered myCost edges t r hv
        refine ⟨h1, ?_, ?_⟩
        · rw [h2]
          simp only [candidates, hv, List.singleton_append]
          exact foldl_min_isMinOf _ _
        · rintro (h | h)
          · exact Option.noConfusion h
          · obtain ⟨v, hv'⟩ := h3 h
            simp [costGet, hv']
      · exact absurd hv hnv
  · intro hnot
    by_cases hv : mapGet? t.vis r = some true
    · exact ⟨(relaxLoop_vis_of_some hv).trans hv.symm, relaxLoop_costs_of_visited hv⟩
    · apply relaxLoop_frame
      intro e he her
      exact hnot ⟨⟨e, he, her⟩, hv⟩

/-- The witness of C5: Scenario C at the source, both registration orders. -/
theorem C5_relaxLoop_closed_form_witness :
    (mapGet? (relaxLoop 0 [⟨"B", 10⟩, ⟨"B", 4⟩] ⟨[("A", true)], [("A", 0)]⟩).vis "B" = some false ∧
      IsMinOf (costGet (relaxLoop 0 [⟨"B", 10⟩, ⟨"B", 4⟩] ⟨[("A", true)], [("A", 0)]⟩).costs "B")
        (candidates 0 [⟨"B", 10⟩, ⟨"B", 4⟩] ⟨[("A", true)], [("A", 0)]⟩ "B")) ∧
      (mapGet? (relaxLoop 0 [⟨"B", 10⟩, ⟨"B", 4⟩] ⟨[("A", true)], [("A", 0)]⟩).costs "A"
        = some 0) ∧
      (mapGet? (relaxLoop 0 [⟨"B", 10⟩, ⟨"B", 4⟩] ⟨[("A", true)], [("A", 0)]⟩).costs "B"
          = some (0 + 4) ∧
        mapGet? (relaxLoop 0 [⟨"B", 4⟩, ⟨"B", 10⟩] ⟨[("A", true)], [("A", 0)]⟩).costs "B"
          = some (0 + 4)) :=
  ⟨⟨((C5_relaxLoop_closed_form 0 [⟨"B", 10⟩, ⟨"B", 4⟩] ⟨[("A", true)], [("A", 0)]⟩ "B").1
      ⟨⟨⟨"B", 10⟩, by decide, rfl⟩, by decide⟩).1,
    ((C5_relaxLoop_closed_form 0 [⟨"B", 10⟩, ⟨"B", 4⟩] ⟨[("A", true)], [("A", 0)]⟩ "B").1
      ⟨⟨⟨"B", 10⟩, by decide, rfl⟩, by decide⟩).2.1⟩,
    ((C5_relaxLoop_closed_form 0 [⟨"B", 10⟩, ⟨"B", 4⟩] ⟨[("A", true)], [("A", 0)]⟩ "A").2.1
      (by decide)).2,
    (C5_relaxLoop_closed_form 0 [] ⟨[("A", true)], [("A", 0)]⟩ "B").2.2
      (by decide) (by decide) (by decide)⟩

/-! ## Steps and traces -/

/-- A finalized node, and the host, stay finalized with the same cost entry. -/
theorem ProcessThisNode_frozen (it : CostMap → CostMap) (host : String) (edges : List Edge)
    (vis : VisMap) (costs : CostMap) (order : Int) {n : String}
    (h : mapGet? vis n = some true ∨ n = host) :
    mapGet? (ProcessThisNode it host edges vis costs order).vis n = some true ∧
      mapGet? (ProcessThisNode it host edges vis costs order).costs n = mapGet? costs n := by
  rw [ProcessThisNode_vis, ProcessThisNode_costs]
  refine ⟨?_, relax_costs_of_visited host edges ⟨vis, costs⟩ h⟩
  rcases h with h | h
  · exact relax_vis_of_some host edges ⟨vis, costs⟩ h
  · rw [h]
    exact relax_vis_host host edges ⟨vis, costs⟩

theorem nextConfig_eq_some {o : Outcome} {c' : Config} (h : nextConfig o = some c') :
    c'.vis = o.vis ∧ c'.costs = o.costs ∧ o.next = some (c'.host, c'.order) := by
  unfold nextConfig at h
  cases hn : o.next with
  | none =>
    rw [hn] at h
    exact Option.noConfusion h
  | some p =>
    obtain ⟨n, ord⟩ := p
    rw [hn] at h
    have := Option.some.inj h
    subst this
    exact ⟨rfl, rfl, rfl⟩

theorem nextConfig_eq_none {o : Outcome} : nextConfig o = none ↔ o.next = none := by
  unfold nextConfig
  cases hn : o.next with
  | none => simp
  | some p => simp

theorem trace_succ (G : Graph) (iter : Nat → CostMap → CostMap) (fuel k : Nat) (c : Config) :
    trace G iter (fuel + 1) k c =
      (c, step G (iter k) c) ::
        match nextConfig (step G (iter k) c) with
        | none => []
        | some c' => trace G iter fuel (k + 1) c' := rfl

/-- A property of configurations kept by every hop holds all along a trace, whose
outcomes are the outcomes of its hops. -/
theorem trace_inv (G : Graph) (iter : Nat → CostMap → CostMap) (P : Config → Prop)
    (hstep : ∀ k c c', P c → nextConfig (step G (iter k) c) = some c' → P c') :
    ∀ fuel k c, P c → ∀ p ∈ trace G iter fuel k c,
      P p.1 ∧ ∃ j, p.2 = step G (iter j) p.1 := by
  intro fuel
  induction fuel with
  | zero =>
    intro k c _ p hp
    simp [trace] at hp
  | succ f ih =>
    intro k c hc p hp
    rw [trace_succ] at hp
    rcases List.mem_cons.mp hp with h | h
    · subst h
      exact ⟨hc, k, rfl⟩
    · cases hn : nextConfig (step G (iter k) c) with
      | none =>
        rw [hn] at h
        simp at h
      | some c' =>
        rw [hn] at h
        exact ih (k + 1) c' (hstep k c c' hc hn) p h

/-- Nodes finalized in a configuration are finalized, with the same cost entry,
in every later configuration and outcome of the trace. -/
theorem trace_frozen (G : Graph) (iter : Nat → CostMap → CostMap) :
    ∀ fuel k c, ∀ q ∈ trace G iter fuel k c, ∀ n, mapGet? c.vis n = some true →
      (mapGet? q.1.vis n = some true ∧ mapGet? q.1.costs n = mapGet? c.costs n) ∧
      (mapGet? q.2.vis n = some true ∧ mapGet? q.2.costs n = mapGet? c.costs n) := by
  intro fuel
  induction fuel with
  | zero =>
    intro k c q hq
    simp [trace] at hq
  | succ f ih =>
    intro k c q hq n hn
    rw [trace_succ] at hq
    have hs := ProcessThisNode_frozen (iter k) c.host (edgesOf G c.host) c.vis c.costs c.order
      (Or.inl hn)
    rcases List.mem_cons.mp hq with h | h
    · subst h
      exact ⟨⟨hn, rfl⟩, hs⟩
    · cases hc : nextConfig (step G (iter k) c) with
      | none =>
        rw [hc] at h
        simp at h
      | some c' =>
        rw [hc] at h
        obtain ⟨e1, e2, _⟩ := nextConfig_eq_some hc
        have hn' : mapGet? c'.vis n = some true := by
          rw [e1]
          exact hs.1
        have hc' : mapGet? c'.costs n = mapGet? c.costs n := by
          rw [e2]
          exact hs.2
        have := ih (k + 1) c' q h n hn'
        rw [hc'] at this
        exact this

/-- Finalization is monotone along a trace: outcome against later outcome. -/
theorem trace_pairwise_frozen (G : Graph) (iter : Nat → CostMap → CostMap) :
    ∀ fuel k c, List.Pairwise
      (fun p q : Config × Outcome => ∀ n, mapGet? p.2.vis n = some true →
        mapGet? q.2.vis n = some true ∧ mapGet? q.2.costs n = mapGet? p.2.costs n)
      (trace G iter fuel k c) := by
  intro fuel
  induction fuel with
  | zero =>
    intro k c
    exact List.Pairwise.nil
  | succ f ih =>
    intro k c
    rw [trace_succ]
    cases hc : nextConfig (step G (iter k) c) with
    | none => exact List.pairwise_singleton _ _
    | some c' =>
      obtain ⟨e1, e2, _⟩ := nextConfig_eq_some hc
      refine List.Pairwise.cons ?_ (ih (k + 1) c')
      intro q hq n hn
      have := (trace_frozen G iter f (k + 1) c' q hq n (e1 ▸ hn)).2
      rw [e2] at this
      exact this

/-- C6: monotonic finalization.  A node with `vis[n] = true` before a
`ProcessThisNode` step, and the host of the step, has `vis[n] = true` after it
with its cost entry unchanged; hence along a whole run a node finalized after
some hop is finalized, with the same cost entry, after every later hop. -/
theorem C6_monotonic_finalization :
    (∀ (it : CostMap → CostMap) (host : String) (edges : List Edge) (vis : VisMap)
        (costs : CostMap) (order : Int) (n : String),
        mapGet? vis n = some true ∨ n = host →
        mapGet? (ProcessThisNode it host edges vis costs order).vis n = some true ∧
        mapGet? (ProcessThisNode it host edges vis costs order).costs n = mapGet? costs n) ∧
      (∀ (G : Graph) (iter : Nat → CostMap → CostMap) (fuel : Nat) (s : String),
        List.Pairwise
          (fun p q : Config × Outcome => ∀ n, mapGet? p.2.vis n = some true →
            mapGet? q.2.vis n = some true ∧ mapGet? q.2.costs n = mapGet? p.2.costs n)
          (runTrace G iter fuel s)) :=
  ⟨fun it host edges vis costs order _ h =>
      ProcessThisNode_frozen it host edges vis costs order h,
    fun G iter fuel s => trace_pairwise_frozen G iter fuel 0 (startConfig s)⟩

/-- The witness of C6: the second hop of Scenario A keeps `A` finalized at cost 0. -/
theorem C6_monotonic_finalization_witness :
    mapGet? (ProcessThisNode id "C" [⟨"B", 1⟩] [("A", true), ("B", false), ("C", false)]
        [("A", 0), ("B", 5), ("C", 2)] 2).vis "A" = some true ∧
      mapGet? (ProcessThisNode id "C" [⟨"B", 1⟩] [("A", true), ("B", false), ("C", false)]
        [("A", 0), ("B", 5), ("C", 2)] 2).costs "A" =
        mapGet? [("A", 0), ("B", 5), ("C", 2)] "A" :=
  C6_monotonic_finalization.1 id "C" [⟨"B", 1⟩] [("A", true), ("B", false), ("C", false)]
    [("A", 0), ("B", 5), ("C", 2)] 2 "A" (Or.inl (by decide))

theorem step_vis (G : Graph) (it : CostMap → CostMap) (c : Config) :
    (step G it c).vis = (relax c.host (edgesOf G c.host) ⟨c.vis, c.costs⟩).vis :=
  ProcessThisNode_vis _ _ _ _ _ _

theorem step_costs (G : Graph) (it : CostMap → CostMap) (c : Config) :
    (step G it c).costs = (relax c.host (edgesOf G c.host) ⟨c.vis, c.costs⟩).costs :=
  ProcessThisNode_costs _ _ _ _ _ _

/-- Where a visited entry present after the step comes from. -/
theorem relax_vis_cases {host : String} {edges : List Edge} {t : Tables} {n : String} {b : Bool}
    (h : mapGet? (relax host edges t).vis n = some b) :
    mapGet? t.vis n = some b ∨ (n = host ∧ b = true) ∨
      (b = false ∧ ∃ e ∈ edges, e.remote = n) := by
  rcases relaxLoop_vis_cases h with h1 | ⟨_, h2, h3⟩
  · rw [mapGet?_mapSet] at h1
    split_ifs at h1 with hn
    · exact Or.inr (Or.inl ⟨hn, (Option.some.inj h1).symm⟩)
    · exact Or.inl h1
  · exact Or.inr (Or.inr ⟨h2, h3⟩)

/-- Where a cost entry present after the step comes from. -/
theorem relax_costs_cases {host : String} {edges : List Edge} {t : Tables} {n : String} {c : Int}
    (h : mapGet? (relax host edges t).costs n = some c) :
    mapGet? t.costs n = some c ∨
      ((∃ e ∈ edges, e.remote = n ∧ c = addInt (costGet t.costs host) e.cost) ∧
        mapGet? t.vis n ≠ some true ∧ n ≠ host) := by
  rcases relaxLoop_costs_cases h with h1 | ⟨h1, h2⟩
  · exact Or.inl h1
  · right
    rw [mapGet?_mapSet] at h2
    split_ifs at h2 with hn
    · exact absurd rfl h2
    · exact ⟨h1, h2, hn⟩

/-- Cost keys stay among the visited keys and the host. -/
theorem step_costKeys (G : Graph) (it : CostMap → CostMap) (c : Config)
    (h : ∀ n v, mapGet? c.costs n = some v → n = c.host ∨ ∃ b, mapGet? c.vis n = some b) :
    ∀ n v, mapGet? (step G it c).costs n = some v → ∃ b, mapGet? (step G it c).vis n = some b := by
  rw [step_vis, step_costs]
  apply relaxLoop_sync_rev
  intro n v hv
  rw [mapGet?_mapSet]
  split_ifs with hn
  · exact ⟨true, rfl⟩
  · rcases h n v hv with h1 | h1
    · exact absurd h1 hn
    · exact h1

/-- An existing cost entry is kept or lowered by a step of the run. -/
theorem step_costs_le (G : Graph) (it : CostMap → CostMap) (c : Config)
    (h : ∀ n v, mapGet? c.costs n = some v → n = c.host ∨ ∃ b, mapGet? c.vis n = some b)
    (n : String) (v : Int) (hv : mapGet? c.costs n = some v) :
    ∃ v', mapGet? (step G it c).costs n = some v' ∧ v' ≤ v := by
  rw [step_costs]
  have hb : ∃ b, mapGet? (mapSet c.vis c.host true) n = some b := by
    rw [mapGet?_mapSet]
    split_ifs with hn
    · exact ⟨true, rfl⟩
    · rcases h n v hv with h1 | h1
      · exact absurd h1 hn
      · exact h1
  obtain ⟨b, hb⟩ := hb
  exact relaxLoop_costs_le (t := ⟨mapSet c.vis c.host true, c.costs⟩) hb hv

/-- C7: relaxation monotonicity.  Along every run started by `StartDijkstra`, for
every node that has an entry in the cost table a hop starts from, the table the
hop leaves has an entry for it, less than or equal to the previous one. -/
theorem C7_relaxation_monotone (G : Graph) (iter : Nat → CostMap → CostMap) (fuel : Nat)
    (s : String) (p : Config × Outcome) (hp : p ∈ runTrace G iter fuel s) (n : String) (v : Int)
    (hv : mapGet? p.1.costs n = some v) :
    ∃ v', mapGet? p.2.costs n = some v' ∧ v' ≤ v := by
  have hinv := trace_inv G iter
    (fun c => ∀ n v, mapGet? c.costs n = some v → n = c.host ∨ ∃ b, mapGet? c.vis n = some b)
    (by
      intro k c c' hc hn n v hv
      obtain ⟨e1, e2, _⟩ := nextConfig_eq_some hn
      rw [e1]
      rw [e2] at hv
      exact Or.inr (step_costKeys G (iter k) c hc n v hv))
    fuel 0 (startConfig s)
    (by
      intro n v hv
      left
      by_cases hn : s = n
      · exact hn.symm
      · simp [startConfig, mapGet?, hn] at hv)
    p hp
  obtain ⟨h1, j, h2⟩ := hinv
  rw [h2]
  exact step_costs_le G (iter j) p.1 h1 n v hv

/-- The witness of C7: in Scenario A the hop at `C` lowers the cost of `B` from 5. -/
theorem C7_relaxation_monotone_witness :
    ∃ v', mapGet? (step scenarioA (iterId 1)
        ⟨"C", [("A", true), ("B", false), ("C", false)], [("A", 0), ("B", 5), ("C", 2)], 2⟩).costs
        "B" = some v' ∧ v' ≤ 5 :=
  C7_relaxation_monotone scenarioA iterId 3 "A"
    (⟨"C", [("A", true), ("B", false), ("C", false)], [("A", 0), ("B", 5), ("C", 2)], 2⟩,
      step scenarioA (iterId 1)
        ⟨"C", [("A", true), ("B", false), ("C", false)], [("A", 0), ("B", 5), ("C", 2)], 2⟩)
    (by decide) "B" 5 (by decide)

/-- The host of every hop after the first is not visited on arrival. -/
theorem step_next_unvisited (G : Graph) (it : CostMap → CostMap) (c c' : Config)
    (h : nextConfig (step G it c) = some c') : visGet c'.vis c'.host = false := by
  obtain ⟨e1, _, e3⟩ := nextConfig_eq_some h
  rw [e1]
  exact (ProcessThisNode_chosen_unvisited e3).1

theorem trace_hosts_nodup (G : Graph) (iter : Nat → CostMap → CostMap) :
    ∀ fuel k c, ((trace G iter fuel k c).map (fun p => p.1.host)).Nodup := by
  intro fuel
  induction fuel with
  | zero =>
    intro k c
    exact List.nodup_nil
  | succ f ih =>
    intro k c
    rw [trace_succ]
    cases hc : nextConfig (step G (iter k) c) with
    | none => simp
    | some c' =>
      simp only [List.map_cons]
      refine List.nodup_cons.mpr ⟨?_, ih (k + 1) c'⟩
      intro hmem
      obtain ⟨q, hq, hqh⟩ := List.mem_map.mp hmem
      obtain ⟨e1, _, _⟩ := nextConfig_eq_some hc
      have hvis : mapGet? c'.vis c.host = some true := by
        rw [e1, step_vis]
        exact relax_vis_host _ _ _
      have h1 := (trace_frozen G iter f (k + 1) c' q hq c.host hvis).1.1
      have h2 := (trace_inv G iter (fun c => visGet c.vis c.host = false)
        (fun k c c' _ hn => step_next_unvisited G (iter k) c c' hn)
        f (k + 1) c' (step_next_unvisited G (iter k) c c' hc) q hq).1
      simp only at hqh h2
      rw [hqh, visGet, h1] at h2
      exact Bool.noConfusion h2

/-- C8: single finalization.  In every run started by `StartDijkstra` the token is
never forwarded to a node that is already visited, and no node occurs twice in
the sequence of nodes that execute `ProcessThisNode`. -/
theorem C8_single_finalization (G : Graph) (iter : Nat → CostMap → CostMap) (fuel : Nat)
    (s : String) :
    (∀ p ∈ runTrace G iter fuel s, ∀ n ord, p.2.next = some (n, ord) →
        mapGet? p.2.vis n ≠ some true) ∧
      ((runTrace G iter fuel s).map (fun p => p.1.host)).Nodup := by
  refine ⟨?_, trace_hosts_nodup G iter fuel 0 (startConfig s)⟩
  intro p hp n ord hn
  obtain ⟨_, j, h2⟩ := trace_inv G iter (fun _ => True) (fun _ _ _ _ _ => trivial)
    fuel 0 (startConfig s) trivial p hp
  rw [h2] at hn ⊢
  have h3 := (ProcessThisNode_chosen_unvisited hn).1
  intro h4
  rw [visGet] at h3
  unfold step at h4
  rw [h4] at h3
  exact Bool.noConfusion h3

/-- The witness of C8: the first hop of Scenario A forwards to the unvisited `C`. -/
theorem C8_single_finalization_witness :
    mapGet? (step scenarioA (iterId 0) (startConfig "A")).vis "C" ≠ some true :=
  (C8_single_finalization scenarioA iterId 3 "A").1
    (startConfig "A", step scenarioA (iterId 0) (startConfig "A")) (by decide) "C" 2 (by decide)

/-- C10: `StartDijkstra` is `ProcessThisNode` with order 1 on `visited = {}` and
`costs = {self: 0}`; whatever the edge list of the source, afterwards the source
has `vis[source] = true` and `costs[source] = 0`, no other node has
`visited = true`, and a forwarded token carries order 2. -/
theorem C10_start_seeds_source (it : CostMap → CostMap) (host : String) (edges : List Edge) :
    StartDijkstra it host edges = ProcessThisNode it host edges [] [(host, 0)] 1 ∧
      mapGet? (StartDijkstra it host edges).vis host = some true ∧
      mapGet? (StartDijkstra it host edges).costs host = some 0 ∧
      (∀ n, mapGet? (StartDijkstra it host edges).vis n = some true → n = host) ∧
      (∀ n ord, (StartDijkstra it host edges).next = some (n, ord) → ord = 2) := by
  refine ⟨rfl, ?_, ?_, ?_, ?_⟩
  · exact (ProcessThisNode_frozen it host edges [] [(host, 0)] 1 (Or.inr rfl)).1
  · rw [StartDijkstra, (ProcessThisNode_frozen it host edges [] [(host, 0)] 1 (Or.inr rfl)).2]
    simp [mapGet?]
  · intro n hn
    rw [StartDijkstra, ProcessThisNode_vis] at hn
    rcases relax_vis_cases hn with h | ⟨h, _⟩ | ⟨h, _⟩
    · simp [mapGet?] at h
    · exact h
    · exact Bool.noConfusion h
  · intro n ord hn
    rw [(ProcessThisNode_chosen hn).2.1]
    decide

/-- The witness of C10: the source of Scenario A, with a self-loop and a zero-cost
edge added, is the only visited node, keeps cost 0 and forwards a token of
order 2. -/
theorem C10_start_seeds_source_witness :
    (StartDijkstra id "A" [⟨"A", 0⟩, ⟨"B", 5⟩, ⟨"C", 0⟩]).next = some ("C", 2) ∧
      mapGet? (StartDijkstra id "A" [⟨"A", 0⟩, ⟨"B", 5⟩, ⟨"C", 0⟩]).vis "A" = some true ∧
      mapGet? (StartDijkstra id "A" [⟨"A", 0⟩, ⟨"B", 5⟩, ⟨"C", 0⟩]).costs "A" = some 0 ∧
      (∀ n, mapGet? (StartDijkstra id "A" [⟨"A", 0⟩, ⟨"B", 5⟩, ⟨"C", 0⟩]).vis n = some true →
        n = "A") ∧ (2 : Int) = 2 :=
  ⟨by decide,
    (C10_start_seeds_source id "A" [⟨"A", 0⟩, ⟨"B", 5⟩, ⟨"C", 0⟩]).2.1,
    (C10_start_seeds_source id "A" [⟨"A", 0⟩, ⟨"B", 5⟩, ⟨"C", 0⟩]).2.2.1,
    (C10_start_seeds_source id "A" [⟨"A", 0⟩, ⟨"B", 5⟩, ⟨"C", 0⟩]).2.2.2.1,
    (C10_start_seeds_source id "A" [⟨"A", 0⟩, ⟨"B", 5⟩, ⟨"C", 0⟩]).2.2.2.2 "C" 2 (by decide)⟩

/-! ## Reachability -/

theorem Reachable.refl (G : Graph) (s : String) : Reachable G s s := ⟨0, Walk.nil⟩

theorem Reachable.edge {G : Graph} {s u : String} (h : Reachable G s u) {e : Edge}
    (he : e ∈ edgesOf G u) : Reachable G s e.remote := by
  obtain ⟨w, hw⟩ := h
  exact ⟨w + e.cost, Walk.cons e hw he⟩

/-- The final outcome of a run is the outcome of the last hop of its trace. -/
theorem runResult_mem_trace (G : Graph) (iter : Nat → CostMap → CostMap) :
    ∀ fuel k c o, runResult G iter fuel k c = some o →
      o.next = none ∧ ∃ c', (c', o) ∈ trace G iter fuel k c := by
  intro fuel
  induction fuel with
  | zero =>
    intro k c o h
    simp [runResult] at h
  | succ f ih =>
    intro k c o h
    rw [trace_succ]
    unfold runResult at h
    cases hn : nextConfig (step G (iter k) c) with
    | none =>
      rw [hn] at h
      have := Option.some.inj h
      subst this
      exact ⟨nextConfig_eq_none.mp hn, c, List.mem_cons_self _ _⟩
    | some c' =>
      rw [hn] at h
      obtain ⟨h1, c'', h2⟩ := ih (k + 1) c' o h
      exact ⟨h1, c'', List.mem_cons_of_mem _ h2⟩

theorem step_keysReachable (G : Graph) (s : String) (it : CostMap → CostMap) (c : Config)
    (h : KeysReachable G s c) :
    (∀ n b, mapGet? (step G it c).vis n = some b → Reachable G s n) ∧
      ∀ n v, mapGet? (step G it c).costs n = some v → Reachable G s n := by
  obtain ⟨h1, h2, h3⟩ := h
  rw [step_vis, step_costs]
  refine ⟨?_, ?_⟩
  · intro n b hb
    rcases relax_vis_cases hb with h | ⟨h, _⟩ | ⟨_, e, he, her⟩
    · exact h2 n b h
    · rw [h]
      exact h1
    · rw [← her]
      exact h1.edge he
  · intro n v hv
    rcases relax_costs_cases hv with h | ⟨⟨e, he, her, _⟩, _⟩
    · exact h3 n v h
    · rw [← her]
      exact h1.edge he

theorem next_keysReachable (G : Graph) (s : String) (it : CostMap → CostMap) (c c' : Config)
    (hperm : ∀ m, (it m).Perm m) (h : KeysReachable G s c)
    (hn : nextConfig (step G it c) = some c') : KeysReachable G s c' := by
  obtain ⟨e1, e2, e3⟩ := nextConfig_eq_some hn
  obtain ⟨h1, h2⟩ := step_keysReachable G s it c h
  refine ⟨?_, ?_, ?_⟩
  · obtain ⟨_, h4, _⟩ := ProcessThisNode_chosen_unvisited e3
    have h5 := List.mem_map_of_mem Prod.fst ((hperm _).mem_iff.mp h4)
    obtain ⟨v, hv⟩ := (mem_keys_iff _ _).mp h5
    rw [← step_costs G it c] at hv
    exact h2 _ v hv
  · rw [e1]
    exact h1
  · rw [e2]
    exact h2

theorem startConfig_keysReachable (G : Graph) (s : String) :
    KeysReachable G s (startConfig s) := by
  refine ⟨Reachable.refl G s, ?_, ?_⟩
  · intro n b hb
    simp [startConfig, mapGet?] at hb
  · intro n v hv
    by_cases hn : s = n
    · rw [← hn]
      exact Reachable.refl G s
    · simp [startConfig, mapGet?, hn] at hv

/-- Every key of every table of a run is reachable from the source. -/
theorem trace_keysReachable (G : Graph) (iter : Nat → CostMap → CostMap) (hit : IterOK iter)
    (fuel : Nat) (s : String) (p : Config × Outcome) (hp : p ∈ runTrace G iter fuel s) :
    KeysReachable G s p.1 ∧ (∀ n b, mapGet? p.2.vis n = some b → Reachable G s n) ∧
      ∀ n v, mapGet? p.2.costs n = some v → Reachable G s n := by
  obtain ⟨h1, j, h2⟩ := trace_inv G iter (KeysReachable G s)
    (fun k c c' hc hn => next_keysReachable G s (iter k) c c' (hit k) hc hn)
    fuel 0 (startConfig s) (startConfig_keysReachable G s) p hp
  rw [h2]
  exact ⟨h1, step_keysReachable G s (iter j) p.1 h1⟩

theorem scenarioB_walk {v : String} {w : Int} (h : Walk scenarioB "A" v w) :
    v = "A" ∨ v = "B" ∨ v = "C" := by
  induction h with
  | nil => exact Or.inl rfl
  | cons e _ he ih =>
    rcases ih with h | h | h
    · subst h
      have : e = ⟨"B", 5⟩ ∨ e = ⟨"C", 2⟩ := by
        simpa [edgesOf, scenarioB, mapGet?] using he
      rcases this with h | h <;> simp [h]
    · subst h
      simp [edgesOf, scenarioB, mapGet?] at he
    · subst h
      have : e = ⟨"B", 1⟩ := by
        simpa [edgesOf, scenarioB, mapGet?] using he
      simp [this]

theorem scenarioB_unreachable : ¬ Reachable scenarioB "A" "D" := by
  rintro ⟨w, hw⟩
  rcases scenarioB_walk hw with h | h | h <;> simp at h

/-- C9: unreachable nodes never appear.  A `ProcessThisNode` step adds to the
visited set only the host and the remotes of the host's edges, and to the cost
table only such remotes; so in every run every key of every cost table and
visited set, the final ones included, is reachable from the source, and in
Scenario B the node `D`, which no path from `A` reaches, is in neither. -/
theorem C9_unreachable_absent :
    (∀ (it : CostMap → CostMap) (host : String) (edges : List Edge) (vis : VisMap)
        (costs : CostMap) (order : Int) (n : String),
        (n ∈ keys (ProcessThisNode it host edges vis costs order).vis →
          n ∈ keys vis ∨ n = host ∨ ∃ e ∈ edges, e.remote = n) ∧
        (n ∈ keys (ProcessThisNode it host edges vis costs order).costs →
          n ∈ keys costs ∨ ∃ e ∈ edges, e.remote = n)) ∧
      (∀ (G : Graph) (iter : Nat → CostMap → CostMap) (fuel : Nat) (s : String),
        IterOK iter →
        (∀ p ∈ runTrace G iter fuel s, ∀ n,
          n ∈ keys p.2.vis ∨ n ∈ keys p.2.costs → Reachable G s n) ∧
        (∀ o, runFinal G iter fuel s = some o → ∀ n,
          n ∈ keys o.vis ∨ n ∈ keys o.costs → Reachable G s n)) ∧
      (¬ Reachable scenarioB "A" "D" ∧
        ∀ (iter : Nat → CostMap → CostMap) (fuel : Nat), IterOK iter →
          ∀ p ∈ runTrace scenarioB iter fuel "A",
            "D" ∉ keys p.2.vis ∧ "D" ∉ keys p.2.costs) := by
  have hrun : ∀ (G : Graph) (iter : Nat → CostMap → CostMap) (fuel : Nat) (s : String),
      IterOK iter → ∀ p ∈ runTrace G iter fuel s, ∀ n,
        n ∈ keys p.2.vis ∨ n ∈ keys p.2.costs → Reachable G s n := by
    intro G iter fuel s hit p hp n hn
    obtain ⟨_, h2, h3⟩ := trace_keysReachable G iter hit fuel s p hp
    rcases hn with hn | hn
    · obtain ⟨b, hb⟩ := (mem_keys_iff _ _).mp hn
      exact h2 n b hb
    · obtain ⟨v, hv⟩ := (mem_keys_iff _ _).mp hn
      exact h3 n v hv
  refine ⟨?_, ?_, scenarioB_unreachable, ?_⟩
  · intro it host edges vis costs order n
    rw [ProcessThisNode_vis, ProcessThisNode_costs]
    refine ⟨?_, ?_⟩
    · intro hn
      obtain ⟨b, hb⟩ := (mem_keys_iff _ _).mp hn
      rcases relax_vis_cases hb with h | ⟨h, _⟩ | ⟨_, h⟩
      · exact Or.inl ((mem_keys_iff _ _).mpr ⟨b, h⟩)
      · exact Or.inr (Or.inl h)
      · exact Or.inr (Or.inr h)
    · intro hn
      obtain ⟨v, hv⟩ := (mem_keys_iff _ _).mp hn
      rcases relax_costs_cases hv with h | ⟨⟨e, he, her, _⟩, _⟩
      · exact Or.inl ((mem_keys_iff _ _).mpr ⟨v, h⟩)
      · exact Or.inr ⟨e, he, her⟩
  · intro G iter fuel s hit
    refine ⟨hrun G iter fuel s hit, ?_⟩
    intro o ho n hn
    obtain ⟨_, c', hc'⟩ := runResult_mem_trace G iter fuel 0 (startConfig s) o ho
    exact hrun G iter fuel s hit (c', o) hc' n hn
  · intro iter fuel hit p hp
    exact ⟨fun h => scenarioB_unreachable (hrun scenarioB iter fuel "A" hit p hp "D" (Or.inl h)),
      fun h => scenarioB_unreachable (hrun scenarioB iter fuel "A" hit p hp "D" (Or.inr h))⟩

/-- The witness of C9: Scenario B run from `A`; the key `B` of the first hop's cost
table is reachable. -/
theorem C9_unreachable_absent_witness : Reachable scenarioB "A" "B" :=
  (C9_unreachable_absent.2.1 scenarioB iterId 3 "A" (fun _ _ => List.Perm.refl _)).1
    (startConfig "A", step scenarioB (iterId 0) (startConfig "A")) (by decide) "B"
    (Or.inr (by decide))

/-! ## Dijkstra's invariant -/

theorem edgesOf_mem {G : Graph} {u : String} {e : Edge} (h : e ∈ edgesOf G u) :
    ∃ p ∈ G, e ∈ p.2 := by
  unfold edgesOf at h
  cases hg : mapGet? G u with
  | none =>
    rw [hg] at h
    simp at h
  | some es =>
    rw [hg] at h
    exact ⟨(u, es), mem_of_mapGet? hg, h⟩

theorem edgesOf_nonneg {G : Graph} (hG : NonNeg G) {u : String} {e : Edge}
    (h : e ∈ edgesOf G u) : 0 ≤ e.cost := by
  obtain ⟨p, hp, hep⟩ := edgesOf_mem h
  exact hG p hp e hep

theorem Walk.nonneg {G : Graph} (hG : NonNeg G) {s v : String} {w : Int} (h : Walk G s v w) :
    0 ≤ w := by
  induction h with
  | nil => exact le_refl 0
  | cons e _ he ih =>
    have := edgesOf_nonneg hG he
    omega

/-- The offer made along an edge from a node of cost below `infinity` is the
true sum. -/
theorem addInt_edge {G : Graph} (hG : NonNeg G) (hF : CostsFit G) {u : String} {e : Edge}
    (he : e ∈ edgesOf G u) {ch : Int} (h0 : 0 ≤ ch) (h1 : ch < infinity) :
    addInt ch e.cost = ch + e.cost := by
  obtain ⟨p, hp, hep⟩ := edgesOf_mem he
  have h2 := hG p hp e hep
  have h3 := hF p hp e hep
  unfold maxEdgeCost at h3
  unfold infinity at h1
  apply addInt_eq <;> omega

/-- Wrap-around never raises the sum of an `int` and a non-negative cost. -/
theorem addInt_le {a b : Int} (ha : minInt ≤ a) (hb : 0 ≤ b) : addInt a b ≤ a + b := by
  unfold minInt at ha
  unfold addInt wrapInt
  omega

theorem minInt_le_addInt (a b : Int) : minInt ≤ addInt a b := by
  unfold minInt addInt wrapInt
  omega

/-- Any walk from the source ends at a finalized node, or its cost is at least
the cost of some unvisited entry. -/
theorem walk_frontier {G : Graph} (hG : NonNeg G) {s : String} {vis : VisMap} {costs : CostMap}
    (T : TokenInv G s vis costs) {v : String} {w : Int} (h : Walk G s v w) :
    mapGet? vis v = some true ∨
      ∃ y cy, mapGet? costs y = some cy ∧ visGet vis y = false ∧ cy ≤ w := by
  induction h with
  | nil => exact Or.inl T.source
  | @cons u w e hw he ih =>
    have hpos := edgesOf_nonneg hG he
    rcases ih with hu | ⟨y, cy, hy, hvy, hle⟩
    · obtain ⟨cu, hcu⟩ := T.sync _ _ hu
      have hle : cu ≤ w := T.lower u cu hu hcu w hw
      rcases T.relaxed u cu hu hcu e he with hr | ⟨c, hc, hcle⟩
      · exact Or.inl hr
      · obtain ⟨b, hb⟩ := T.syncRev _ _ hc
        cases b
        · right
          have := addInt_le (T.range u cu hcu) hpos
          exact ⟨e.remote, c, hc, by simp [visGet, hb], by omega⟩
        · exact Or.inl hb
    · right
      exact ⟨y, cy, hy, hvy, by omega⟩

theorem costGet_of_some {costs : CostMap} {n : String} {v : Int}
    (h : mapGet? costs n = some v) : costGet costs n = v := by
  simp [costGet, h]

/-- Processing the host of an arriving token re-establishes the invariant. -/
theorem step_tokenInv {G : Graph} {s : String} (it : CostMap → CostMap) {c : Config}
    (A : ArriveInv G s c) : TokenInv G s (step G it c).vis (step G it c).costs := by
  obtain ⟨ch, hch, hmin⟩ := A.hostCost
  have hget : costGet c.costs c.host = ch := costGet_of_some hch
  have entry_sync : ∀ n b, mapGet? (mapSet c.vis c.host true) n = some b →
      ∃ v, mapGet? c.costs n = some v := by
    intro n b hb
    rw [mapGet?_mapSet] at hb
    split_ifs at hb with hn
    · rw [hn]
      exact ⟨ch, hch⟩
    · exact A.sync n b hb
  have entry_rev : ∀ n v, mapGet? c.costs n = some v →
      ∃ b, mapGet? (mapSet c.vis c.host true) n = some b := by
    intro n v hv
    rw [mapGet?_mapSet]
    split_ifs with hn
    · exact ⟨true, rfl⟩
    · rcases A.syncRev n v hv with h1 | h1
      · exact absurd h1 hn
      · exact h1
  rw [step_vis, step_costs]
  refine ⟨relax_costs_keysNodup _ _ A.nodup, relaxLoop_sync entry_sync,
    relaxLoop_sync_rev entry_rev, ?_, ?_, ?_, ?_⟩
  · -- source
    rcases A.source with h1 | h1
    · rw [← h1]
      exact relax_vis_host _ _ _
    · exact relax_vis_of_some _ _ _ h1
  · -- range
    intro n v hv
    rcases relax_costs_cases hv with h | ⟨⟨e, _, _, hc⟩, _⟩
    · exact A.range n v h
    · rw [hc]
      exact minInt_le_addInt _ _
  · -- lower
    intro n v hn hv
    rcases relax_vis_cases hn with h | ⟨h, _⟩ | ⟨h, _⟩
    · rw [relax_costs_of_visited _ _ _ (Or.inl h)] at hv
      exact A.lower n v h hv
    · rw [relax_costs_of_visited _ _ _ (Or.inr h)] at hv
      simp only at hv
      rw [h, hch] at hv
      rw [← Option.some.inj hv, h]
      exact hmin
    · exact Bool.noConfusion h
  · -- relaxed
    intro u cu hu hcu e he
    rcases relax_vis_cases hu with h | ⟨h, _⟩ | ⟨h, _⟩
    · rw [relax_costs_of_visited _ _ _ (Or.inl h)] at hcu
      rcases A.relaxed u cu h hcu e he with hr | ⟨v, hv, hle⟩
      · exact Or.inl (relax_vis_of_some _ _ _ hr)
      · right
        obtain ⟨b, hb⟩ := entry_rev _ _ hv
        obtain ⟨v', hv', hle'⟩ := relaxLoop_costs_le (m := costGet c.costs c.host)
          (l := edgesOf G c.host) (t := ⟨mapSet c.vis c.host true, c.costs⟩) hb hv
        exact ⟨v', hv', le_trans hle' hle⟩
    · rw [relax_costs_of_visited _ _ _ (Or.inr h)] at hcu
      simp only at hcu
      rw [h, hch] at hcu
      rw [h] at he
      have := relaxLoop_relaxed (m := costGet c.costs c.host) (l := edgesOf G c.host)
        (t := ⟨mapSet c.vis c.host true, c.costs⟩) entry_sync e he
      rcases this with h1 | ⟨c1, hc1, hle1⟩
      · exact Or.inl h1
      · rw [hget, Option.some.inj hcu] at hle1
        exact Or.inr ⟨c1, hc1, hle1⟩
    · exact Bool.noConfusion h

/-- The token forwarded after a step arrives with the invariant. -/
theorem next_arriveInv {G : Graph} (hG : NonNeg G) {s : String}
    {it : CostMap → CostMap} (hperm : ∀ m, (it m).Perm m) {c c' : Config}
    (A : ArriveInv G s c) (hn : nextConfig (step G it c) = some c') : ArriveInv G s c' := by
  have T := step_tokenInv it A
  obtain ⟨e1, e2, e3⟩ := nextConfig_eq_some hn
  obtain ⟨v, hv, _, hvis, _, _, hmin⟩ := ProcessThisNode_chosen_min (hperm _) A.nodup e3
  have hvis' : visGet (step G it c).vis c'.host = false := hvis
  have hv' : mapGet? (step G it c).costs c'.host = some v := hv
  have hmin' : ∀ k c'', mapGet? (step G it c).costs k = some c'' →
      visGet (step G it c).vis k = false → v ≤ c'' := hmin
  have hunv : mapGet? (step G it c).vis c'.host ≠ some true := by
    intro h
    rw [visGet, h] at hvis'
    exact Bool.noConfusion hvis'
  refine ⟨?_, ?_, ?_, ?_, ?_, ?_, ?_, ?_, ?_⟩
  · rw [e2]; exact T.nodup
  · rw [e1, e2]; exact T.sync
  · rw [e1, e2]; exact fun n v hv => Or.inr (T.syncRev n v hv)
  · rw [e2]
    refine ⟨v, hv', ?_⟩
    intro w hw
    rcases walk_frontier hG T hw with h | ⟨y, cy, hy, hvy, hle⟩
    · exact absurd h hunv
    · exact le_trans (hmin' y cy hy hvy) hle
  · rw [e1]; exact hunv
  · rw [e1]; exact Or.inr T.source
  · rw [e2]; exact T.range
  · rw [e1, e2]; exact T.lower
  · rw [e1, e2]; exact T.relaxed

theorem startConfig_costs {s n : String} {v : Int}
    (h : mapGet? (startConfig s).costs n = some v) : n = s ∧ v = 0 := by
  by_cases hn : s = n
  · simp [startConfig, mapGet?, hn] at h
    exact ⟨hn.symm, h.symm⟩
  · simp [startConfig, mapGet?, hn] at h

theorem startConfig_vis {s n : String} {b : Bool}
    (h : mapGet? (startConfig s).vis n = some b) : False := by
  simp [startConfig, mapGet?] at h

/-- The state `StartDijkstra` sets up satisfies the arrival invariant. -/
theorem startConfig_arriveInv {G : Graph} (hG : NonNeg G) (s : String) :
    ArriveInv G s (startConfig s) := by
  have hc0 : mapGet? (startConfig s).costs s = some 0 := by
    simp [startConfig, mapGet?]
  refine ⟨?_, ?_, ?_, ?_, ?_, ?_, ?_, ?_, ?_⟩
  · simp [startConfig, KeysNodup, keys]
  · exact fun n b hb => (startConfig_vis hb).elim
  · exact fun n v hv => Or.inl (startConfig_costs hv).1
  · exact ⟨0, hc0, fun w hw => hw.nonneg hG⟩
  · exact fun h => startConfig_vis h
  · exact Or.inl rfl
  · intro n v hv
    rw [(startConfig_costs hv).2]
    decide
  · exact fun n v h _ => (startConfig_vis h).elim
  · exact fun u cu h _ => (startConfig_vis h).elim

/-- All along a run every token arrives with the invariant, and every outcome is
the outcome of processing it in some admissible iteration order. -/
theorem runTrace_arriveInv {G : Graph} (hG : NonNeg G)
    {iter : Nat → CostMap → CostMap} (hit : IterOK iter) (fuel : Nat) (s : String)
    (p : Config × Outcome) (hp : p ∈ runTrace G iter fuel s) :
    ArriveInv G s p.1 ∧ ∃ j, p.2 = step G (iter j) p.1 :=
  trace_inv G iter (ArriveInv G s)
    (fun k _ _ hc hn => next_arriveInv hG (hit k) hc hn)
    fuel 0 (startConfig s) (startConfig_arriveInv hG s) p hp

/-! ## Exactness when no sum wraps -/

/-- After a step from an exact token every cost entry is the cost of a walk. -/
theorem step_walk {G : Graph} (hG : NonNeg G) (hF : CostsFit G) {s : String}
    (it : CostMap → CostMap) {c : Config} (A : ArriveInv G s c) (E : ArriveExact G s c) :
    ∀ n v, mapGet? (step G it c).costs n = some v → Walk G s n v := by
  obtain ⟨ch, hch, _⟩ := A.hostCost
  have hch0 : 0 ≤ ch := (E.walk _ _ hch).nonneg hG
  have hlt : ch < infinity := E.below _ _ (Or.inr rfl) hch
  intro n v hv
  rw [step_costs] at hv
  rcases relax_costs_cases hv with h | ⟨⟨e, he, her, hc⟩, _⟩
  · exact E.walk n v h
  · simp only at hc
    rw [costGet_of_some hch, addInt_edge hG hF he hch0 hlt] at hc
    rw [hc, ← her]
    exact Walk.cons e (E.walk _ _ hch) he

/-- After a step from an exact token the finalized nodes cost less than
`infinity`. -/
theorem step_below {G : Graph} {s : String} (it : CostMap → CostMap) {c : Config}
    (E : ArriveExact G s c) :
    ∀ n v, mapGet? (step G it c).vis n = some true →
      mapGet? (step G it c).costs n = some v → v < infinity := by
  intro n v hn hv
  rw [step_vis] at hn
  rw [step_costs] at hv
  rcases relax_vis_cases hn with h | ⟨h, _⟩ | ⟨h, _⟩
  · rw [relax_costs_of_visited _ _ _ (Or.inl h)] at hv
    exact E.below n v (Or.inl h) hv
  · rw [relax_costs_of_visited _ _ _ (Or.inr h)] at hv
    exact E.below n v (Or.inr h) hv
  · exact Bool.noConfusion h

/-- The token forwarded after a step from an exact token is exact. -/
theorem next_arriveExact {G : Graph} (hG : NonNeg G) (hF : CostsFit G) {s : String}
    {it : CostMap → CostMap} (hperm : ∀ m, (it m).Perm m) {c c' : Config}
    (A : ArriveInv G s c) (E : ArriveExact G s c)
    (hn : nextConfig (step G it c) = some c') : ArriveExact G s c' := by
  obtain ⟨e1, e2, e3⟩ := nextConfig_eq_some hn
  obtain ⟨v, hv, hlt, _⟩ := ProcessThisNode_chosen_min (hperm _) A.nodup e3
  have hv' : mapGet? (step G it c).costs c'.host = some v := hv
  refine ⟨?_, ?_⟩
  · rw [e2]
    exact step_walk hG hF it A E
  · intro n v' hn' hv''
    rw [e2] at hv''
    rcases hn' with h | h
    · rw [e1] at h
      exact step_below it E n v' h hv''
    · rw [h, hv'] at hv''
      rw [← Option.some.inj hv'']
      exact hlt

theorem startConfig_arriveExact (G : Graph) (s : String) : ArriveExact G s (startConfig s) := by
  refine ⟨?_, ?_⟩
  · intro n v hv
    obtain ⟨h1, h2⟩ := startConfig_costs hv
    rw [h1, h2]
    exact Walk.nil
  · intro n v _ hv
    rw [(startConfig_costs hv).2]
    decide

/-- When no sum can wrap, every token of a run arrives exact. -/
theorem runTrace_arriveExact {G : Graph} (hG : NonNeg G) (hF : CostsFit G)
    {iter : Nat → CostMap → CostMap} (hit : IterOK iter) (fuel : Nat) (s : String)
    (p : Config × Outcome) (hp : p ∈ runTrace G iter fuel s) :
    (ArriveInv G s p.1 ∧ ArriveExact G s p.1) ∧ ∃ j, p.2 = step G (iter j) p.1 :=
  trace_inv G iter (fun c => ArriveInv G s c ∧ ArriveExact G s c)
    (fun k _ _ hc hn =>
      ⟨next_arriveInv hG (hit k) hc.1 hn, next_arriveExact hG hF (hit k) hc.1 hc.2 hn⟩)
    fuel 0 (startConfig s) ⟨startConfig_arriveInv hG s, startConfig_arriveExact G s⟩ p hp

/-! ## The end of the run -/

/-- When no next node is found, under the bound on distances, every reachable
node is finalized. -/
theorem none_all_visited {G : Graph} (hG : NonNeg G) {s : String} {it : CostMap → CostMap}
    (hperm : ∀ m, (it m).Perm m) {c : Config} (A : ArriveInv G s c)
    (K : KeysReachable G s c) (hE : ¬ Reachable G s "") (hB : DistancesBelowInfinity G s)
    (hnone : (step G it c).next = none) (v : String) (hv : Reachable G s v) :
    mapGet? (step G it c).vis v = some true := by
  obtain ⟨w, hw, hwlt⟩ := hB v hv
  rcases ProcessThisNode_none (hperm _) hnone with ⟨c0, hc0⟩ | hall
  · exact absurd ((step_keysReachable G s it c K).2 "" c0 hc0) hE
  · rcases walk_frontier hG (step_tokenInv it A) hw with h1 | ⟨y, cy, hy, hvy, hle⟩
    · exact h1
    · have := hall y cy hy hvy
      omega

/-- A run that has not ended within `fuel` hops has made `fuel` hops. -/
theorem trace_length_of_none (G : Graph) (iter : Nat → CostMap → CostMap) :
    ∀ fuel k c, runResult G iter fuel k c = none → (trace G iter fuel k c).length = fuel := by
  intro fuel
  induction fuel with
  | zero =>
    intro k c _
    rfl
  | succ f ih =>
    intro k c h
    rw [trace_succ]
    unfold runResult at h
    cases hn : nextConfig (step G (iter k) c) with
    | none =>
      rw [hn] at h
      exact Option.noConfusion h
    | some c' =>
      rw [hn] at h
      simp only [List.length_cons]
      rw [ih (k + 1) c' h]

theorem remotes_mem {G : Graph} {p : String × List Edge} (hp : p ∈ G) {e : Edge}
    (he : e ∈ p.2) : e.remote ∈ remotes G := by
  induction G with
  | nil => simp at hp
  | cons q G ih =>
    unfold remotes
    rcases List.mem_cons.mp hp with h | h
    · subst h
      exact List.mem_append_left _ (List.mem_map_of_mem Edge.remote he)
    · exact List.mem_append_right _ (ih h)

theorem Reachable.mem_nodeIds {G : Graph} {s v : String} (h : Reachable G s v) :
    v ∈ nodeIds G s := by
  obtain ⟨w, hw⟩ := h
  cases hw with
  | nil => exact List.mem_cons_self _ _
  | cons e _ he =>
    obtain ⟨p, hp, hep⟩ := edgesOf_mem he
    exact List.mem_cons_of_mem _ (remotes_mem hp hep)

/-- A run makes at most `nodeCount` hops. -/
theorem runTrace_length_le (G : Graph) (iter : Nat → CostMap → CostMap) (hit : IterOK iter)
    (fuel : Nat) (s : String) : (runTrace G iter fuel s).length ≤ nodeCount G s := by
  have hnd := trace_hosts_nodup G iter fuel 0 (startConfig s)
  have hsub : (trace G iter fuel 0 (startConfig s)).map (fun p => p.1.host) ⊆
      (nodeIds G s).dedup := by
    intro n hn
    obtain ⟨p, hp, hpn⟩ := List.mem_map.mp hn
    rw [← hpn]
    exact List.mem_dedup.mpr (trace_keysReachable G iter hit fuel s p hp).1.1.mem_nodeIds
  have := (List.subperm_of_subset hnd hsub).length_le
  simpa [runTrace, nodeCount] using this

/-- With more fuel than there are node ids the run reaches its end. -/
theorem runFinal_isSome (G : Graph) (iter : Nat → CostMap → CostMap) (hit : IterOK iter)
    (fuel : Nat) (s : String) (hfuel : nodeCount G s < fuel) :
    ∃ o, runFinal G iter fuel s = some o := by
  cases h : runFinal G iter fuel s with
  | some o => exact ⟨o, rfl⟩
  | none =>
    have h1 := trace_length_of_none G iter fuel 0 (startConfig s) h
    have h2 := runTrace_length_le G iter hit fuel s
    unfold runTrace at h2
    omega

/-- The final outcome of a run within the bounds: every reachable node is
finalized with its true distance. -/
theorem runFinal_correct {G : Graph} (hG : NonNeg G) (hF : CostsFit G) {s : String}
    {iter : Nat → CostMap → CostMap} (hit : IterOK iter)
    (hE : ¬ Reachable G s "") (hB : DistancesBelowInfinity G s)
    (fuel : Nat) (o : Outcome) (h : runFinal G iter fuel s = some o)
    (v : String) (hv : Reachable G s v) :
    mapGet? o.vis v = some true ∧ ∃ d, mapGet? o.costs v = some d ∧ IsDist G s v d := by
  obtain ⟨hnone, c, hc⟩ := runResult_mem_trace G iter fuel 0 (startConfig s) o h
  obtain ⟨⟨A, E⟩, j, hj⟩ := runTrace_arriveExact hG hF hit fuel s (c, o) hc
  have K := (trace_keysReachable G iter hit fuel s (c, o) hc).1
  simp only at A E K hj
  subst hj
  have T := step_tokenInv (iter j) A
  have h1 := none_all_visited hG (hit j) A K hE hB hnone v hv
  obtain ⟨d, hd⟩ := T.sync v true h1
  exact ⟨h1, d, hd, step_walk hG hF (iter j) A E v d hd, T.lower v d h1 hd⟩

/-! ## Scenario A and the two boundary graphs -/

theorem scenarioA_walk {v : String} {w : Int} (h : Walk scenarioA "A" v w) :
    v = "A" ∨ v = "B" ∨ v = "C" := by
  induction h with
  | nil => exact Or.inl rfl
  | cons e _ he ih =>
    rcases ih with h | h | h
    · subst h
      have : e = ⟨"B", 5⟩ ∨ e = ⟨"C", 2⟩ := by
        simpa [edgesOf, scenarioA, mapGet?] using he
      rcases this with h | h <;> simp [h]
    · subst h
      simp [edgesOf, scenarioA, mapGet?] at he
    · subst h
      have : e = ⟨"B", 1⟩ := by
        simpa [edgesOf, scenarioA, mapGet?] using he
      simp [this]

theorem scenarioA_walk_C : Walk scenarioA "A" "C" 2 :=
  Walk.cons (G := scenarioA) ⟨"C", 2⟩ Walk.nil (by decide)

theorem scenarioA_walk_B : Walk scenarioA "A" "B" 3 :=
  Walk.cons (G := scenarioA) ⟨"B", 1⟩ scenarioA_walk_C (by decide)

theorem scenarioA_noEmpty : ¬ Reachable scenarioA "A" "" := by
  rintro ⟨w, hw⟩
  rcases scenarioA_walk hw with h | h | h <;> simp at h

theorem scenarioA_below : DistancesBelowInfinity scenarioA "A" := by
  rintro v ⟨w, hw⟩
  rcases scenarioA_walk hw with h | h | h
  · exact ⟨0, h ▸ Walk.nil, by decide⟩
  · exact ⟨3, h ▸ scenarioA_walk_B, by decide⟩
  · exact ⟨2, h ▸ scenarioA_walk_C, by decide⟩

theorem sentinelGraph_reach_C : Reachable sentinelGraph "A" "C" :=
  ⟨_, Walk.cons (G := sentinelGraph) ⟨"C", 1⟩
    (Walk.cons (G := sentinelGraph) ⟨"B", 100000000⟩ Walk.nil (by decide)) (by decide)⟩

theorem sentinelGraph_reach_B : Reachable sentinelGraph "A" "B" :=
  ⟨_, Walk.cons (G := sentinelGraph) ⟨"B", 100000000⟩ Walk.nil (by decide)⟩

theorem overflowGraph_dist_B : IsDist overflowGraph "A" "B" 2 := by
  refine ⟨Walk.cons (G := overflowGraph) ⟨"B", 2⟩ Walk.nil (by decide), ?_⟩
  have key : ∀ v w, Walk overflowGraph "A" v w → v = "B" → 2 ≤ w := by
    intro v w h
    cases h with
    | nil =>
      intro h
      exact absurd h (by decide)
    | @cons u w' e hw he =>
      intro _
      have h0 : 0 ≤ w' := hw.nonneg (by decide)
      obtain ⟨p, hp, hep⟩ := edgesOf_mem he
      have hp' : p = ("A", [⟨"C", 1⟩, ⟨"B", 2⟩]) ∨ p = ("C", [⟨"B", 9223372036854775807⟩]) := by
        simpa [overflowGraph] using hp
      rcases hp' with h | h
      · subst h
        have : e = ⟨"C", 1⟩ ∨ e = ⟨"B", 2⟩ := by simpa using hep
        rcases this with h | h
        · subst h
          rename_i hB
          exact absurd hB (by decide)
        · subst h
          show 2 ≤ w' + 2
          omega
      · subst h
        have : e = ⟨"B", 9223372036854775807⟩ := by simpa using hep
        subst this
        show 2 ≤ w' + 9223372036854775807
        omega
  exact fun w hw => key "B" w hw rfl

/-! ## Correctness of the run -/

/-- C1, as stated, fails: in `sentinelGraph` (`A→B` of cost `10^8`, `B→C` of
cost 1, all costs non-negative) the run from `A` ends at `A` itself, and its
final cost table has no entry for the reachable node `C`. -/
theorem C1_counterexample :
    NonNeg sentinelGraph ∧ Reachable sentinelGraph "A" "C" ∧
      runFinal sentinelGraph iterId 1 "A" =
        some ⟨[("A", true), ("B", false)], [("A", 0), ("B", 100000000)], none⟩ ∧
      mapGet? [("A", (0 : Int)), ("B", 100000000)] "C" = none :=
  ⟨by decide, sentinelGraph_reach_C, by decide, by decide⟩

/-- C1 (amended): for every graph whose edge costs are non-negative and at most
`2^63 - 10^8`, whose reachable nodes all have distance below `10^8` and none
of which has the empty id, for every source and every iteration order of the
`range` loops, the run ends within `nodeCount` hops, and the cost table held
by the terminating node has, for every node reachable from the source, an
entry equal to its true shortest-path distance. -/
theorem C1_final_table_correct (G : Graph) (s : String) (iter : Nat → CostMap → CostMap)
    (fuel : Nat) (hG : NonNeg G) (hF : CostsFit G) (hE : ¬ Reachable G s "")
    (hB : DistancesBelowInfinity G s) (hit : IterOK iter) (hfuel : nodeCount G s < fuel) :
    ∃ o, runFinal G iter fuel s = some o ∧
      ∀ v, Reachable G s v → ∃ d, mapGet? o.costs v = some d ∧ IsDist G s v d := by
  obtain ⟨o, ho⟩ := runFinal_isSome G iter hit fuel s hfuel
  exact ⟨o, ho, fun v hv => (runFinal_correct hG hF hit hE hB fuel o ho v hv).2⟩

/-- The witness of C1: Scenario A from source `A` ends with `A=0, C=2, B=3`. -/
theorem C1_final_table_correct_witness :
    (∃ o, runFinal scenarioA iterId 4 "A" = some o ∧
      ∀ v, Reachable scenarioA "A" v →
        ∃ d, mapGet? o.costs v = some d ∧ IsDist scenarioA "A" v d) ∧
      runFinal scenarioA iterId 4 "A" =
        some ⟨[("A", true), ("B", true), ("C", true)], [("A", 0), ("B", 3), ("C", 2)], none⟩ :=
  ⟨C1_final_table_correct scenarioA "A" iterId 4 (by decide) (by decide) scenarioA_noEmpty
      scenarioA_below (fun _ _ => List.Perm.refl _) (by decide),
    by decide⟩

/-- C2, as stated, fails: in `overflowGraph` (non-negative costs, one of them
`2^63 - 1`) the third hop marks `B` visited while its cost entry is `-2^63`,
the wrapped sum `1 + (2^63 - 1)`, although the true distance of `B` is 2. -/
theorem C2_counterexample :
    NonNeg overflowGraph ∧
      ((⟨"B", [("A", true), ("C", true), ("B", false)],
          [("A", 0), ("C", 1), ("B", -9223372036854775808)], 3⟩ : Config),
        (⟨[("A", true), ("C", true), ("B", true)],
          [("A", 0), ("C", 1), ("B", -9223372036854775808)], none⟩ : Outcome))
        ∈ runTrace overflowGraph iterId 3 "A" ∧
      IsDist overflowGraph "A" "B" 2 :=
  ⟨by decide, by decide, overflowGraph_dist_B⟩

/-- C2 (amended): for every graph whose edge costs are non-negative and at most
`2^63 - 10^8`, and every run from a source, at every hop the host is marked
visited while its entry in the cost table, which the hop leaves unchanged,
equals its true shortest-path distance from the source. -/
theorem C2_visited_cost_is_distance (G : Graph) (s : String)
    (iter : Nat → CostMap → CostMap) (fuel : Nat) (hG : NonNeg G) (hF : CostsFit G)
    (hit : IterOK iter) (p : Config × Outcome) (hp : p ∈ runTrace G iter fuel s) :
    mapGet? p.2.vis p.1.host = some true ∧
      ∃ d, mapGet? p.1.costs p.1.host = some d ∧ mapGet? p.2.costs p.1.host = some d ∧
        IsDist G s p.1.host d := by
  obtain ⟨⟨A, E⟩, j, hj⟩ := runTrace_arriveExact hG hF hit fuel s p hp
  obtain ⟨ch, hch, hmin⟩ := A.hostCost
  have hfr := ProcessThisNode_frozen (iter j) p.1.host (edgesOf G p.1.host) p.1.vis p.1.costs
    p.1.order (Or.inr rfl)
  rw [hj]
  exact ⟨hfr.1, ch, hch, hfr.2.trans hch, E.walk _ _ hch, hmin⟩

/-- The witness of C2: the last hop of Scenario A marks `B` visited at cost 3. -/
theorem C2_visited_cost_is_distance_witness :
    ∃ d, mapGet? [("A", (0 : Int)), ("B", 3), ("C", 2)] "B" = some d ∧
      mapGet? (step scenarioA (iterId 2)
        ⟨"B", [("A", true), ("B", false), ("C", true)], [("A", 0), ("B", 3), ("C", 2)], 3⟩).costs
        "B" = some d ∧ IsDist scenarioA "A" "B" d :=
  (C2_visited_cost_is_distance scenarioA "A" iterId 3 (by decide) (by decide)
    (fun _ _ => List.Perm.refl _)
    (⟨"B", [("A", true), ("B", false), ("C", true)], [("A", 0), ("B", 3), ("C", 2)], 3⟩,
      step scenarioA (iterId 2)
        ⟨"B", [("A", true), ("B", false), ("C", true)], [("A", 0), ("B", 3), ("C", 2)], 3⟩)
    (by decide)).2

/-- C3, as stated, fails: in `sentinelGraph` the first hop finds no next node
although the reachable node `B`, whose cost is `10^8`, is not visited. -/
theorem C3_counterexample :
    NonNeg sentinelGraph ∧
      (startConfig "A", (⟨[("A", true), ("B", false)], [("A", 0), ("B", 100000000)], none⟩ :
        Outcome)) ∈ runTrace sentinelGraph iterId 1 "A" ∧
      Reachable sentinelGraph "A" "B" ∧
      mapGet? [("A", true), ("B", false)] "B" ≠ some true :=
  ⟨by decide, by decide, sentinelGraph_reach_B, by decide⟩

/-- C3 (amended): for every graph with non-negative edge costs in which every
node reachable from the source has distance below `10^8` and none of them has
the empty id, a `ProcessThisNode` step of a run finds no next node if and only
if every node reachable from the source is visited after it. -/
theorem C3_no_next_iff_all_visited (G : Graph) (s : String)
    (iter : Nat → CostMap → CostMap) (fuel : Nat) (hG : NonNeg G)
    (hE : ¬ Reachable G s "") (hB : DistancesBelowInfinity G s) (hit : IterOK iter)
    (p : Config × Outcome) (hp : p ∈ runTrace G iter fuel s) :
    p.2.next = none ↔ ∀ v, Reachable G s v → mapGet? p.2.vis v = some true := by
  obtain ⟨A, j, hj⟩ := runTrace_arriveInv hG hit fuel s p hp
  have K := (trace_keysReachable G iter hit fuel s p hp).1
  rw [hj]
  constructor
  · intro hnone v hv
    exact none_all_visited hG (hit j) A K hE hB hnone v hv
  · intro hall
    cases hn : (step G (iter j) p.1).next with
    | none => rfl
    | some q =>
      obtain ⟨n, ord⟩ := q
      obtain ⟨c, hc, _, hvis, _⟩ := ProcessThisNode_chosen_min (hit j _) A.nodup hn
      have hr : Reachable G s n := (step_keysReachable G s (iter j) p.1 K).2 n c hc
      have h1 : mapGet? (step G (iter j) p.1).vis n = some true := hall n hr
      have h2 : visGet (step G (iter j) p.1).vis n = false := hvis
      rw [visGet, h1] at h2
      exact Bool.noConfusion h2

/-- The witness of C3: in Scenario A the first hop forwards the token, and not
every reachable node is visited after it. -/
theorem C3_no_next_iff_all_visited_witness :
    (step scenarioA (iterId 0) (startConfig "A")).next = none ↔
      ∀ v, Reachable scenarioA "A" v →
        mapGet? (step scenarioA (iterId 0) (startConfig "A")).vis v = some true :=
  C3_no_next_iff_all_visited scenarioA "A" iterId 3 (by decide) scenarioA_noEmpty
    scenarioA_below (fun _ _ => List.Perm.refl _)
    (startConfig "A", step scenarioA (iterId 0) (startConfig "A")) (by decide)

/-! ## The node process on its channels -/

/-- On three occupied slots holding maps that are not nil, `ProcessThisNode`
returns, with the edge list put back, the updated tables stored, and the token
frame handed to `send` when a next node was chosen. -/
theorem NodeState.ProcessThisNode_occupied (host : String) (E : List Edge) (C : CostMap)
    (V : VisMap) (cd : Codec) (it : CostMap → CostMap) (net : String → Frame → Bool)
    (order : Int) :
    NodeState.ProcessThisNode ⟨host, some E, some (some C), some (some V)⟩ cd it net order =
      Exec.done
        ⟨⟨host, some E, some (some (Dijkstra.ProcessThisNode it host E V C order).costs),
            some (some (Dijkstra.ProcessThisNode it host E V C order).vis)⟩,
          match (Dijkstra.ProcessThisNode it host E V C order).next with
          | some (bestNode, ord) =>
            [(bestNode, ⟨CmdProcessNode, host,
              [cd.marshalCosts (Dijkstra.ProcessThisNode it host E V C order).costs,
                cd.marshalVis (Dijkstra.ProcessThisNode it host E V C order).vis, "",
                Itoa ord]⟩)]
          | none => []⟩ := by
  simp only [NodeState.ProcessThisNode, chanRecv, chanSend]

/-- On a nil visited map `ProcessThisNode` panics, whatever the cost slot holds. -/
theorem NodeState.ProcessThisNode_nilVis (host : String) (E : List Edge)
    (costMap : Option CostMap) (cd : Codec) (it : CostMap → CostMap)
    (net : String → Frame → Bool) (order : Int) :
    NodeState.ProcessThisNode ⟨host, some E, some costMap, some none⟩ cd it net order =
      Exec.panicked := by
  simp only [NodeState.ProcessThisNode, chanRecv]

/-- On a nil cost map `ProcessThisNode` panics at the first write into it, and
otherwise returns with the slots refilled and nothing sent. -/
theorem NodeState.ProcessThisNode_nilCosts (host : String) (E : List Edge) (V : VisMap)
    (cd : Codec) (it : CostMap → CostMap) (net : String → Frame → Bool) (order : Int) :
    NodeState.ProcessThisNode ⟨host, some E, some none, some (some V)⟩ cd it net order =
      match relaxLoopNil 0 E (mapSet V host true) with
      | none => Exec.panicked
      | some vis' => Exec.done ⟨⟨host, some E, some none, some (some vis')⟩, []⟩ := by
  simp only [NodeState.ProcessThisNode, chanRecv, chanSend]

/-- Whenever `ProcessThisNode`, started on three occupied slots, returns, the
three slots are occupied again and the edge slot holds the edge list it took. -/
theorem NodeState.ProcessThisNode_released (host : String) (E : List Edge)
    (costMap : Option CostMap) (visMap : Option VisMap) (cd : Codec)
    (it : CostMap → CostMap) (net : String → Frame → Bool) (order : Int) (eff : Effect)
    (h : NodeState.ProcessThisNode ⟨host, some E, some costMap, some visMap⟩ cd it net order =
      Exec.done eff) :
    eff.node.chEdges = some E ∧ eff.node.chCost ≠ none ∧ eff.node.chVis ≠ none := by
  cases visMap with
  | none =>
    rw [NodeState.ProcessThisNode_nilVis] at h
    exact Exec.noConfusion h
  | some V =>
    cases costMap with
    | some C =>
      rw [NodeState.ProcessThisNode_occupied] at h
      have := Exec.done.inj h
      subst this
      simp
    | none =>
      rw [NodeState.ProcessThisNode_nilCosts] at h
      cases hr : relaxLoopNil 0 E (mapSet V host true) with
      | none =>
        rw [hr] at h
        exact Exec.noConfusion h
      | some vis' =>
        rw [hr] at h
        have := Exec.done.inj h
        subst this
        simp

/-- With a nil map in the cost or in the visited slot `ProcessThisNode` hands
nothing to `send`. -/
theorem NodeState.ProcessThisNode_nil_sends (host : String) (E : List Edge)
    (costMap : Option CostMap) (visMap : Option VisMap) (cd : Codec)
    (it : CostMap → CostMap) (net : String → Frame → Bool) (order : Int) (eff : Effect)
    (hnil : costMap = none ∨ visMap = none)
    (h : NodeState.ProcessThisNode ⟨host, some E, some costMap, some visMap⟩ cd it net order =
      Exec.done eff) :
    eff.sends = [] := by
  cases visMap with
  | none =>
    rw [NodeState.ProcessThisNode_nilVis] at h
    exact Exec.noConfusion h
  | some V =>
    cases costMap with
    | some C => simp at hnil
    | none =>
      rw [NodeState.ProcessThisNode_nilCosts] at h
      cases hr : relaxLoopNil 0 E (mapSet V host true) with
      | none =>
        rw [hr] at h
        exact Exec.noConfusion h
      | some vis' =>
        rw [hr] at h
        have := Exec.done.inj h
        subst this
        rfl

/-- C11: edge registration, the handshake send being the boolean `net`.  When
the send to `e.remote` fails `SendCreateEdge` leaves the registry equal to `E`;
when it succeeds the registry becomes `E` followed by `e`.  Nothing is
deduplicated: two successful registrations of the same edge leave
`E ++ [e, e]`, in which `e` occurs two more times than in `E`. -/
theorem C11_edge_registration (host : String) (E : List Edge) (chC : Chan (Option CostMap))
    (chV : Chan (Option VisMap)) (net : String → Frame → Bool) (e : Edge) :
    (net e.remote ⟨CmdCreateEdge, host, [Itoa e.cost]⟩ = false →
        NodeState.SendCreateEdge ⟨host, some E, chC, chV⟩ net e =
          Exec.done ⟨⟨host, some E, chC, chV⟩,
            [(e.remote, ⟨CmdCreateEdge, host, [Itoa e.cost]⟩)]⟩) ∧
      (net e.remote ⟨CmdCreateEdge, host, [Itoa e.cost]⟩ = true →
        NodeState.SendCreateEdge ⟨host, some E, chC, chV⟩ net e =
          Exec.done ⟨⟨host, some (E ++ [e]), chC, chV⟩,
            [(e.remote, ⟨CmdCreateEdge, host, [Itoa e.cost]⟩)]⟩ ∧
        NodeState.SendCreateEdge ⟨host, some (E ++ [e]), chC, chV⟩ net e =
          Exec.done ⟨⟨host, some (E ++ [e, e]), chC, chV⟩,
            [(e.remote, ⟨CmdCreateEdge, host, [Itoa e.cost]⟩)]⟩ ∧
        List.count e (E ++ [e, e]) = List.count e E + 2) := by
  refine ⟨?_, ?_⟩
  · intro h
    simp [NodeState.SendCreateEdge, h]
  · intro h
    refine ⟨by simp [NodeState.SendCreateEdge, h, chanRecv, chanSend],
      by simp [NodeState.SendCreateEdge, h, chanRecv, chanSend], ?_⟩
    simp [List.count_append]

/-- The witness of C11: registering `A→B (10)` on a process that holds `A→B (4)`,
with the network down and with the network up. -/
theorem C11_edge_registration_witness :
    NodeState.SendCreateEdge ⟨"A", some [⟨"B", 4⟩], none, none⟩ netDown ⟨"B", 10⟩ =
        Exec.done ⟨⟨"A", some [⟨"B", 4⟩], none, none⟩,
          [("B", ⟨CmdCreateEdge, "A", [Itoa 10]⟩)]⟩ ∧
      NodeState.SendCreateEdge ⟨"A", some [⟨"B", 4⟩], none, none⟩ netUp ⟨"B", 10⟩ =
        Exec.done ⟨⟨"A", some ([⟨"B", 4⟩] ++ [⟨"B", 10⟩]), none, none⟩,
          [("B", ⟨CmdCreateEdge, "A", [Itoa 10]⟩)]⟩ :=
  ⟨(C11_edge_registration "A" [⟨"B", 4⟩] none none netDown ⟨"B", 10⟩).1 rfl,
    ((C11_edge_registration "A" [⟨"B", 4⟩] none none netUp ⟨"B", 10⟩).2 rfl).1⟩

/-- A send on an occupied cost slot, or visited slot, keeps the handler from
ever reaching `ProcessThisNode`. -/
theorem NodeState.HandleProcessThisNode_blocked (host : String) (chE : Chan (List Edge))
    (chC : Chan (Option CostMap)) (chV : Chan (Option VisMap)) (cd : Codec)
    (it : CostMap → CostMap)
    (net : String → Frame → Bool) (cmd sender d0 d1 d2 d3 : String) (rest : List String)
    (h : chC ≠ none ∨ chV ≠ none) :
    NodeState.HandleProcessThisNode ⟨host, chE, chC, chV⟩ cd it net
      ⟨cmd, sender, d0 :: d1 :: d2 :: d3 :: rest⟩ = Exec.blocked := by
  cases chC with
  | some c => simp [NodeState.HandleProcessThisNode, chanSend]
  | none =>
    cases chV with
    | some v => simp [NodeState.HandleProcessThisNode, chanSend]
    | none => simp at h

/-- On empty cost and visited slots the handler runs `ProcessThisNode` on the
decoded payload, nil maps included. -/
theorem NodeState.HandleProcessThisNode_empty (host : String) (E : List Edge) (cd : Codec)
    (it : CostMap → CostMap) (net : String → Frame → Bool) (cmd sender d0 d1 d2 d3 : String)
    (rest : List String) :
    NodeState.HandleProcessThisNode ⟨host, some E, none, none⟩ cd it net
        ⟨cmd, sender, d0 :: d1 :: d2 :: d3 :: rest⟩ =
      NodeState.ProcessThisNode
        ⟨host, some E, some (cd.unmarshalCosts d0), some (cd.unmarshalVis d1)⟩ cd it net
        (cd.atoi d3) := by
  simp [NodeState.HandleProcessThisNode, chanSend]

/-- C12, as stated, fails: on the source `A` of Scenario A, whose cost and
visited slots hold the tables `StartDijkstra` left, `HandleProcessThisNode`
does not complete on a well-formed token frame: it waits on `chCost <- costMap`. -/
theorem C12_counterexample :
    NodeState.StartDijkstra ⟨"A", some [⟨"B", 5⟩, ⟨"C", 2⟩], none, none⟩ sampleCodec id netUp =
        Exec.done ⟨⟨"A", some [⟨"B", 5⟩, ⟨"C", 2⟩], some (some [("A", 0), ("B", 5), ("C", 2)]),
            some (some [("A", true), ("B", false), ("C", false)])⟩,
          [("C", ⟨"ProcessNode", "A",
            ["A=0;B=5;C=2;", "A=true;B=false;C=false;", "", "2"]⟩)]⟩ ∧
      NodeState.HandleProcessThisNode
        ⟨"A", some [⟨"B", 5⟩, ⟨"C", 2⟩], some (some [("A", 0), ("B", 5), ("C", 2)]),
          some (some [("A", true), ("B", false), ("C", false)])⟩ sampleCodec id netUp
        ⟨"ProcessNode", "B", ["A=0;B=3;C=2;", "A=true;B=true;C=true;", "", "4"]⟩ =
        Exec.blocked := by
  constructor <;> decide

/-- C12 (amended): modelling `chCost` and `chVis` as one-slot buffers, for every
node state whose cost and visited slots are empty and whose edge slot is
occupied, and every token frame with at least four data entries, the tables
`ProcessThisNode` works on are exactly the token's decoded costs and visited
maps, with the token's order, and `HandleProcessThisNode` completes when both
payloads decode to maps that are not nil.  When the visited payload decodes
to the nil map it panics, when only the cost payload does it panics at the
first write into the cost map, when the cost slot or the visited slot is
occupied it does not complete, and with fewer than four data entries it
panics. -/
theorem C12_receive_token (host : String) (E : List Edge) (cd : Codec)
    (it : CostMap → CostMap) (net : String → Frame → Bool) (cmd sender d0 d1 d2 d3 : String)
    (rest : List String) :
    (NodeState.HandleProcessThisNode ⟨host, some E, none, none⟩ cd it net
        ⟨cmd, sender, d0 :: d1 :: d2 :: d3 :: rest⟩ =
      NodeState.ProcessThisNode
        ⟨host, some E, some (cd.unmarshalCosts d0), some (cd.unmarshalVis d1)⟩ cd it net
        (cd.atoi d3)) ∧
      (∀ (C : CostMap) (V : VisMap), cd.unmarshalCosts d0 = some C →
        cd.unmarshalVis d1 = some V →
        ∃ sends, NodeState.HandleProcessThisNode ⟨host, some E, none, none⟩ cd it net
            ⟨cmd, sender, d0 :: d1 :: d2 :: d3 :: rest⟩ =
          Exec.done
            ⟨⟨host, some E,
              some (some (Dijkstra.ProcessThisNode it host E V C (cd.atoi d3)).costs),
              some (some (Dijkstra.ProcessThisNode it host E V C (cd.atoi d3)).vis)⟩, sends⟩) ∧
      (cd.unmarshalVis d1 = none →
        NodeState.HandleProcessThisNode ⟨host, some E, none, none⟩ cd it net
          ⟨cmd, sender, d0 :: d1 :: d2 :: d3 :: rest⟩ = Exec.panicked) ∧
      (∀ V : VisMap, cd.unmarshalCosts d0 = none → cd.unmarshalVis d1 = some V →
        NodeState.HandleProcessThisNode ⟨host, some E, none, none⟩ cd it net
            ⟨cmd, sender, d0 :: d1 :: d2 :: d3 :: rest⟩ =
          match relaxLoopNil 0 E (mapSet V host true) with
          | none => Exec.panicked
          | some vis' => Exec.done ⟨⟨host, some E, some none, some (some vis')⟩, []⟩) ∧
      (∀ (chE : Chan (List Edge)) (chC : Chan (Option CostMap)) (chV : Chan (Option VisMap)),
        chC ≠ none ∨ chV ≠ none →
        NodeState.HandleProcessThisNode ⟨host, chE, chC, chV⟩ cd it net
          ⟨cmd, sender, d0 :: d1 :: d2 :: d3 :: rest⟩ = Exec.blocked) ∧
      (∀ st : NodeState,
        NodeState.HandleProcessThisNode st cd it net ⟨cmd, sender, [d0, d1, d2]⟩ =
          Exec.panicked) := by
  have h0 := NodeState.HandleProcessThisNode_empty host E cd it net cmd sender d0 d1 d2 d3 rest
  refine ⟨h0, ?_, ?_, ?_, ?_, fun st => rfl⟩
  · intro C V hC hV
    rw [hC, hV] at h0
    exact ⟨_, h0.trans (NodeState.ProcessThisNode_occupied host E C V cd it net (cd.atoi d3))⟩
  · intro hV
    rw [hV] at h0
    exact h0.trans (NodeState.ProcessThisNode_nilVis host E _ cd it net (cd.atoi d3))
  · intro V hC hV
    rw [hC, hV] at h0
    exact h0.trans (NodeState.ProcessThisNode_nilCosts host E V cd it net (cd.atoi d3))
  · exact fun chE chC chV h =>
      NodeState.HandleProcessThisNode_blocked host chE chC chV cd it net cmd sender d0 d1 d2 d3
        rest h

/-- The witness of C12: a token arriving at `C`, whose slots are empty, with
payloads that decode to maps, with a visited payload `null`, and arriving at
a process whose cost slot is occupied. -/
theorem C12_receive_token_witness :
    (∃ sends, NodeState.HandleProcessThisNode ⟨"C", some [⟨"B", 1⟩], none, none⟩ sampleCodec id
          netUp ⟨"ProcessNode", "A", ["x", "y", "", "2"]⟩ =
        Exec.done
          ⟨⟨"C", some [⟨"B", 1⟩],
            some (some (Dijkstra.ProcessThisNode id "C" [⟨"B", 1⟩] [] []
              (sampleCodec.atoi "2")).costs),
            some (some (Dijkstra.ProcessThisNode id "C" [⟨"B", 1⟩] [] []
              (sampleCodec.atoi "2")).vis)⟩, sends⟩) ∧
      NodeState.HandleProcessThisNode ⟨"C", some [⟨"B", 1⟩], none, none⟩ sampleCodec id
          netUp ⟨"ProcessNode", "A", ["x", "null", "", "2"]⟩ = Exec.panicked ∧
      NodeState.HandleProcessThisNode ⟨"C", some [⟨"B", 1⟩], some (some []), none⟩ sampleCodec
          id netUp ⟨"ProcessNode", "A", ["x", "y", "", "2"]⟩ = Exec.blocked :=
  ⟨(C12_receive_token "C" [⟨"B", 1⟩] sampleCodec id netUp "ProcessNode" "A" "x" "y" "" "2"
      []).2.1 [] [] (by decide) (by decide),
    (C12_receive_token "C" [⟨"B", 1⟩] sampleCodec id netUp "ProcessNode" "A" "x" "null" "" "2"
      []).2.2.1 (by decide),
    (C12_receive_token "C" [⟨"B", 1⟩] sampleCodec id netUp "ProcessNode" "A" "x" "y" "" "2"
      []).2.2.2.2.1 (some [⟨"B", 1⟩]) (some (some [])) none (Or.inl (by simp))⟩

/-- C13, as stated, fails: started with all three slots occupied, the visited
slot holding the nil map, `ProcessThisNode` panics at `vis[host] = true` and
refills no slot; `HandleProcessThisNode` puts a process into that state on
the four-entry token frame whose visited payload is `null`. -/
theorem C13_counterexample :
    NodeState.ProcessThisNode ⟨"C", some [⟨"B", 1⟩], some (some []), some none⟩ sampleCodec id
        netUp 2 = Exec.panicked ∧
      sampleCodec.unmarshalVis "null" = none ∧
      NodeState.HandleProcessThisNode ⟨"C", some [⟨"B", 1⟩], none, none⟩ sampleCodec id
        netUp ⟨"ProcessNode", "A", ["x", "null", "", "2"]⟩ = Exec.panicked := by
  refine ⟨?_, ?_, ?_⟩ <;> decide

/-- C13 (amended): guaranteed release.  Whenever `ProcessThisNode` starts with
all three slots occupied and the cost and visited slots hold maps that are
not nil, it returns, whether a next node was chosen or not and whatever the
forwarding send does, with all three slots occupied again: the edge slot
holds the edge list it took, the cost and visited slots hold the updated
tables.  On a nil visited map it panics; on a nil cost map it panics at the
first write into it and otherwise returns with the slots refilled; and
whenever it returns, the three slots are occupied and the edge list is the
one it took. -/
theorem C13_guaranteed_release (host : String) (E : List Edge) (C : CostMap) (V : VisMap)
    (cd : Codec) (it : CostMap → CostMap) (net : String → Frame → Bool) (order : Int) :
    (∃ sends, NodeState.ProcessThisNode ⟨host, some E, some (some C), some (some V)⟩ cd it net
        order =
      Exec.done
        ⟨⟨host, some E, some (some (Dijkstra.ProcessThisNode it host E V C order).costs),
            some (some (Dijkstra.ProcessThisNode it host E V C order).vis)⟩, sends⟩ ∧
      (sends = [] ↔ (Dijkstra.ProcessThisNode it host E V C order).next = none) ∧
      NodeState.ProcessThisNode ⟨host, some E, some (some C), some (some V)⟩ cd it netUp order =
        NodeState.ProcessThisNode ⟨host, some E, some (some C), some (some V)⟩ cd it netDown
          order) ∧
      (∀ costMap : Option CostMap,
        NodeState.ProcessThisNode ⟨host, some E, some costMap, some none⟩ cd it net order =
          Exec.panicked) ∧
      (NodeState.ProcessThisNode ⟨host, some E, some none, some (some V)⟩ cd it net order =
        match relaxLoopNil 0 E (mapSet V host true) with
        | none => Exec.panicked
        | some vis' => Exec.done ⟨⟨host, some E, some none, some (some vis')⟩, []⟩) ∧
      (∀ (costMap : Option CostMap) (visMap : Option VisMap) (eff : Effect),
        NodeState.ProcessThisNode ⟨host, some E, some costMap, some visMap⟩ cd it net order =
          Exec.done eff →
        eff.node.chEdges = some E ∧ eff.node.chCost ≠ none ∧ eff.node.chVis ≠ none) := by
  have h1 := NodeState.ProcessThisNode_occupied host E C V cd it net order
  refine ⟨⟨_, h1, ?_, ?_⟩,
    fun costMap => NodeState.ProcessThisNode_nilVis host E costMap cd it net order,
    NodeState.ProcessThisNode_nilCosts host E V cd it net order,
    fun costMap visMap eff h =>
      NodeState.ProcessThisNode_released host E costMap visMap cd it net order eff h⟩
  · cases (Dijkstra.ProcessThisNode it host E V C order).next with
    | none => simp
    | some q => simp
  · rw [NodeState.ProcessThisNode_occupied, NodeState.ProcessThisNode_occupied]

/-- The witness of C13: the hop at `C` of Scenario A refills its three slots, `B`
now costing 3; on a nil cost map a process without edges refills its slots,
and a process with an edge to an undiscovered node panics. -/
theorem C13_guaranteed_release_witness :
    ((⟨⟨"C", some [⟨"B", 1⟩], some (some [("A", 0), ("B", 3), ("C", 2)]),
          some (some [("A", true), ("B", false), ("C", true)])⟩,
        [("B", ⟨"ProcessNode", "C", ["A=0;B=3;C=2;", "A=true;B=false;C=true;", "", "3"]⟩)]⟩ :
        Effect).node.chEdges = some [⟨"B", 1⟩] ∧
      (⟨"C", some [⟨"B", 1⟩], some (some [("A", 0), ("B", 3), ("C", 2)]),
          some (some [("A", true), ("B", false), ("C", true)])⟩ : NodeState).chCost ≠ none ∧
      (⟨"C", some [⟨"B", 1⟩], some (some [("A", 0), ("B", 3), ("C", 2)]),
          some (some [("A", true), ("B", false), ("C", true)])⟩ : NodeState).chVis ≠ none) ∧
      NodeState.ProcessThisNode ⟨"C", some [], some none, some (some [])⟩ sampleCodec id netUp 2 =
        Exec.done ⟨⟨"C", some [], some none, some (some [("C", true)])⟩, []⟩ ∧
      NodeState.ProcessThisNode ⟨"C", some [⟨"B", 1⟩], some none, some (some [])⟩ sampleCodec id
        netUp 2 = Exec.panicked :=
  ⟨(C13_guaranteed_release "C" [⟨"B", 1⟩] [("A", 0), ("B", 5), ("C", 2)]
      [("A", true), ("B", false), ("C", false)] sampleCodec id netUp 2).2.2.2
      (some [("A", 0), ("B", 5), ("C", 2)]) (some [("A", true), ("B", false), ("C", false)])
      ⟨⟨"C", some [⟨"B", 1⟩], some (some [("A", 0), ("B", 3), ("C", 2)]),
          some (some [("A", true), ("B", false), ("C", true)])⟩,
        [("B", ⟨"ProcessNode", "C", ["A=0;B=3;C=2;", "A=true;B=false;C=true;", "", "3"]⟩)]⟩
      (by decide),
    by decide, by decide⟩

/-- C14: the forwarded token frame.  Whenever `ProcessThisNode` with argument
`order` chooses a next node, it hands to `send`, for that node, exactly one
frame: its command is `CmdProcessNode`, its sender is this node's id, and its
data list has exactly four entries, the encoding of the updated cost table,
the encoding of the updated visited set, the empty string, and the decimal
representation of the Go sum `order + 1`, which is `order + 1` unless `order`
is the largest `int`.  With a nil map in the cost or visited slot no node is
chosen and nothing is handed to `send`. -/
theorem C14_token_frame (host : String) (E : List Edge) (C : CostMap) (V : VisMap)
    (cd : Codec) (it : CostMap → CostMap) (net : String → Frame → Bool) (order : Int)
    (n : String) (ord : Int)
    (h : (Dijkstra.ProcessThisNode it host E V C order).next = some (n, ord)) :
    (∃ node, NodeState.ProcessThisNode ⟨host, some E, some (some C), some (some V)⟩ cd it net
        order =
      Exec.done ⟨node,
        [(n, ⟨CmdProcessNode, host,
          [cd.marshalCosts (Dijkstra.ProcessThisNode it host E V C order).costs,
            cd.marshalVis (Dijkstra.ProcessThisNode it host E V C order).vis, "",
            Itoa (addInt order 1)]⟩)]⟩) ∧
      (minInt ≤ order → order < 9223372036854775807 → addInt order 1 = order + 1) ∧
      (∀ (costMap : Option CostMap) (visMap : Option VisMap) (eff : Effect),
        costMap = none ∨ visMap = none →
        NodeState.ProcessThisNode ⟨host, some E, some costMap, some visMap⟩ cd it net order =
          Exec.done eff →
        eff.sends = []) := by
  have h0 := NodeState.ProcessThisNode_occupied host E C V cd it net order
  rw [h] at h0
  simp only at h0
  rw [(ProcessThisNode_chosen h).2.1] at h0
  refine ⟨⟨_, h0⟩, ?_, ?_⟩
  · intro h1 h2
    unfold minInt at h1
    exact addInt_eq (by omega) (by omega)
  · exact fun costMap visMap eff hnil hd =>
      NodeState.ProcessThisNode_nil_sends host E costMap visMap cd it net order eff hnil hd

/-- The witness of C14: the first hop of Scenario A hands one frame of order 2 to
`send`, for `C`. -/
theorem C14_token_frame_witness :
    (∃ node, NodeState.ProcessThisNode
        ⟨"A", some [⟨"B", 5⟩, ⟨"C", 2⟩], some (some [("A", 0)]), some (some [])⟩ sampleCodec id
        netUp 1 =
      Exec.done ⟨node,
        [("C", ⟨CmdProcessNode, "A",
          [sampleCodec.marshalCosts
              (Dijkstra.ProcessThisNode id "A" [⟨"B", 5⟩, ⟨"C", 2⟩] [] [("A", 0)] 1).costs,
            sampleCodec.marshalVis
              (Dijkstra.ProcessThisNode id "A" [⟨"B", 5⟩, ⟨"C", 2⟩] [] [("A", 0)] 1).vis, "",
            Itoa (addInt 1 1)]⟩)]⟩) ∧
      Itoa (addInt 1 1) = "2" :=
  ⟨(C14_token_frame "A" [⟨"B", 5⟩, ⟨"C", 2⟩] [("A", 0)] [] sampleCodec id netUp 1 "C" 2
      (by decide)).1, by decide⟩

/-! ## The infinity sentinel -/

/-- An unvisited entry below `infinity` makes `ProcessThisNode` forward the token,
provided the empty id is not a cost key. -/
theorem ProcessThisNode_forwards {it : CostMap → CostMap} {host : String}
    {edges : List Edge} {vis : VisMap} {costs : CostMap} {order : Int}
    (hperm : (it (relax host edges ⟨vis, costs⟩).costs).Perm (relax host edges ⟨vis, costs⟩).costs)
    (hE : mapGet? (ProcessThisNode it host edges vis costs order).costs "" = none)
    {k : String} {c : Int}
    (hk : mapGet? (ProcessThisNode it host edges vis costs order).costs k = some c)
    (hv : visGet (ProcessThisNode it host edges vis costs order).vis k = false)
    (hc : c < infinity) :
    ∃ n ord, (ProcessThisNode it host edges vis costs order).next = some (n, ord) := by
  rw [ProcessThisNode_costs] at hE hk
  rw [ProcessThisNode_vis] at hv
  rw [ProcessThisNode_next]
  obtain ⟨h1, h2⟩ := chooseNext_spec (relax host edges ⟨vis, costs⟩).vis
    (it (relax host edges ⟨vis, costs⟩).costs)
  have hle := h2 (k, c) (hperm.mem_iff.mpr (mem_of_mapGet? hk)) hv
  rcases h1 with h1 | ⟨h1, _, _⟩
  · rw [h1] at hle
    exact absurd hle (not_le.mpr hc)
  · have hmem := List.mem_map_of_mem Prod.fst (hperm.mem_iff.mp h1)
    have hne : (chooseNext (relax host edges ⟨vis, costs⟩).vis
        (it (relax host edges ⟨vis, costs⟩).costs)).1 ≠ "" := by
      intro h0
      rw [h0] at hmem
      obtain ⟨v, hv'⟩ := (mem_keys_iff _ _).mp hmem
      rw [hv'] at hE
      exact Option.noConfusion hE
    rw [if_pos hne]
    exact ⟨_, _, rfl⟩

/-- When every unvisited entry costs at least `infinity`, no node is chosen. -/
theorem ProcessThisNode_none_of_all_ge {it : CostMap → CostMap} {host : String}
    {edges : List Edge} {vis : VisMap} {costs : CostMap} {order : Int}
    (hperm : (it (relax host edges ⟨vis, costs⟩).costs).Perm (relax host edges ⟨vis, costs⟩).costs)
    (hnd : KeysNodup costs)
    (hall : ∀ k c, mapGet? (ProcessThisNode it host edges vis costs order).costs k = some c →
      visGet (ProcessThisNode it host edges vis costs order).vis k = false → infinity ≤ c) :
    (ProcessThisNode it host edges vis costs order).next = none := by
  cases hn : (ProcessThisNode it host edges vis costs order).next with
  | none => rfl
  | some q =>
    obtain ⟨n, ord⟩ := q
    obtain ⟨c, hc, hlt, hv, _⟩ := ProcessThisNode_chosen_min hperm hnd hn
    exact absurd (hall n c hc hv) (not_le.mpr hlt)

/-- C16: the infinity sentinel.  Assuming the empty string is not a key of the
cost table the selection loop runs over, `ProcessThisNode` forwards the token
if and only if some key of `costs` whose visited value is not true costs less
than `100000000`.  A node it selects always costs less than `100000000`, and
when every unvisited entry costs `100000000` or more it forwards nothing. -/
theorem C16_infinity_sentinel (it : CostMap → CostMap) (host : String) (edges : List Edge)
    (vis : VisMap) (costs : CostMap) (order : Int) (hperm : ∀ m, (it m).Perm m)
    (hnd : KeysNodup costs) :
    (mapGet? (ProcessThisNode it host edges vis costs order).costs "" = none →
      ((∃ n ord, (ProcessThisNode it host edges vis costs order).next = some (n, ord)) ↔
        ∃ k c, mapGet? (ProcessThisNode it host edges vis costs order).costs k = some c ∧
          visGet (ProcessThisNode it host edges vis costs order).vis k = false ∧
          c < 100000000)) ∧
      (∀ n ord, (ProcessThisNode it host edges vis costs order).next = some (n, ord) →
        ∃ c, mapGet? (ProcessThisNode it host edges vis costs order).costs n = some c ∧
          c < 100000000) ∧
      ((∀ k c, mapGet? (ProcessThisNode it host edges vis costs order).costs k = some c →
          visGet (ProcessThisNode it host edges vis costs order).vis k = false →
          100000000 ≤ c) →
        (ProcessThisNode it host edges vis costs order).next = none) := by
  refine ⟨fun hE => ⟨?_, ?_⟩, ?_, ?_⟩
  · rintro ⟨n, ord, hn⟩
    obtain ⟨c, hc, hlt, hv, _⟩ := ProcessThisNode_chosen_min (hperm _) hnd hn
    exact ⟨n, c, hc, hv, hlt⟩
  · rintro ⟨k, c, hk, hv, hc⟩
    exact ProcessThisNode_forwards (hperm _) hE hk hv hc
  · intro n ord hn
    obtain ⟨c, hc, hlt, _⟩ := ProcessThisNode_chosen_min (hperm _) hnd hn
    exact ⟨c, hc, hlt⟩
  · intro hall
    exact ProcessThisNode_none_of_all_ge (hperm _) hnd hall

theorem sentinel_all_ge (k : String) (c : Int)
    (hk : mapGet? (ProcessThisNode id "A" [⟨"B", 100000000⟩] [] [("A", 0)] 1).costs k = some c)
    (hv : visGet (ProcessThisNode id "A" [⟨"B", 100000000⟩] [] [("A", 0)] 1).vis k = false) :
    100000000 ≤ c := by
  have hcosts : (ProcessThisNode id "A" [⟨"B", 100000000⟩] [] [("A", 0)] 1).costs =
      [("A", 0), ("B", 100000000)] := by decide
  have hmem := mem_of_mapGet? hk
  rw [hcosts] at hmem
  simp only [List.mem_cons, Prod.mk.injEq, List.mem_singleton, List.not_mem_nil, or_false]
    at hmem
  rcases hmem with ⟨h1, _⟩ | ⟨_, h2⟩
  · rw [h1] at hv
    exact absurd hv (by decide)
  · rw [h2]

/-- The witness of C16: the source of `sentinelGraph` discovers `B` at cost
`10^8`, forwards nothing and leaves `B` unvisited. -/
theorem C16_infinity_sentinel_witness :
    (ProcessThisNode id "A" [⟨"B", 100000000⟩] [] [("A", 0)] 1).next = none ∧
      mapGet? (ProcessThisNode id "A" [⟨"B", 100000000⟩] [] [("A", 0)] 1).vis "B" =
        some false ∧
      ((∃ n ord, (ProcessThisNode id "A" [⟨"B", 5⟩] [] [("A", 0)] 1).next = some (n, ord)) ↔
        ∃ k c, mapGet? (ProcessThisNode id "A" [⟨"B", 5⟩] [] [("A", 0)] 1).costs k = some c ∧
          visGet (ProcessThisNode id "A" [⟨"B", 5⟩] [] [("A", 0)] 1).vis k = false ∧
          c < 100000000) :=
  ⟨(C16_infinity_sentinel id "A" [⟨"B", 100000000⟩] [] [("A", 0)] 1
      (fun _ => List.Perm.refl _) (by decide)).2.2 sentinel_all_ge,
    by decide,
    (C16_infinity_sentinel id "A" [⟨"B", 5⟩] [] [("A", 0)] 1
      (fun _ => List.Perm.refl _) (by decide)).1 (by decide)⟩

/-! ## Termination -/

theorem mapSet_of_none {β : Type} {m : List (String × β)} {k : String} (v : β)
    (h : mapGet? m k = none) : mapSet m k v = m ++ [(k, v)] := by
  induction m with
  | nil => rfl
  | cons p t ih =>
    obtain ⟨k', v'⟩ := p
    by_cases hk : k' = k
    · simp [mapGet?, hk] at h
    · simp only [mapGet?, hk, if_false] at h
      simp only [mapSet, hk, if_false, ih h, List.cons_append]

theorem visitedCount_mapSet_true {vis : VisMap} {h : String}
    (hv : mapGet? vis h ≠ some true) :
    visitedCount (mapSet vis h true) = visitedCount vis + 1 := by
  induction vis with
  | nil => rfl
  | cons p t ih =>
    obtain ⟨k, b⟩ := p
    by_cases hk : k = h
    · have hb : b = false := by
        cases b
        · rfl
        · simp [mapGet?, hk] at hv
      subst hb
      simp [visitedCount, mapSet, hk, List.filter_cons]
    · simp only [mapGet?, hk, if_false] at hv
      have := ih hv
      simp only [visitedCount, mapSet, hk, if_false, List.filter_cons] at this ⊢
      cases b <;> simp [this]

theorem visitedCount_append_false (vis : VisMap) (k : String) :
    visitedCount (vis ++ [(k, false)]) = visitedCount vis := by
  simp [visitedCount, List.filter_append, List.filter_cons]

theorem relaxEdge_vis_eq (m : Int) (t : Tables) (e : Edge) :
    (relaxEdge m t e).vis =
      if (mapGet? t.vis e.remote).isSome then t.vis else mapSet t.vis e.remote false := by
  unfold relaxEdge
  simp only
  split_ifs <;> rfl

theorem visitedCount_relaxEdge (m : Int) (t : Tables) (e : Edge) :
    visitedCount (relaxEdge m t e).vis = visitedCount t.vis := by
  rw [relaxEdge_vis_eq]
  split_ifs with h
  · rfl
  · have hn : mapGet? t.vis e.remote = none := by
      cases hv : mapGet? t.vis e.remote with
      | none => rfl
      | some b => simp [hv] at h
    rw [mapSet_of_none false hn, visitedCount_append_false]

theorem visitedCount_relaxLoop (m : Int) (l : List Edge) (t : Tables) :
    visitedCount (relaxLoop m l t).vis = visitedCount t.vis := by
  induction l generalizing t with
  | nil => rfl
  | cons e es ih => rw [relaxLoop_cons, ih, visitedCount_relaxEdge]

/-- A step on a host that is not visited yet raises the number of visited nodes
by one. -/
theorem visitedCount_step (G : Graph) (it : CostMap → CostMap) (c : Config)
    (h : mapGet? c.vis c.host ≠ some true) :
    visitedCount (step G it c).vis = visitedCount c.vis + 1 := by
  rw [step_vis]
  unfold relax
  rw [visitedCount_relaxLoop]
  exact visitedCount_mapSet_true h

/-- Visited nodes are distinct reachable nodes, so they are at most `nodeCount`. -/
theorem visitedCount_le {G : Graph} {s : String} {vis : VisMap} (hnd : KeysNodup vis)
    (hr : ∀ n b, mapGet? vis n = some b → Reachable G s n) :
    visitedCount vis ≤ nodeCount G s := by
  have hsub : (vis.filter (fun p => p.2)).Sublist vis := List.filter_sublist vis
  have hnd' : ((vis.filter (fun p => p.2)).map Prod.fst).Nodup :=
    List.Nodup.sublist (hsub.map Prod.fst) hnd
  have hss : (vis.filter (fun p => p.2)).map Prod.fst ⊆ (nodeIds G s).dedup := by
    intro n hn
    obtain ⟨q, hq, hqn⟩ := List.mem_map.mp hn
    have hmem : n ∈ keys vis := by
      rw [← hqn]
      exact List.mem_map_of_mem Prod.fst (hsub.subset hq)
    obtain ⟨b, hb⟩ := (mem_keys_iff _ _).mp hmem
    exact List.mem_dedup.mpr (hr n b hb).mem_nodeIds
  have := (List.subperm_of_subset hnd' hss).length_le
  simpa [visitedCount, nodeCount] using this

theorem step_keysNodup (G : Graph) (it : CostMap → CostMap) (c : Config)
    (h : KeysNodup c.vis ∧ KeysNodup c.costs) :
    KeysNodup (step G it c).vis ∧ KeysNodup (step G it c).costs := by
  rw [step_vis, step_costs]
  exact relaxLoop_keysNodup ⟨h.1.mapSet _ _, h.2⟩

theorem startConfig_runInv (G : Graph) (s : String) : RunInv G s (startConfig s) := by
  refine ⟨startConfig_keysReachable G s, ?_, ?_, fun h => startConfig_vis h⟩
  · simp [startConfig, KeysNodup, keys]
  · simp [startConfig, KeysNodup, keys]

theorem next_runInv {G : Graph} {s : String} {it : CostMap → CostMap}
    (hperm : ∀ m, (it m).Perm m) {c c' : Config} (R : RunInv G s c)
    (hn : nextConfig (step G it c) = some c') : RunInv G s c' := by
  obtain ⟨e1, e2, e3⟩ := nextConfig_eq_some hn
  obtain ⟨h1, h2⟩ := step_keysNodup G it c ⟨R.2.1, R.2.2.1⟩
  refine ⟨next_keysReachable G s it c c' hperm R.1 hn, ?_, ?_, ?_⟩
  · rw [e1]; exact h1
  · rw [e2]; exact h2
  · have := step_next_unvisited G it c c' hn
    intro h
    rw [visGet, h] at this
    exact Bool.noConfusion this

theorem runTrace_runInv (G : Graph) {iter : Nat → CostMap → CostMap} (hit : IterOK iter)
    (fuel : Nat) (s : String) (p : Config × Outcome) (hp : p ∈ runTrace G iter fuel s) :
    RunInv G s p.1 ∧ ∃ j, p.2 = step G (iter j) p.1 :=
  trace_inv G iter (RunInv G s) (fun k _ _ hc hn => next_runInv (hit k) hc hn)
    fuel 0 (startConfig s) (startConfig_runInv G s) p hp

/-- Every hop lowers the number of node ids not yet visited. -/
theorem Hop_hopsLeft {G : Graph} {iter : Nat → CostMap → CostMap} {s : String}
    {b a : Nat × Config} (h : Hop G iter s b a) : hopsLeft G s b < hopsLeft G s a := by
  obtain ⟨R, _, hn⟩ := h
  obtain ⟨e1, _, _⟩ := nextConfig_eq_some hn
  have h1 := visitedCount_step G (iter a.1) a.2 R.2.2.2
  have h2 : visitedCount (step G (iter a.1) a.2).vis ≤ nodeCount G s :=
    visitedCount_le (step_keysNodup G (iter a.1) a.2 ⟨R.2.1, R.2.2.1⟩).1
      (step_keysReachable G s (iter a.1) a.2 R.1).1
  unfold hopsLeft
  rw [e1]
  omega

theorem Hop_wf (G : Graph) (iter : Nat → CostMap → CostMap) (s : String) :
    WellFounded (Hop G iter s) :=
  Subrelation.wf (fun h => Hop_hopsLeft h) (InvImage.wf (hopsLeft G s) Nat.lt_wfRel.wf)

theorem nodeCount_le_graphIds (G : Graph) (s : String) :
    nodeCount G s ≤ (graphIds G s).length := by
  have hss : (nodeIds G s).dedup ⊆ graphIds G s := by
    intro n hn
    have hn' := List.mem_dedup.mp hn
    unfold graphIds
    apply List.mem_dedup.mpr
    rcases List.mem_cons.mp hn' with h | h
    · rw [h]
      exact List.mem_cons_self _ _
    · exact List.mem_cons_of_mem _ (List.mem_append_right _ h)
  exact (List.subperm_of_subset (List.nodup_dedup _) hss).length_le

/-- C18: termination of the run.  For every graph, every source and every way
the `range` loops order the cost map, the iteration "process the current node,
forward to the chosen node" is well-founded; every step raises the number of
nodes with `visited = true` by one; a run makes at most as many
`ProcessThisNode` executions as there are distinct node ids in the graph (the
source counted among them); and with that much fuel and one more it ends at a
node that finds no next node. -/
theorem C18_termination (G : Graph) (s : String) (iter : Nat → CostMap → CostMap)
    (hit : IterOK iter) :
    WellFounded (Hop G iter s) ∧
      (∀ fuel, ∀ p ∈ runTrace G iter fuel s,
        RunInv G s p.1 ∧ visitedCount p.2.vis = visitedCount p.1.vis + 1) ∧
      (∀ fuel, (runTrace G iter fuel s).length ≤ nodeCount G s ∧
        nodeCount G s ≤ (graphIds G s).length) ∧
      (∀ fuel, (graphIds G s).length < fuel →
        ∃ o, runFinal G iter fuel s = some o ∧ o.next = none) := by
  refine ⟨Hop_wf G iter s, ?_, ?_, ?_⟩
  · intro fuel p hp
    obtain ⟨R, j, hj⟩ := runTrace_runInv G hit fuel s p hp
    rw [hj]
    exact ⟨R, visitedCount_step G (iter j) p.1 R.2.2.2⟩
  · intro fuel
    exact ⟨runTrace_length_le G iter hit fuel s, nodeCount_le_graphIds G s⟩
  · intro fuel hfuel
    obtain ⟨o, ho⟩ := runFinal_isSome G iter hit fuel s
      (lt_of_le_of_lt (nodeCount_le_graphIds G s) hfuel)
    exact ⟨o, ho, (runResult_mem_trace G iter fuel 0 (startConfig s) o ho).1⟩

/-- The witness of C18: Scenario A, with three node ids, ends within four hops. -/
theorem C18_termination_witness :
    (∃ o, runFinal scenarioA iterId 4 "A" = some o ∧ o.next = none) ∧
      (runTrace scenarioA iterId 4 "A").length ≤ nodeCount scenarioA "A" ∧
      (graphIds scenarioA "A").length = 3 :=
  ⟨(C18_termination scenarioA "A" iterId (fun _ _ => List.Perm.refl _)).2.2.2 4 (by decide),
    ((C18_termination scenarioA "A" iterId (fun _ _ => List.Perm.refl _)).2.2.1 4).1,
    by decide⟩

/-! ## Greedy order -/

theorem startConfig_hostLeast (s : String) : HostLeast (startConfig s) := by
  intro y cy hy _
  have h0 : costGet (startConfig s).costs (startConfig s).host = 0 := by
    simp [startConfig, costGet, mapGet?]
  rw [h0, (startConfig_costs hy).2]

theorem next_hostLeast {G : Graph} {s : String} {it : CostMap → CostMap}
    (hperm : ∀ m, (it m).Perm m) {c c' : Config} (A : ArriveInv G s c)
    (hn : nextConfig (step G it c) = some c') : HostLeast c' := by
  obtain ⟨e1, e2, e3⟩ := nextConfig_eq_some hn
  obtain ⟨v, hv, _, _, _, _, hmin⟩ := ProcessThisNode_chosen_min (hperm _) A.nodup e3
  have hv' : mapGet? (step G it c).costs c'.host = some v := hv
  have hmin' : ∀ k c'', mapGet? (step G it c).costs k = some c'' →
      visGet (step G it c).vis k = false → v ≤ c'' := hmin
  intro y cy hy hvy
  rw [e2] at hy ⊢
  rw [e1] at hvy
  rw [costGet_of_some hv']
  exact hmin' y cy hy hvy

/-- The node a step chooses costs at least as much as the node that chose it,
when no sum wraps. -/
theorem step_host_le {G : Graph} (hG : NonNeg G) (hF : CostsFit G) {s : String}
    {it : CostMap → CostMap} (hperm : ∀ m, (it m).Perm m) {c c' : Config}
    (A : ArriveInv G s c) (E : ArriveExact G s c) (L : HostLeast c)
    (hn : nextConfig (step G it c) = some c') :
    costGet c.costs c.host ≤ costGet c'.costs c'.host := by
  obtain ⟨e1, e2, e3⟩ := nextConfig_eq_some hn
  obtain ⟨v, hv, _, hvis, _⟩ := ProcessThisNode_chosen_min (hperm _) A.nodup e3
  have hv' : mapGet? (step G it c).costs c'.host = some v := hv
  have hvis' : visGet (step G it c).vis c'.host = false := hvis
  obtain ⟨ch, hch, _⟩ := A.hostCost
  have hch0 : 0 ≤ ch := (E.walk _ _ hch).nonneg hG
  have hlt : ch < infinity := E.below _ _ (Or.inr rfl) hch
  rw [e2, costGet_of_some hv']
  rw [step_costs] at hv'
  rcases relax_costs_cases hv' with h | ⟨⟨e, he, _, hc⟩, _⟩
  · apply L c'.host v h
    cases hb : mapGet? c.vis c'.host with
    | none => simp [visGet, hb]
    | some b =>
      cases b
      · simp [visGet, hb]
      · have := relax_vis_of_some c.host (edgesOf G c.host) ⟨c.vis, c.costs⟩ hb
        rw [step_vis, visGet, this] at hvis'
        exact Bool.noConfusion hvis'
  · simp only at hc
    rw [costGet_of_some hch, addInt_edge hG hF he hch0 hlt] at hc
    rw [costGet_of_some hch, hc]
    have := edgesOf_nonneg hG he
    omega

/-- All along a trace the hosts cost at least as much as the first one. -/
theorem trace_host_le {G : Graph} (hG : NonNeg G) (hF : CostsFit G) {s : String}
    {iter : Nat → CostMap → CostMap} (hit : IterOK iter) :
    ∀ fuel k c, ArriveInv G s c ∧ ArriveExact G s c ∧ HostLeast c →
      ∀ q ∈ trace G iter fuel k c, costGet c.costs c.host ≤ hopCost q := by
  intro fuel
  induction fuel with
  | zero =>
    intro k c _ q hq
    simp [trace] at hq
  | succ f ih =>
    intro k c hc q hq
    rw [trace_succ] at hq
    rcases List.mem_cons.mp hq with h | h
    · rw [h]
      exact le_refl _
    · cases hn : nextConfig (step G (iter k) c) with
      | none =>
        rw [hn] at h
        simp at h
      | some c' =>
        rw [hn] at h
        have hc' : ArriveInv G s c' ∧ ArriveExact G s c' ∧ HostLeast c' :=
          ⟨next_arriveInv hG (hit k) hc.1 hn, next_arriveExact hG hF (hit k) hc.1 hc.2.1 hn,
            next_hostLeast (hit k) hc.1 hn⟩
        exact le_trans (step_host_le hG hF (hit k) hc.1 hc.2.1 hc.2.2 hn)
          (ih (k + 1) c' hc' q h)

theorem trace_pairwise_hopCost {G : Graph} (hG : NonNeg G) (hF : CostsFit G) {s : String}
    {iter : Nat → CostMap → CostMap} (hit : IterOK iter) :
    ∀ fuel k c, ArriveInv G s c ∧ ArriveExact G s c ∧ HostLeast c →
      List.Pairwise (fun p q => hopCost p ≤ hopCost q) (trace G iter fuel k c) := by
  intro fuel
  induction fuel with
  | zero =>
    intro k c _
    exact List.Pairwise.nil
  | succ f ih =>
    intro k c hc
    rw [trace_succ]
    cases hn : nextConfig (step G (iter k) c) with
    | none => exact List.pairwise_singleton _ _
    | some c' =>
      have hc' : ArriveInv G s c' ∧ ArriveExact G s c' ∧ HostLeast c' :=
        ⟨next_arriveInv hG (hit k) hc.1 hn, next_arriveExact hG hF (hit k) hc.1 hc.2.1 hn,
          next_hostLeast (hit k) hc.1 hn⟩
      refine List.Pairwise.cons ?_ (ih (k + 1) c' hc')
      intro q hq
      exact le_trans (step_host_le hG hF (hit k) hc.1 hc.2.1 hc.2.2 hn)
        (trace_host_le hG hF hit f (k + 1) c' hc' q hq)

/-- C17, as stated, fails: in `overflowGraph`, whose costs are non-negative, the
run from `A` processes `C` at cost 1 and then `B` at cost `-2^63`. -/
theorem C17_counterexample :
    NonNeg overflowGraph ∧
      (runTrace overflowGraph iterId 3 "A").map (fun p => (p.1.host, hopCost p)) =
        [("A", 0), ("C", 1), ("B", -9223372036854775808)] :=
  ⟨by decide, by decide⟩

/-- C17 (amended): for every graph whose edge costs are non-negative and at most
`2^63 - 10^8`, and every run from a source, the costs of the nodes at the
moments they are processed form a non-decreasing sequence along the hop
order, and the node chosen by a `ProcessThisNode` step costs at least as much
as the node that chose it. -/
theorem C17_greedy_order (G : Graph) (s : String) (iter : Nat → CostMap → CostMap)
    (fuel : Nat) (hG : NonNeg G) (hF : CostsFit G) (hit : IterOK iter) :
    List.Pairwise (fun p q => hopCost p ≤ hopCost q) (runTrace G iter fuel s) ∧
      ∀ p ∈ runTrace G iter fuel s, ∀ c', nextConfig p.2 = some c' →
        hopCost p ≤ costGet c'.costs c'.host := by
  have h0 : ArriveInv G s (startConfig s) ∧ ArriveExact G s (startConfig s) ∧
      HostLeast (startConfig s) :=
    ⟨startConfig_arriveInv hG s, startConfig_arriveExact G s, startConfig_hostLeast s⟩
  refine ⟨trace_pairwise_hopCost hG hF hit fuel 0 (startConfig s) h0, ?_⟩
  intro p hp c' hn
  obtain ⟨hP, j, hj⟩ := trace_inv G iter
    (fun c => ArriveInv G s c ∧ ArriveExact G s c ∧ HostLeast c)
    (fun k _ _ hc hn =>
      ⟨next_arriveInv hG (hit k) hc.1 hn, next_arriveExact hG hF (hit k) hc.1 hc.2.1 hn,
        next_hostLeast (hit k) hc.1 hn⟩)
    fuel 0 (startConfig s) h0 p hp
  rw [hj] at hn
  exact step_host_le hG hF (hit j) hP.1 hP.2.1 hP.2.2 hn

/-- The witness of C17: in Scenario A the hop at `A`, of cost 0, chooses `C`, of
cost 2. -/
theorem C17_greedy_order_witness :
    hopCost (startConfig "A", step scenarioA (iterId 0) (startConfig "A")) ≤
      costGet [("A", 0), ("B", 5), ("C", 2)] "C" :=
  (C17_greedy_order scenarioA "A" iterId 3 (by decide) (by decide)
    (fun _ _ => List.Perm.refl _)).2
    (startConfig "A", step scenarioA (iterId 0) (startConfig "A")) (by decide)
    ⟨"C", [("A", true), ("B", false), ("C", false)], [("A", 0), ("B", 5), ("C", 2)], 2⟩
    (by decide)

/-! ## Bounded-cost correctness -/

theorem Reachable.mem_graphIds {G : Graph} {s v : String} (h : Reachable G s v) :
    v ∈ graphIds G s := by
  unfold graphIds
  apply List.mem_dedup.mpr
  rcases List.mem_cons.mp h.mem_nodeIds with h1 | h1
  · rw [h1]
    exact List.mem_cons_self _ _
  · exact List.mem_cons_of_mem _ (List.mem_append_right _ h1)

/-- A node that is visited after some hop of a trace was visited on entry or is
the host of a hop of the trace. -/
theorem trace_visited_host (G : Graph) (iter : Nat → CostMap → CostMap) :
    ∀ fuel k c, ∀ q ∈ trace G iter fuel k c, ∀ n, mapGet? q.2.vis n = some true →
      mapGet? c.vis n = some true ∨ ∃ p ∈ trace G iter fuel k c, p.1.host = n := by
  intro fuel
  induction fuel with
  | zero =>
    intro k c q hq
    simp [trace] at hq
  | succ f ih =>
    intro k c q hq n hn
    have hstep : ∀ b, mapGet? (step G (iter k) c).vis n = some b → b = true →
        mapGet? c.vis n = some true ∨ n = c.host := by
      intro b hb hbt
      rw [step_vis] at hb
      rcases relax_vis_cases hb with h | ⟨h, _⟩ | ⟨h, _⟩
      · exact Or.inl (hbt ▸ h)
      · exact Or.inr h
      · rw [hbt] at h
        exact Bool.noConfusion h
    rw [trace_succ] at hq ⊢
    rcases List.mem_cons.mp hq with h | h
    · rw [h] at hn
      rcases hstep true hn rfl with h1 | h1
      · exact Or.inl h1
      · exact Or.inr ⟨_, List.mem_cons_self _ _, h1.symm⟩
    · cases hc : nextConfig (step G (iter k) c) with
      | none =>
        rw [hc] at h
        simp at h
      | some c' =>
        rw [hc] at h
        obtain ⟨e1, _, _⟩ := nextConfig_eq_some hc
        rcases ih (k + 1) c' q h n hn with h1 | ⟨p, hp, hpn⟩
        · rw [e1] at h1
          rcases hstep true h1 rfl with h2 | h2
          · exact Or.inl h2
          · exact Or.inr ⟨_, List.mem_cons_self _ _, h2.symm⟩
        · exact Or.inr ⟨p, List.mem_cons_of_mem _ hp, hpn⟩

theorem overflowGraph_walk {v : String} {w : Int} (h : Walk overflowGraph "A" v w) :
    v = "A" ∨ v = "B" ∨ v = "C" := by
  induction h with
  | nil => exact Or.inl rfl
  | cons e _ he ih =>
    rcases ih with h | h | h
    · subst h
      have : e = ⟨"C", 1⟩ ∨ e = ⟨"B", 2⟩ := by
        simpa [edgesOf, overflowGraph, mapGet?] using he
      rcases this with h | h <;> simp [h]
    · subst h
      simp [edgesOf, overflowGraph, mapGet?] at he
    · subst h
      have : e = ⟨"B", 9223372036854775807⟩ := by
        simpa [edgesOf, overflowGraph, mapGet?] using he
      simp [this]

theorem overflowGraph_below : DistancesBelowInfinity overflowGraph "A" := by
  rintro v ⟨w, hw⟩
  rcases overflowGraph_walk hw with h | h | h
  · exact ⟨0, h ▸ Walk.nil, by decide⟩
  · exact ⟨2, h ▸ overflowGraph_dist_B.1, by decide⟩
  · exact ⟨1, h ▸ Walk.cons (G := overflowGraph) ⟨"C", 1⟩ Walk.nil (by decide), by decide⟩

/-- C15, as stated, fails: `overflowGraph` has non-negative costs, no empty node
id and every reachable node at distance below `10^8`, yet the terminating
node's cost table maps `B`, at distance 2, to `-2^63`. -/
theorem C15_counterexample :
    NonNeg overflowGraph ∧ "" ∉ graphIds overflowGraph "A" ∧
      DistancesBelowInfinity overflowGraph "A" ∧
      runFinal overflowGraph iterId 3 "A" =
        some ⟨[("A", true), ("C", true), ("B", true)],
          [("A", 0), ("C", 1), ("B", -9223372036854775808)], none⟩ ∧
      IsDist overflowGraph "A" "B" 2 :=
  ⟨by decide, by decide, overflowGraph_below, by decide, overflowGraph_dist_B⟩

/-- C15 (amended): for every graph whose edge costs are non-negative and at most
`2^63 - 10^8`, with no empty node id, and in which every node reachable from
the source has distance below `100000000`, the run ends, every reachable node
has been processed and is visited, and the terminating node's cost table maps
each reachable node to exactly its shortest-path distance and has no other
keys. -/
theorem C15_bounded_cost_correct (G : Graph) (s : String) (iter : Nat → CostMap → CostMap)
    (fuel : Nat) (hG : NonNeg G) (hF : CostsFit G) (hE : "" ∉ graphIds G s)
    (hB : DistancesBelowInfinity G s) (hit : IterOK iter) (hfuel : nodeCount G s < fuel) :
    ∃ o, runFinal G iter fuel s = some o ∧
      (∀ v, Reachable G s v →
        (∃ p ∈ runTrace G iter fuel s, p.1.host = v) ∧ mapGet? o.vis v = some true ∧
          ∃ d, mapGet? o.costs v = some d ∧ IsDist G s v d) ∧
      ∀ v, v ∈ keys o.costs → Reachable G s v := by
  have hE' : ¬ Reachable G s "" := fun h => hE h.mem_graphIds
  obtain ⟨o, ho⟩ := runFinal_isSome G iter hit fuel s hfuel
  obtain ⟨_, c, hc⟩ := runResult_mem_trace G iter fuel 0 (startConfig s) o ho
  refine ⟨o, ho, ?_, ?_⟩
  · intro v hv
    obtain ⟨h1, h2⟩ := runFinal_correct hG hF hit hE' hB fuel o ho v hv
    refine ⟨?_, h1, h2⟩
    rcases trace_visited_host G iter fuel 0 (startConfig s) (c, o) hc v h1 with h3 | h3
    · exact (startConfig_vis h3).elim
    · exact h3
  · intro v hv
    obtain ⟨d, hd⟩ := (mem_keys_iff _ _).mp hv
    exact (trace_keysReachable G iter hit fuel s (c, o) hc).2.2 v d hd

/-- The witness of C15: Scenario A from `A`. -/
theorem C15_bounded_cost_correct_witness :
    ∃ o, runFinal scenarioA iterId 4 "A" = some o ∧
      (∀ v, Reachable scenarioA "A" v →
        (∃ p ∈ runTrace scenarioA iterId 4 "A", p.1.host = v) ∧
          mapGet? o.vis v = some true ∧
          ∃ d, mapGet? o.costs v = some d ∧ IsDist scenarioA "A" v d) ∧
      ∀ v, v ∈ keys o.costs → Reachable scenarioA "A" v :=
  C15_bounded_cost_correct scenarioA "A" iterId 4 (by decide) (by decide) (by decide)
    scenarioA_below (fun _ _ => List.Perm.refl _) (by decide)

/-! ## Tie-break independence -/

theorem startConfig_origin (G : Graph) (s : String) :
    OriginInv G s (startConfig s).vis (startConfig s).costs :=
  fun _ _ hv => Or.inl (startConfig_costs hv).1

/-- A step keeps every cost entry an offer of a finalized node. -/
theorem step_origin {G : Graph} {s : String} (it : CostMap → CostMap) {c : Config}
    (A : ArriveInv G s c) (O : OriginInv G s c.vis c.costs) :
    OriginInv G s (step G it c).vis (step G it c).costs := by
  obtain ⟨ch, hch, _⟩ := A.hostCost
  intro n v hv
  rw [step_vis, step_costs] at *
  rcases relax_costs_cases hv with h | ⟨⟨e, he, her, hc⟩, _⟩
  · rcases O n v h with h1 | ⟨u, cu, e, hu, hcu, he, her, hve⟩
    · exact Or.inl h1
    · exact Or.inr ⟨u, cu, e, relax_vis_of_some _ _ _ hu,
        (relax_costs_of_visited _ _ _ (Or.inl hu)).trans hcu, he, her, hve⟩
  · right
    simp only at hc
    rw [costGet_of_some hch] at hc
    exact ⟨c.host, ch, e, relax_vis_host _ _ _,
      (relax_costs_of_visited _ _ _ (Or.inr rfl)).trans hch, he, her, hc⟩

theorem next_origin {G : Graph} {s : String} {it : CostMap → CostMap} {c c' : Config}
    (A : ArriveInv G s c) (O : OriginInv G s c.vis c.costs)
    (hn : nextConfig (step G it c) = some c') : OriginInv G s c'.vis c'.costs := by
  obtain ⟨e1, e2, _⟩ := nextConfig_eq_some hn
  rw [e1, e2]
  exact step_origin it A O

/-- The tables of the terminating node are settled. -/
theorem runFinal_settled {G : Graph} (hG : NonNeg G) (hF : CostsFit G) {s : String}
    {iter : Nat → CostMap → CostMap} (hit : IterOK iter) (hE : ¬ Reachable G s "")
    (fuel : Nat) (o : Outcome) (h : runFinal G iter fuel s = some o) : Settled G s o := by
  obtain ⟨hnone, c, hc⟩ := runResult_mem_trace G iter fuel 0 (startConfig s) o h
  obtain ⟨⟨A, E, O⟩, j, hj⟩ := trace_inv G iter
    (fun c => ArriveInv G s c ∧ ArriveExact G s c ∧ OriginInv G s c.vis c.costs)
    (fun k _ _ hc hn =>
      ⟨next_arriveInv hG (hit k) hc.1 hn, next_arriveExact hG hF (hit k) hc.1 hc.2.1 hn,
        next_origin hc.1 hc.2.2 hn⟩)
    fuel 0 (startConfig s)
    ⟨startConfig_arriveInv hG s, startConfig_arriveExact G s, startConfig_origin G s⟩ (c, o) hc
  have K := (trace_keysReachable G iter hit fuel s (c, o) hc).1
  simp only at A E O K hj
  subst hj
  refine ⟨step_tokenInv (iter j) A, step_walk hG hF (iter j) A E, step_below (iter j) E,
    step_origin (iter j) A O, ?_⟩
  rcases ProcessThisNode_none (hit j _) hnone with ⟨c0, hc0⟩ | hall
  · exact absurd ((step_keysReachable G s (iter j) c K).2 "" c0 hc0) hE
  · exact hall

/-- In settled tables the visited nodes are the nodes with a walk of cost below
`infinity`. -/
theorem Settled.visited_iff {G : Graph} (hG : NonNeg G) {s : String} {o : Outcome}
    (S : Settled G s o) (v : String) :
    mapGet? o.vis v = some true ↔ ∃ w, Walk G s v w ∧ w < infinity := by
  constructor
  · intro hv
    obtain ⟨d, hd⟩ := S.inv.sync v true hv
    exact ⟨d, S.walk v d hd, S.below v d hv hd⟩
  · rintro ⟨w, hw, hlt⟩
    rcases walk_frontier hG S.inv hw with h | ⟨y, cy, hy, hvy, hle⟩
    · exact h
    · have := S.allGe y cy hy hvy
      omega

theorem Settled.visited_dist {G : Graph} {s : String} {o : Outcome} (S : Settled G s o)
    {v : String} {d : Int} (hv : mapGet? o.vis v = some true)
    (hd : mapGet? o.costs v = some d) : IsDist G s v d :=
  ⟨S.walk v d hd, S.inv.lower v d hv hd⟩

theorem IsDist.unique {G : Graph} {s v : String} {d d' : Int} (h : IsDist G s v d)
    (h' : IsDist G s v d') : d = d' :=
  le_antisymm (h.2 d' h'.1) (h'.2 d h.1)

/-- An entry of one settled table is matched by an entry at most as large in
any other. -/
theorem Settled.costs_le {G : Graph} (hG : NonNeg G) {s : String} {o o' : Outcome}
    (S : Settled G s o) (S' : Settled G s o') {n : String} {c : Int}
    (hc : mapGet? o.costs n = some c) :
    ∃ c', mapGet? o'.costs n = some c' ∧ c' ≤ c := by
  have hvis : ∀ v, mapGet? o.vis v = some true → mapGet? o'.vis v = some true :=
    fun v hv => (S'.visited_iff hG v).mpr ((S.visited_iff hG v).mp hv)
  have hvis' : ∀ v, mapGet? o'.vis v = some true → mapGet? o.vis v = some true :=
    fun v hv => (S.visited_iff hG v).mpr ((S'.visited_iff hG v).mp hv)
  by_cases hn : mapGet? o.vis n = some true
  · obtain ⟨c', hc'⟩ := S'.inv.sync n true (hvis n hn)
    exact ⟨c', hc', le_of_eq ((S'.visited_dist (hvis n hn) hc').unique (S.visited_dist hn hc))⟩
  · rcases S.origin n c hc with h | ⟨u, cu, e, hu, hcu, he, her, hce⟩
    · rw [h] at hn
      exact absurd S.inv.source hn
    · obtain ⟨cu', hcu'⟩ := S'.inv.sync u true (hvis u hu)
      have heq : cu' = cu := (S'.visited_dist (hvis u hu) hcu').unique (S.visited_dist hu hcu)
      rcases S'.inv.relaxed u cu' (hvis u hu) hcu' e he with hr | ⟨c', hc', hle⟩
      · rw [her] at hr
        exact absurd (hvis' n hr) hn
      · rw [her] at hc'
        rw [heq, ← hce] at hle
        exact ⟨c', hc', hle⟩

/-- Two settled tables of the same graph and source agree entry by entry. -/
theorem Settled.agree {G : Graph} (hG : NonNeg G) {s : String} {o o' : Outcome}
    (S : Settled G s o) (S' : Settled G s o') (n : String) :
    mapGet? o.costs n = mapGet? o'.costs n ∧ mapGet? o.vis n = mapGet? o'.vis n := by
  have hcosts : mapGet? o.costs n = mapGet? o'.costs n := by
    cases h1 : mapGet? o.costs n with
    | none =>
      cases h2 : mapGet? o'.costs n with
      | none => rfl
      | some c' =>
        obtain ⟨c, hc, _⟩ := S'.costs_le hG S h2
        rw [h1] at hc
        exact Option.noConfusion hc
    | some c =>
      obtain ⟨c', hc', hle⟩ := S.costs_le hG S' h1
      obtain ⟨c'', hc'', hle'⟩ := S'.costs_le hG S hc'
      rw [h1] at hc''
      have : c'' = c := (Option.some.inj hc'').symm
      rw [hc']
      congr 1
      omega
  refine ⟨hcosts, ?_⟩
  have key : ∀ (a b : Outcome), Settled G s a → Settled G s b →
      mapGet? a.costs n = mapGet? b.costs n → ∀ x, mapGet? a.vis n = some x →
      mapGet? b.vis n = some x := by
    intro a b Sa Sb hab x hx
    cases x
    · obtain ⟨v, hv⟩ := Sa.inv.sync n false hx
      rw [hab] at hv
      obtain ⟨y, hy⟩ := Sb.inv.syncRev n v hv
      cases y
      · exact hy
      · have := (Sa.visited_iff hG n).mpr ((Sb.visited_iff hG n).mp hy)
        rw [hx] at this
        exact absurd this (by simp)
    · exact (Sb.visited_iff hG n).mpr ((Sa.visited_iff hG n).mp hx)
  cases h1 : mapGet? o.vis n with
  | some x => exact (key o o' S S' hcosts x h1).symm
  | none =>
    cases h2 : mapGet? o'.vis n with
    | none => rfl
    | some y =>
      have := key o' o S' S hcosts.symm y h2
      rw [h1] at this
      exact Option.noConfusion this

/-- C19, as stated, fails: in `tieOverflowGraph`, whose costs are non-negative,
`B` and `C` tie at cost 1 after the first hop; iterating the cost map in
representation order processes `B` first and ends with `C` at `-2^63`,
iterating it in the opposite order processes `C` first and ends with `C` at 1. -/
theorem C19_counterexample :
    NonNeg tieOverflowGraph ∧ IterOK iterId ∧ IterOK iterRev ∧
      runFinal tieOverflowGraph iterId 4 "A" =
        some ⟨[("A", true), ("B", true), ("C", true)],
          [("A", 0), ("B", 1), ("C", -9223372036854775808)], none⟩ ∧
      runFinal tieOverflowGraph iterRev 4 "A" =
        some ⟨[("A", true), ("B", true), ("C", true)],
          [("A", 0), ("B", 1), ("C", 1)], none⟩ :=
  ⟨by decide, fun _ _ => List.Perm.refl _, fun _ m => List.reverse_perm m, by decide, by decide⟩

/-- C19 (amended): for every graph whose edge costs are non-negative and at most
`2^63 - 10^8` and in which no reachable node has the empty id, and every
source, any two runs that differ only in the map iteration orders used end,
and end with final cost tables that have the same entries and with visited
sets that have the same entries. -/
theorem C19_tie_break_independent (G : Graph) (s : String)
    (iter iter' : Nat → CostMap → CostMap) (fuel fuel' : Nat) (hG : NonNeg G)
    (hF : CostsFit G) (hE : ¬ Reachable G s "") (hit : IterOK iter) (hit' : IterOK iter')
    (hfuel : nodeCount G s < fuel) (hfuel' : nodeCount G s < fuel') :
    ∃ o o', runFinal G iter fuel s = some o ∧ runFinal G iter' fuel' s = some o' ∧
      (∀ n, mapGet? o.costs n = mapGet? o'.costs n) ∧
      (∀ n, mapGet? o.vis n = mapGet? o'.vis n) := by
  obtain ⟨o, ho⟩ := runFinal_isSome G iter hit fuel s hfuel
  obtain ⟨o', ho'⟩ := runFinal_isSome G iter' hit' fuel' s hfuel'
  have S := runFinal_settled hG hF hit hE fuel o ho
  have S' := runFinal_settled hG hF hit' hE fuel' o' ho'
  exact ⟨o, o', ho, ho', fun n => (S.agree hG S' n).1, fun n => (S.agree hG S' n).2⟩

/-- The witness of C19: in `diamondGraph` the two iteration orders process `B`
and `C` in opposite orders and end with the same tables. -/
theorem C19_tie_break_independent_witness :
    (∃ o o', runFinal diamondGraph iterId 5 "A" = some o ∧
      runFinal diamondGraph iterRev 5 "A" = some o' ∧
      (∀ n, mapGet? o.costs n = mapGet? o'.costs n) ∧
      (∀ n, mapGet? o.vis n = mapGet? o'.vis n)) ∧
      (runTrace diamondGraph iterId 5 "A").map (fun p => p.1.host) = ["A", "B", "C", "D"] ∧
      (runTrace diamondGraph iterRev 5 "A").map (fun p => p.1.host) = ["A", "C", "B", "D"] :=
  ⟨C19_tie_break_independent diamondGraph "A" iterId iterRev 5 5 (by decide) (by decide)
      (fun h => (by decide : "" ∉ graphIds diamondGraph "A") h.mem_graphIds)
      (fun _ _ => List.Perm.refl _) (fun _ m => List.reverse_perm m) (by decide) (by decide),
    by decide, by decide⟩

end Dijkstra
